import Mathlib

/-!
# mcufont: the bit-packed bitmap font format, its loader and its packer

A shallow embedding of `decoder/mf_font.c` (dispatch with fallback, the dynamic
loader `mf_make_font`) and of `encoder/export_bwfont.cc` (the glyph packer
`encode_glyph`, the two range encoders `encode_character_range` and
`encode_character_range_raw`, and the serializer `write_case`).

Conventions of the embedding.

* A `uint8_t *` is the memory reachable from it: a function from the byte
  offset to the value stored there; `byteAt` reads one byte.  The length that
  travels with a buffer is a separate number, as in the C signature.
* Machine integers are naturals; a store into a narrower type is an explicit
  remainder.
* A C++ exception (`std::vector::at` out of range) and a division by zero are
  the result `none`.
* The variant's render function is given by what it does: the advance it
  returns and the pixel runs it hands to the sink, in order.
* The stream of the source-table path is the list of the `write_const_table`
  calls made on it.
-/

namespace Mcufont

/-! ## Decoder: descriptor and dispatch (`mf_font.c`) -/

/-- One invocation of the rendering sink `mf_pixel_callback_t`:
`(x, y, count, alpha)`. -/
structure Run where
  x : Int
  y : Int
  count : Nat
  alpha : Nat
deriving DecidableEq, Repr

/-- One invocation of the variant's `render_character` function pointer:
the position and the codepoint it was called with. -/
structure RenderCall where
  x0 : Int
  y0 : Int
  character : Nat
deriving DecidableEq, Repr

/-- Modelled from the spec: `struct mf_font_s` of `mf_font.h`, which is not
among the sources.  The one-byte metadata fields are unsigned bytes as in the
layout table of the binary format; the names are the owned character buffers;
the two function pointers are the variant's measure and render bound to this
font, render being given by its advance and the runs it sends to the sink. -/
structure mf_font_s where
  full_name : List Nat
  short_name : List Nat
  width : Nat
  height : Nat
  min_x_advance : Nat
  max_x_advance : Nat
  baseline_x : Nat
  baseline_y : Nat
  line_height : Nat
  flags : Nat
  fallback_character : Nat
  character_width : Nat → Nat
  render_character : Int → Int → Nat → Nat × List Run

/-- The sink is invoked once per run, in order, each time on the state the
previous invocation left. -/
def deliver {σ : Type} (callback : Int → Int → Nat → Nat → σ → σ)
    (runs : List Run) (state : σ) : σ :=
  runs.foldl (fun s r => callback r.x r.y r.count r.alpha s) state

/-- What a call of `mf_render_character` leaves behind: the returned advance,
the sink's state, and the variant invocations made, oldest first. -/
structure RenderOutcome (σ : Type) where
  width : Nat
  state : σ
  calls : List RenderCall

/-- `mf_render_character` of `mf_font.c`. -/
def mf_render_character {σ : Type} (font : mf_font_s) (x0 y0 : Int) (character : Nat)
    (callback : Int → Int → Nat → Nat → σ → σ) (state : σ) : RenderOutcome σ :=
  let r1 := font.render_character x0 y0 character
  let width := r1.1
  let state := deliver callback r1.2 state
  let calls := [RenderCall.mk x0 y0 character]
  if width = 0 then
    let r2 := font.render_character x0 y0 font.fallback_character
    let width := r2.1
    let state := deliver callback r2.2 state
    let calls := calls ++ [RenderCall.mk x0 y0 font.fallback_character]
    { width := width, state := state, calls := calls }
  else
    { width := width, state := state, calls := calls }

/-- `mf_character_width` of `mf_font.c`. -/
def mf_character_width (font : mf_font_s) (character : Nat) : Nat :=
  let width := font.character_width character
  if width = 0 then
    font.character_width font.fallback_character
  else
    width

/-! ## Decoder: the dynamic loader (`mf_make_font`) -/

/-- The byte `p[i]` of a `uint8_t *p`. -/
def byteAt (p : Nat → Nat) (i : Nat) : Nat := p i % 256

/-- The read `*((uint16_t*)(p+i))` on a little-endian machine. -/
def u16At (p : Nat → Nat) (i : Nat) : Nat := byteAt p i + 256 * byteAt p (i + 1)

/-- The read `*((uint32_t*)(p+i))` on a little-endian machine. -/
def u32At (p : Nat → Nat) (i : Nat) : Nat :=
  byteAt p i + 256 * byteAt p (i + 1) + 65536 * byteAt p (i + 2)
    + 16777216 * byteAt p (i + 3)

/-- The memory of a buffer that holds exactly the bytes `bytes`; beyond its
end the model reads zero. -/
def bufferOf (bytes : List Nat) : Nat → Nat := fun i => bytes.getD i 0

/-- `strequals` of `mf_font.c`.  `a` is the characters stored at the first
pointer, which the C string's terminating NUL follows; `b` is the memory at
the second pointer.  The loop runs over `a` up to its first NUL and then
returns `!*b`. -/
def strequals : List Nat → (Nat → Nat) → Bool
  | [], b => byteAt b 0 == 0
  | c :: a, b =>
    if c = 0 then byteAt b 0 == 0
    else if c ≠ byteAt b 0 then false
    else strequals a (fun i => b (i + 1))

/-- The string literal `"ftbw"`. -/
def MF_BWFONT_MAGIC : List Nat := [102, 116, 98, 119]

/-- The string literal `"ftrl"`. -/
def MF_RLEFONT_MAGIC : List Nat := [102, 116, 114, 108]

/-- `struct mf_bwfont_char_range_s`, as `mf_make_font` fills it.  A pointer
into the buffer is the offset it points at; `none` is `NULL`. -/
structure mf_bwfont_char_range_s where
  first_char : Nat
  char_count : Nat
  offset_x : Nat
  offset_y : Nat
  height_bytes : Nat
  height_pixels : Nat
  width : Nat
  glyph_widths : Option Nat
  glyph_offsets : Option Nat
  glyph_data : Nat
deriving DecidableEq, Repr

/-- `struct mf_bwfont_s`, as `mf_make_font` fills it. -/
structure mf_bwfont_s where
  font : mf_font_s
  version : Nat
  char_range_count : Nat
  char_ranges : List mf_bwfont_char_range_s

/-- The names `mf_make_font` uses whose definitions lie in headers and files
outside the translated sources: the two macros of `mf_font.h` and the two
functions of the bitmap variant, which reach the range table and the buffer
through the font pointer. -/
structure mf_decls where
  MF_TYPECASE_VERSION_SUPPORTED : Nat
  MF_FONT_FLAG_BW : Nat
  mf_bwfont_character_width :
    List mf_bwfont_char_range_s → (Nat → Nat) → Nat → Nat
  mf_bwfont_render_character :
    List mf_bwfont_char_range_s → (Nat → Nat) → Int → Int → Nat → Nat × List Run

/-- The body of the range loop of `mf_make_font`: one record read at `run`. -/
def read_range (bulk : Nat → Nat) (run : Nat) : mf_bwfont_char_range_s × Nat :=
  let first_char := u16At bulk run
  let run := run + 2
  let char_count := u16At bulk run
  let run := run + 2
  let offset_x := byteAt bulk run
  let run := run + 1
  let offset_y := byteAt bulk run
  let run := run + 1
  let height_bytes := byteAt bulk run
  let run := run + 1
  let height_pixels := byteAt bulk run
  let run := run + 1
  let width := byteAt bulk run
  let run := run + 1
  let offs := u32At bulk run
  let run := run + 4
  let glyph_widths := if width ≠ 0 then none else some offs
  let offs := u32At bulk run
  let run := run + 4
  let glyph_offsets := if width ≠ 0 then none else some offs
  let offs := u32At bulk run
  let run := run + 4
  ({ first_char := first_char, char_count := char_count, offset_x := offset_x,
     offset_y := offset_y, height_bytes := height_bytes,
     height_pixels := height_pixels, width := width,
     glyph_widths := glyph_widths, glyph_offsets := glyph_offsets,
     glyph_data := offs }, run)

/-- The range loop of `mf_make_font`: `count` records, the first at `run`. -/
def read_ranges (bulk : Nat → Nat) : Nat → Nat → List mf_bwfont_char_range_s
  | 0, _ => []
  | count + 1, run =>
    let r := read_range bulk run
    r.1 :: read_ranges bulk count r.2

/-- The buffer `calloc(slen+2, 1)` after `memcpy(dst, bulk+run, slen)`. -/
def copy_name (bulk : Nat → Nat) (run slen : Nat) : List Nat :=
  (List.range slen).map (fun i => byteAt bulk (run + i)) ++ [0, 0]

/-- The part of `mf_make_font` after the magic has been recognised.  `flags`
is what the branch taken stored in `built->flags`. -/
def mf_make_font_fields (D : mf_decls) (bulk : Nat → Nat) (flags : Nat) (run : Nat) :
    Option mf_bwfont_s :=
  let typecase_version := byteAt bulk run
  let run := run + 1
  let font_version := byteAt bulk run
  let run := run + 1
  if typecase_version ≠ D.MF_TYPECASE_VERSION_SUPPORTED then none
  else
    let width := byteAt bulk run
    let run := run + 1
    let height := byteAt bulk run
    let run := run + 1
    let min_x_advance := byteAt bulk run
    let run := run + 1
    let max_x_advance := byteAt bulk run
    let run := run + 1
    let baseline_x := byteAt bulk run
    let run := run + 1
    let baseline_y := byteAt bulk run
    let run := run + 1
    let line_height := byteAt bulk run
    let run := run + 1
    let _overwritten := flags
    let flags := byteAt bulk run
    let run := run + 1
    let fallback_character := u16At bulk run
    let run := run + 2
    let slen := byteAt bulk run
    let run := run + 1
    let full_name := copy_name bulk run slen
    let run := run + slen
    let slen := byteAt bulk run
    let run := run + 1
    let short_name := copy_name bulk run slen
    let run := run + slen
    if flags &&& D.MF_FONT_FLAG_BW ≠ 0 then
      let char_range_count := byteAt bulk run
      let run := run + 1
      let char_ranges := read_ranges bulk char_range_count run
      some
        { font :=
            { full_name := full_name, short_name := short_name,
              width := width, height := height,
              min_x_advance := min_x_advance, max_x_advance := max_x_advance,
              baseline_x := baseline_x, baseline_y := baseline_y,
              line_height := line_height, flags := flags,
              fallback_character := fallback_character,
              character_width := D.mf_bwfont_character_width char_ranges bulk,
              render_character := D.mf_bwfont_render_character char_ranges bulk },
          version := font_version,
          char_range_count := char_range_count,
          char_ranges := char_ranges }
    else none

/-- `mf_make_font` of `mf_font.c`.  `none` is the `NULL` return.  The length
argument is never consulted. -/
def mf_make_font (D : mf_decls) (bulk : Nat → Nat) (len : Nat) : Option mf_bwfont_s :=
  let _unused := len
  let run := 4
  if strequals MF_BWFONT_MAGIC bulk then
    mf_make_font_fields D bulk D.MF_FONT_FLAG_BW run
  else if strequals MF_RLEFONT_MAGIC bulk then
    mf_make_font_fields D bulk 0 run
  else none

/-! ## Encoder: the glyph packer (`encode_glyph`) -/

/-- The loop `for (i = start; i < start + n; i++) s = body(i, s)`; an
exception thrown by the body ends it. -/
def for_loop {α : Type} (body : Nat → α → Option α) : Nat → Nat → α → Option α
  | 0, _, s => some s
  | n + 1, i, s =>
    match body i s with
    | none => none
    | some s1 => for_loop body n (i + 1) s1

/-- The loop `for (y = start; y < bound; y += step) s = body(y, s)`, unrolled
`fuel` times; `bound` rounds suffice for a positive step from zero. -/
def for_step {α : Type} (body : Nat → α → Option α) (bound step : Nat) :
    Nat → Nat → α → Option α
  | 0, _, s => some s
  | fuel + 1, y, s =>
    if y < bound then
      match body y s with
      | none => none
      | some s1 => for_step body bound step fuel (y + step) s1
    else some s

/-- Modelled from the spec: `DataFile::glyphentry_t` of `datafile.hh`, which is
not among the sources: the advance width and the row-major alpha matrix. -/
structure glyphentry_t where
  data : List Nat
  width : Nat
deriving DecidableEq, Repr

/-- Modelled from the spec: `DataFile::fontinfo_t` of `datafile.hh`, which is
not among the sources.  The bounding box has non-negative dimensions. -/
structure fontinfo_t where
  name : List Nat
  max_width : Nat
  max_height : Nat
  baseline_x : Int
  baseline_y : Int
  line_height : Nat
  flags : Nat
deriving DecidableEq, Repr

/-- The first loop nest of `encode_glyph`: "Find the number of columns in
the glyph data", entered when `num_cols == 0`. -/
def find_num_cols (glyph : glyphentry_t) (fontinfo : fontinfo_t) (num_cols : Nat) :
    Option Nat :=
  let threshold := 8
  if num_cols = 0 then
    for_loop (fun x num_cols =>
      for_loop (fun y num_cols =>
        let index := y * fontinfo.max_width + x
        match glyph.data[index]? with
        | none => none
        | some a => some (if a ≥ threshold then x + 1 else num_cols))
        fontinfo.max_height 0 num_cols)
      fontinfo.max_width 0 num_cols
  else some num_cols

/-- The innermost loop of `encode_glyph`: the byte of the band that starts at
row `y` of column `x`. -/
def pack_byte (glyph : glyphentry_t) (fontinfo : fontinfo_t) (x y : Nat) : Option Nat :=
  let threshold := 8
  let remain := min 8 (fontinfo.max_height - y)
  for_loop (fun i byte =>
    let index := (y + i) * fontinfo.max_width + x
    match glyph.data[index]? with
    | none => none
    | some a => some (if a ≥ threshold then (byte ||| (1 <<< i)) % 256 else byte))
    remain 0 0

/-- The second loop nest of `encode_glyph`: "Write the bits that compose the
glyph". -/
def write_cols (glyph : glyphentry_t) (fontinfo : fontinfo_t) (dest : List Nat)
    (num_cols : Nat) : Option (List Nat) :=
  for_loop (fun x dest =>
    for_step (fun y dest =>
      match pack_byte glyph fontinfo x y with
      | none => none
      | some byte => some (dest ++ [byte]))
      fontinfo.max_height 8 fontinfo.max_height 0 dest)
    num_cols 0 dest

/-- `encode_glyph` of `export_bwfont.cc`: the contents of `dest` afterwards. -/
def encode_glyph (glyph : glyphentry_t) (fontinfo : fontinfo_t) (dest : List Nat)
    (num_cols : Nat) : Option (List Nat) :=
  if glyph.data.length = 0 then some dest
  else
    match find_num_cols glyph fontinfo num_cols with
    | none => none
    | some num_cols => write_cols glyph fontinfo dest num_cols

/-- Modelled from the spec: the unpacking step of the bitmap decoder's render
(`mf_bwfont.c` is not among the sources): "for each column, for each 8-row
band, unpack the byte into up-to-8 individual pixels", "a bit set maps to full
coverage, 16, a bit clear maps to 0".  Byte number `x * height_bytes + b` of
the glyph's span holds rows `8b .. 8b+7` of column `x`. -/
def unpack_pixel (span : List Nat) (height_bytes x y : Nat) : Nat :=
  if (span.getD (x * height_bytes + y / 8) 0).testBit (y % 8) then 16 else 0

/-! ## Encoder: ranges and the serializer (`encode_character_range_raw`, `write_case`) -/

/-- `struct cropinfo_t` of `export_bwfont.cc`; every member is a `size_t`. -/
structure cropinfo_t where
  offset_x : Nat
  offset_y : Nat
  height_bytes : Nat
  height_pixels : Nat
  width : Nat
deriving DecidableEq, Repr

/-- Modelled from the spec: `char_range_t` of `exporttools.hh`, which is not
among the sources: the first codepoint, the number of slots, and for each slot
the index of its glyph in the data file, negative for an absent codepoint. -/
structure char_range_t where
  first_char : Nat
  char_count : Nat
  glyph_indices : List Int
deriving DecidableEq, Repr

/-- Modelled from the spec: the parts of `DataFile` (`datafile.hh`, not among
the sources) that the exporter reads: the glyph table and the font info. -/
structure DataFile where
  glyphtable : List glyphentry_t
  fontinfo : fontinfo_t
deriving DecidableEq, Repr

/-- Modelled from the spec: `DataFile::GetGlyphEntry`, a bounds-checked
lookup in the glyph table; a negative index is out of range. -/
def DataFile.GetGlyphEntry (datafile : DataFile) (index : Int) : Option glyphentry_t :=
  if index < 0 then none else datafile.glyphtable[index.toNat]?

/-- Modelled from the spec: `DataFile::GetFontInfo`. -/
def DataFile.GetFontInfo (datafile : DataFile) : fontinfo_t := datafile.fontinfo

/-- The names the exporter uses whose definitions lie in `datafile.hh`,
`exporttools.hh` and `importtools.hh`, outside the translated sources. -/
structure export_decls where
  FLAG_BW : Nat
  filename_to_identifier : List Nat → List Nat
  compute_char_ranges : DataFile → (Nat → Nat) → Nat → Nat → List char_range_t
  crop_glyphs : List glyphentry_t → fontinfo_t → List glyphentry_t × fontinfo_t
  get_min_x_advance : DataFile → Nat
  get_max_x_advance : DataFile → Nat
  select_fallback_char : DataFile → Nat

/-- The conversion of an `int` to `size_t`. -/
def to_size_t (v : Int) : Nat := (v % 18446744073709551616).toNat

/-- The loop "Copy all the glyphs in this range for the purpose of cropping
them": the state is `(glyphs, constant_width, width)`. -/
def copy_glyphs (datafile : DataFile) :
    List Int → List glyphentry_t × Bool × Nat → Option (List glyphentry_t × Bool × Nat)
  | [], s => some s
  | glyph_index :: rest, (glyphs, constant_width, width) =>
    if glyph_index < 0 then
      let dummy : glyphentry_t := { data := [], width := 0 }
      copy_glyphs datafile rest (glyphs ++ [dummy], constant_width, width)
    else
      match datafile.GetGlyphEntry glyph_index with
      | none => none
      | some glyph =>
        if glyph.width ≠ width then
          copy_glyphs datafile rest (glyphs ++ [glyph], false, 0)
        else
          copy_glyphs datafile rest (glyphs ++ [glyph], constant_width, width)

/-- The loop "Then format and write out the glyph data": the state is
`(offsets, data, widths)`. -/
def format_glyphs (new_fi : fontinfo_t) (stride width : Nat) :
    List glyphentry_t → List Nat × List Nat × List Nat →
      Option (List Nat × List Nat × List Nat)
  | [], s => some s
  | g :: rest, (offsets, data, widths) =>
    if stride = 0 then none
    else
      let offsets := offsets ++ [data.length / stride]
      let widths := widths ++ [g.width]
      match encode_glyph g new_fi data width with
      | none => none
      | some data => format_glyphs new_fi stride width rest (offsets, data, widths)

/-- `encode_character_range_raw` of `export_bwfont.cc`: the blocks afterwards
and the crop information.  `range.glyph_indices[0]` of an empty vector is
undefined and given as `none`. -/
def encode_character_range_raw (E : export_decls) (blocks : List (List Nat))
    (datafile : DataFile) (range : char_range_t) (range_index : Nat) :
    Option (List (List Nat) × cropinfo_t) :=
  let _unused := range_index
  match range.glyph_indices[0]? with
  | none => none
  | some first =>
  match datafile.GetGlyphEntry first with
  | none => none
  | some first_glyph =>
  match copy_glyphs datafile range.glyph_indices ([], true, first_glyph.width) with
  | none => none
  | some (glyphs, constant_width, width) =>
    let old_fi := datafile.GetFontInfo
    let cropped := E.crop_glyphs glyphs old_fi
    let glyphs := cropped.1
    let new_fi := cropped.2
    let constant_width := if new_fi.max_width ≠ width then false else constant_width
    let width := if new_fi.max_width ≠ width then 0 else width
    let height_pixels := new_fi.max_height
    let cropinfo : cropinfo_t :=
      { offset_x := to_size_t (old_fi.baseline_x - new_fi.baseline_x),
        offset_y := to_size_t (old_fi.baseline_y - new_fi.baseline_y),
        height_pixels := height_pixels,
        height_bytes := (height_pixels + 7) / 8,
        width := width }
    let stride := cropinfo.height_bytes
    match format_glyphs new_fi stride width glyphs ([], [], []) with
    | none => none
    | some (offsets, data, widths) =>
      if stride = 0 then none
      else
        let offsets := offsets ++ [data.length / stride]
        let blocks :=
          if !constant_width then blocks ++ [widths] ++ [offsets]
          else blocks ++ [[]] ++ [[]]
        some (blocks ++ [data], cropinfo)

/-- `out.put(v)`: one byte. -/
def put (v : Nat) : List Nat := [v % 256]

/-- `out.write((char*)&tmptwo, sizeof(uint16_t))` after `tmptwo = v`, on a
little-endian machine. -/
def write_u16 (v : Nat) : List Nat := [v % 256, v / 256 % 256]

/-- `out.write((char*)&tmpfour, sizeof(uint32_t))` after `tmpfour = v`, on a
little-endian machine. -/
def write_u32 (v : Nat) : List Nat :=
  [v % 256, v / 256 % 256, v / 65536 % 256, v / 16777216 % 256]

/-- `out.write(s.c_str(), s.length())`. -/
def write_chars (s : List Nat) : List Nat := s.map (fun c => c % 256)

/-- The loop of `write_case` that encodes every range: the state is
`(blocks, crops)`. -/
def encode_ranges (E : export_decls) (datafile : DataFile) (ranges : List char_range_t) :
    Nat → Nat → List (List Nat) × List cropinfo_t →
      Option (List (List Nat) × List cropinfo_t) :=
  for_loop (fun i s =>
    match ranges[i]? with
    | none => none
    | some range =>
      match encode_character_range_raw E s.1 datafile range i with
      | none => none
      | some r => some (r.1, s.2 ++ [r.2]))

/-- The loop of `write_case` that writes the range records: the state is
`(out, run)`. -/
def write_records (ranges : List char_range_t) (crops : List cropinfo_t)
    (blocks : List (List Nat)) : Nat → Nat → List Nat × Nat → Option (List Nat × Nat) :=
  for_loop (fun i s =>
    let out := s.1
    let run := s.2
    match ranges[i]?, crops[i]? with
    | some range, some crop =>
      let out := out ++ write_u16 range.first_char
      let out := out ++ write_u16 range.char_count
      let out := out ++ put crop.offset_x
      let out := out ++ put crop.offset_y
      let out := out ++ put crop.height_bytes
      let out := out ++ put crop.height_pixels
      let out := out ++ put crop.width
      if crop.width ≠ 0 then
        let out := out ++ write_u32 0
        let out := out ++ write_u32 0
        match blocks[i * 3 + 2]? with
        | none => none
        | some data =>
          let out := out ++ write_u32 run
          let run := run + data.length * 1
          some (out, run)
      else
        match blocks[i * 3 + 0]?, blocks[i * 3 + 1]?, blocks[i * 3 + 2]? with
        | some widths, some offsets, some data =>
          let out := out ++ write_u32 run
          let run := run + widths.length * 1
          let out := out ++ write_u32 run
          let run := run + offsets.length * 2
          let out := out ++ write_u32 run
          let run := run + data.length * 1
          some (out, run)
        | _, _, _ => none
    | _, _ => none)

/-- The loop of `write_case` that writes the blocks, three per range. -/
def write_blocks (blocks : List (List Nat)) : Nat → Nat → List Nat → Option (List Nat) :=
  for_step (fun i out =>
    match blocks[i + 0]?, blocks[i + 1]?, blocks[i + 2]? with
    | some widths, some offsets, some data =>
      let out := out ++ (widths.map put).flatten
      let out := out ++ (offsets.map write_u16).flatten
      let out := out ++ (data.map put).flatten
      some out
    | _, _, _ => none)
    blocks.length 3

/-- `write_case` of `export_bwfont.cc`: the bytes written to `out`. -/
def write_case (E : export_decls) (name : List Nat) (datafile : DataFile) :
    Option (List Nat) :=
  let BWFONT_FORMAT_VERSION := 4
  let TYPECASE_FORMAT_VERSION := 2
  let name := E.filename_to_identifier name
  let flags := datafile.GetFontInfo.flags ||| E.FLAG_BW
  let run := 0
  let f := datafile.GetFontInfo
  let glyph_size := f.max_width * ((f.max_height + 7) / 8)
  let ranges := E.compute_char_ranges datafile (fun _ => glyph_size) 65536 16
  match encode_ranges E datafile ranges ranges.length 0 ([], []) with
  | none => none
  | some (blocks, crops) =>
    let out := MF_BWFONT_MAGIC
    let run := run + 4
    let out := out ++ put TYPECASE_FORMAT_VERSION
    let run := run + 1
    let out := out ++ put BWFONT_FORMAT_VERSION
    let run := run + 1
    let out := out ++ put datafile.GetFontInfo.max_width
    let run := run + 1
    let out := out ++ put datafile.GetFontInfo.max_height
    let run := run + 1
    let out := out ++ put (E.get_min_x_advance datafile)
    let run := run + 1
    let out := out ++ put (E.get_max_x_advance datafile)
    let run := run + 1
    let out := out ++ put (to_size_t datafile.GetFontInfo.baseline_x)
    let run := run + 1
    let out := out ++ put (to_size_t datafile.GetFontInfo.baseline_y)
    let run := run + 1
    let out := out ++ put datafile.GetFontInfo.line_height
    let run := run + 1
    let out := out ++ put flags
    let run := run + 1
    let out := out ++ write_u16 (E.select_fallback_char datafile)
    let run := run + 2
    let fname := datafile.GetFontInfo.name
    let out := out ++ put fname.length
    let run := run + 1
    let out := out ++ write_chars fname
    let run := run + fname.length
    let out := out ++ put name.length
    let run := run + 1
    let out := out ++ write_chars name
    let run := run + name.length
    let out := out ++ put ranges.length
    let run := run + 1
    let run := run + (2 + 2 + 1 + 1 + 1 + 1 + 1 + 4 + 4 + 4) * ranges.length
    match write_records ranges crops blocks ranges.length 0 (out, run) with
    | none => none
    | some (out, _) => write_blocks blocks blocks.length 0 out

/-! ## Concrete fonts and buffers used as instances -/

/-- The sink that records every run it is handed. -/
def record_run (x y : Int) (count alpha : Nat) (seen : List Run) : List Run :=
  seen ++ [{ x := x, y := y, count := count, alpha := alpha }]

/-- The font of the spec's scenario: one range holding `A` (65), width 5,
height 8, one fully inked row; `A` is also the fallback. -/
def scenario_font : mf_font_s where
  full_name := [83, 0, 0]
  short_name := [115, 0, 0]
  width := 5
  height := 8
  min_x_advance := 5
  max_x_advance := 5
  baseline_x := 0
  baseline_y := 7
  line_height := 8
  flags := 2
  fallback_character := 65
  character_width := fun c => if c = 65 then 5 else 0
  render_character := fun x0 y0 c =>
    if c = 65 then (5, [{ x := x0, y := y0, count := 5, alpha := 16 }]) else (0, [])

/-- The scenario font with a fallback codepoint that no range covers. -/
def orphan_font : mf_font_s := { scenario_font with fallback_character := 63 }

/-- The value of a list of bytes read as a little-endian number. -/
def little_endian : List Nat → Nat
  | [] => 0
  | b :: rest => b + 256 * little_endian rest

/-- The first four bytes of a buffer. -/
def magic_of (bulk : Nat → Nat) : List Nat :=
  [byteAt bulk 0, byteAt bulk 1, byteAt bulk 2, byteAt bulk 3]

/-- The number of bytes the layout declared by a buffer's own length fields
takes: the 16-byte fixed header, the two length-prefixed names, the range
count and that many 21-byte range records. -/
def declared_size (bulk : Nat → Nat) : Nat :=
  let l1 := byteAt bulk 16
  let l2 := byteAt bulk (17 + l1)
  let range_count := byteAt bulk (18 + l1 + l2)
  16 + (1 + l1) + (1 + l2) + 1 + 21 * range_count

/-- A loader configuration: the given supported typecase version, the
black-and-white flag bit 2, and a bitmap variant that measures every
codepoint as 0. -/
def decls_with_version (v : Nat) : mf_decls where
  MF_TYPECASE_VERSION_SUPPORTED := v
  MF_FONT_FLAG_BW := 2
  mf_bwfont_character_width := fun _ _ _ => 0
  mf_bwfont_render_character := fun _ _ _ _ _ => (0, [])

/-- A font file of 43 bytes: magic `ftbw`, typecase version 0, font version 4,
a 5 by 8 box, flags 2, fallback `A`, names `S` and `s`, one range record for
`A` with shared width 5 and its five glyph bytes at offset 42. -/
def sample_file : List Nat :=
  [102, 116, 98, 119, 0, 4, 5, 8, 5, 5, 0, 7, 8, 2, 65, 0,
   1, 83, 1, 115, 1,
   65, 0, 1, 0, 0, 0, 1, 8, 5, 0, 0, 0, 0, 0, 0, 0, 0, 42, 0, 0, 0,
   1, 1, 1, 1, 1]

/-- An exporter configuration: flag bit 2, identifiers left as they are, one
range per data file holding every glyph from codepoint 65 on, no cropping,
advances 3, fallback `A`. -/
def sample_export : export_decls where
  FLAG_BW := 2
  filename_to_identifier := id
  compute_char_ranges := fun datafile _ _ _ =>
    [{ first_char := 65, char_count := datafile.glyphtable.length,
       glyph_indices := (List.range datafile.glyphtable.length).map Int.ofNat }]
  crop_glyphs := fun glyphs fontinfo => (glyphs, fontinfo)
  get_min_x_advance := fun _ => 3
  get_max_x_advance := fun _ => 3
  select_fallback_char := fun _ => 65

/-- A data file with two 3 by 3 glyphs of different advance widths. -/
def sample_datafile : DataFile where
  glyphtable :=
    [{ data := [0, 16, 0, 9, 0, 0, 0, 8, 0], width := 3 },
     { data := [0, 0, 0, 9, 0, 0, 0, 8, 0], width := 2 }]
  fontinfo :=
    { name := [70, 71], max_width := 3, max_height := 3, baseline_x := 1,
      baseline_y := 2, line_height := 4, flags := 0 }

/-- The sample file with the typecase version byte set to 2, the value
`write_case` stores there. -/
def sample_file_v2 : List Nat := sample_file.set 4 2

/-- The sample file with a flags byte of 0. -/
def sample_file_plain : List Nat := sample_file.set 13 0

/-- The sample file under the magic `ftrl`. -/
def sample_file_rle : List Nat := MF_RLEFONT_MAGIC ++ sample_file.drop 4

/-- A buffer under the magic `case`. -/
def sample_file_case : List Nat := [99, 97, 115, 101] ++ sample_file.drop 4

/-- The offset of range record `r` in a buffer: `19 + L1 + L2 + 21 * r`, where
`L1` is the byte at offset 16 and `L2` the byte at offset `17 + L1`. -/
def range_record_offset (bulk : Nat → Nat) (r : Nat) : Nat :=
  19 + byteAt bulk 16 + byteAt bulk (17 + byteAt bulk 16) + 21 * r

/-- The 55 bytes `write_case` writes for the sample data file. -/
def sample_stream : List Nat :=
  [102, 116, 98, 119, 2, 4, 3, 3, 3, 3, 1, 2, 4, 2, 65, 0,
   2, 70, 71, 1, 97, 1,
   65, 0, 2, 0, 0, 0, 1, 3, 0, 43, 0, 0, 0, 45, 0, 0, 0, 51, 0, 0, 0,
   3, 2, 0, 0, 2, 0, 4, 0, 2, 5, 2, 4]

/-! ## Decoder: the registry and the whitespace box (`mf_find_font`, `mf_character_whitespace`) -/

/-- `mf_find_font` of `mf_font.c`.  The list is the chain that starts at
`MF_INCLUDED_FONTS`, in `next` order; `name` is the characters stored at the
argument, which the C string's terminating NUL follows. -/
def mf_find_font : List mf_font_s → List Nat → Option mf_font_s
  | [], _ => none
  | font :: next, name =>
    if strequals font.full_name (bufferOf name) || strequals font.short_name (bufferOf name)
    then some font
    else mf_find_font next name

/-- `struct whitespace_state` of `mf_font.c`; every member is a `uint8_t`. -/
structure whitespace_state where
  min_x : Nat
  min_y : Nat
  max_x : Nat
  max_y : Nat
deriving DecidableEq, Repr

/-- The conversion of an `int` to `uint8_t`. -/
def to_uint8 (v : Int) : Nat := (v % 256).toNat

/-- The conversion of an `int` to `int16_t`, wrapping. -/
def to_int16 (v : Int) : Int := (v + 32768) % 65536 - 32768

/-- `whitespace_callback` of `mf_font.c`. -/
def whitespace_callback (x y : Int) (count alpha : Nat) (s : whitespace_state) :
    whitespace_state :=
  if alpha > 7 then
    let s := if (s.min_x : Int) > x then { s with min_x := to_uint8 x } else s
    let s := if (s.min_y : Int) > y then { s with min_y := to_uint8 y } else s
    let x := to_int16 (x + ((count : Int) - 1))
    let s := if (s.max_x : Int) < x then { s with max_x := to_uint8 x } else s
    let s := if (s.max_y : Int) < y then { s with max_y := to_uint8 y } else s
    s
  else s

/-- The four bytes `mf_character_whitespace` stores through its pointers. -/
structure whitespace_box where
  left : Nat
  top : Nat
  right : Nat
  bottom : Nat
deriving DecidableEq, Repr

/-- `mf_character_whitespace` of `mf_font.c`, with all four pointers given. -/
def mf_character_whitespace (font : mf_font_s) (character : Nat) : whitespace_box :=
  let state : whitespace_state := { min_x := 255, min_y := 255, max_x := 0, max_y := 0 }
  let state := (mf_render_character font 0 0 character whitespace_callback state).state
  if state.min_x = 255 ∧ state.min_y = 255 then
    { left := font.width, top := font.height, right := 0, bottom := 0 }
  else
    { left := state.min_x, top := state.min_y,
      right := to_uint8 ((font.width : Int) - state.max_x - 1),
      bottom := to_uint8 ((font.height : Int) - state.max_y - 1) }

/-- The characters of the C string held in a character buffer: those before
the first NUL. -/
def c_string (chars : List Nat) : List Nat := chars.takeWhile (fun c => c != 0)

/-- The bytes of a list of characters. -/
def as_bytes (chars : List Nat) : List Nat := chars.map (fun c => c % 256)

/-- Whether a stored name and the name asked for are the same string, byte
for byte. -/
def same_name (stored name : List Nat) : Bool :=
  decide (c_string stored = c_string (as_bytes name))

/-- The runs `mf_render_character` hands to the sink when the character is
rendered at the origin. -/
def runs_at_origin (font : mf_font_s) (character : Nat) : List Run :=
  (mf_render_character font 0 0 character record_run []).state

/-- The runs of a list whose alpha exceeds the coverage threshold 7. -/
def inked (runs : List Run) : List Run := runs.filter (fun r => decide (r.alpha > 7))

/-- A registry of two fonts with the full names `x` and `y` and the same short
name `s`, as two font files of the same file name give. -/
def clashing_registry : List mf_font_s :=
  [{ scenario_font with full_name := [120], short_name := [115], width := 1 },
   { scenario_font with full_name := [121], short_name := [115], width := 2 }]

/-- A font 44 wide whose variant renders `A` as one run that starts at
column 260, as a base font scaled by 3 does. -/
def wide_font : mf_font_s :=
  { scenario_font with
    width := 44
    render_character := fun x0 y0 c =>
      if c = 65 then (5, [{ x := x0 + 260, y := y0, count := 3, alpha := 16 }]) else (0, []) }

/-- The running minimum `whitespace_callback` keeps in a `uint8_t` member,
over the values `val` of a list of runs. -/
def running_min (val : Run → Int) (runs : List Run) (start : Nat) : Nat :=
  runs.foldl (fun m r => if (m : Int) > val r then to_uint8 (val r) else m) start

/-- The running maximum `whitespace_callback` keeps in a `uint8_t` member,
over the values `val` of a list of runs. -/
def running_max (val : Run → Int) (runs : List Run) (start : Nat) : Nat :=
  runs.foldl (fun m r => if (m : Int) < val r then to_uint8 (val r) else m) start

/-! ## The layout of the stream `write_case` writes -/

/-- The bytes `write_case` writes for a block of one-byte entries. -/
def serial_bytes (block : List Nat) : List Nat := (block.map put).flatten

/-- The bytes `write_case` writes for a block of `uint16_t` entries. -/
def serial_words (block : List Nat) : List Nat := (block.map write_u16).flatten

/-- The bytes `write_case` writes for the three blocks of range `i`: the
width table, the offset table, the glyph data. -/
def range_blob (blocks : List (List Nat)) (i : Nat) : List Nat :=
  serial_bytes (blocks.getD (i * 3 + 0) []) ++ serial_words (blocks.getD (i * 3 + 1) [])
    ++ serial_bytes (blocks.getD (i * 3 + 2) [])

/-- The number of bytes of the blocks of the ranges before range `i`. -/
def blobs_before (blocks : List (List Nat)) (i : Nat) : Nat :=
  (((List.range i).map (range_blob blocks)).flatten).length

/-- The fixed part of the stream: magic, versions, metadata, names and the
range count. -/
def case_header (E : export_decls) (name : List Nat) (datafile : DataFile) : List Nat :=
  MF_BWFONT_MAGIC ++ put 2 ++ put 4
    ++ put datafile.GetFontInfo.max_width ++ put datafile.GetFontInfo.max_height
    ++ put (E.get_min_x_advance datafile) ++ put (E.get_max_x_advance datafile)
    ++ put (to_size_t datafile.GetFontInfo.baseline_x)
    ++ put (to_size_t datafile.GetFontInfo.baseline_y)
    ++ put datafile.GetFontInfo.line_height
    ++ put (datafile.GetFontInfo.flags ||| E.FLAG_BW)
    ++ write_u16 (E.select_fallback_char datafile)
    ++ put datafile.GetFontInfo.name.length ++ write_chars datafile.GetFontInfo.name
    ++ put (E.filename_to_identifier name).length
    ++ write_chars (E.filename_to_identifier name)
    ++ put (E.compute_char_ranges datafile
        (fun _ => datafile.GetFontInfo.max_width * ((datafile.GetFontInfo.max_height + 7) / 8))
        65536 16).length

/-- The 21 bytes of the record of a range whose blocks start at `start`. -/
def range_record (range : char_range_t) (crop : cropinfo_t) (widths offsets : List Nat)
    (start : Nat) : List Nat :=
  write_u16 range.first_char ++ write_u16 range.char_count ++ put crop.offset_x
    ++ put crop.offset_y ++ put crop.height_bytes ++ put crop.height_pixels
    ++ put crop.width
    ++ (if crop.width ≠ 0 then write_u32 0 ++ write_u32 0 ++ write_u32 start
        else write_u32 start ++ write_u32 (start + widths.length)
          ++ write_u32 (start + widths.length + 2 * offsets.length))

/-- The ranges `write_case` splits a data file into. -/
def case_ranges (E : export_decls) (datafile : DataFile) : List char_range_t :=
  E.compute_char_ranges datafile
    (fun _ => datafile.GetFontInfo.max_width * ((datafile.GetFontInfo.max_height + 7) / 8))
    65536 16

/-- The record `write_case` writes for range `i`, its blocks starting
`blobs_before blocks i` bytes after `base`. -/
def record_of (ranges : List char_range_t) (crops : List cropinfo_t)
    (blocks : List (List Nat)) (base i : Nat) : List Nat :=
  match ranges[i]?, crops[i]? with
  | some range, some crop =>
    range_record range crop (blocks.getD (i * 3 + 0) []) (blocks.getD (i * 3 + 1) [])
      (base + blobs_before blocks i)
  | _, _ => []

/-- A data file with one glyph 256 columns wide and one row high, every pixel
inked, of advance width 256, named `W`. -/
def wide_datafile : DataFile where
  glyphtable := [{ data := List.replicate 256 16, width := 256 }]
  fontinfo :=
    { name := [87], max_width := 256, max_height := 1, baseline_x := 0,
      baseline_y := 0, line_height := 1, flags := 0 }

/-! ## Encoder: the source-table path (`encode_character_range`) -/

/-- One call `write_const_table(out, data, datatype, name, ...)`.  The
function is declared in `exporttools.hh`, which is not among the sources, so
the text it prints is not modelled: the stream is the list of the calls made
on it, each with its arguments.  Strings are lists of character codes;
`fifth` and `sixth` are the two trailing arguments, `sixth` being `none` when
the call passes five arguments and leaves the last to the default of the
header. -/
structure const_table where
  data : List Nat
  datatype : List Nat
  name : List Nat
  fifth : Nat
  sixth : Option Nat
deriving DecidableEq, Repr

/-- `std::to_string` of an unsigned value: its decimal digits. -/
def to_string (v : Nat) : List Nat := (Nat.toDigits 10 v).map Char.toNat

/-- The string literal `"uint8_t"`. -/
def uint8_t_name : List Nat := [117, 105, 110, 116, 56, 95, 116]

/-- The string literal `"uint16_t"`. -/
def uint16_t_name : List Nat := [117, 105, 110, 116, 49, 54, 95, 116]

/-- The string literal `"mf_bwfont_"`. -/
def mf_bwfont_stem : List Nat := [109, 102, 95, 98, 119, 102, 111, 110, 116, 95]

/-- The string literal `"_glyph_data_"`. -/
def glyph_data_tag : List Nat := [95, 103, 108, 121, 112, 104, 95, 100, 97, 116, 97, 95]

/-- The string literal `"_glyph_offsets_"`. -/
def glyph_offsets_tag : List Nat :=
  [95, 103, 108, 121, 112, 104, 95, 111, 102, 102, 115, 101, 116, 115, 95]

/-- The string literal `"_glyph_widths_"`. -/
def glyph_widths_tag : List Nat :=
  [95, 103, 108, 121, 112, 104, 95, 119, 105, 100, 116, 104, 115, 95]

/-- `encode_character_range` of `export_bwfont.cc`: the calls made on `out`
afterwards and the crop information.  Its two loops are, statement for
statement, the loops of `encode_character_range_raw`, `copy_glyphs` and
`format_glyphs`.  `range.glyph_indices[0]` of an empty vector is undefined
and given as `none`. -/
def encode_character_range (E : export_decls) (out : List const_table) (name : List Nat)
    (datafile : DataFile) (range : char_range_t) (range_index : Nat) :
    Option (List const_table × cropinfo_t) :=
  match range.glyph_indices[0]? with
  | none => none
  | some first =>
  match datafile.GetGlyphEntry first with
  | none => none
  | some first_glyph =>
  match copy_glyphs datafile range.glyph_indices ([], true, first_glyph.width) with
  | none => none
  | some (glyphs, constant_width, width) =>
    let old_fi := datafile.GetFontInfo
    let cropped := E.crop_glyphs glyphs old_fi
    let glyphs := cropped.1
    let new_fi := cropped.2
    let constant_width := if new_fi.max_width ≠ width then false else constant_width
    let width := if new_fi.max_width ≠ width then 0 else width
    let height_pixels := new_fi.max_height
    let cropinfo : cropinfo_t :=
      { offset_x := to_size_t (old_fi.baseline_x - new_fi.baseline_x),
        offset_y := to_size_t (old_fi.baseline_y - new_fi.baseline_y),
        height_pixels := height_pixels,
        height_bytes := (height_pixels + 7) / 8,
        width := width }
    let stride := cropinfo.height_bytes
    match format_glyphs new_fi stride width glyphs ([], [], []) with
    | none => none
    | some (offsets, data, widths) =>
      if stride = 0 then none
      else
        let offsets := offsets ++ [data.length / stride]
        let out := out ++
          [{ data := data, datatype := uint8_t_name,
             name := mf_bwfont_stem ++ name ++ glyph_data_tag ++ to_string range_index,
             fifth := 1, sixth := none }]
        let out :=
          if !constant_width then
            out ++
              [{ data := offsets, datatype := uint16_t_name,
                 name := mf_bwfont_stem ++ name ++ glyph_offsets_tag
                   ++ to_string range_index,
                 fifth := 1, sixth := some 4 }] ++
              [{ data := widths, datatype := uint8_t_name,
                 name := mf_bwfont_stem ++ name ++ glyph_widths_tag
                   ++ to_string range_index,
                 fifth := 1, sixth := none }]
          else out
        some (out, cropinfo)

/-! ## The glyphs and tables of one range -/

/-- The glyph the copying loop of the range encoders stores for a slot: the
empty dummy for a negative index, the glyph table entry otherwise. -/
def slot_glyph (datafile : DataFile) (glyph_index : Int) : glyphentry_t :=
  if glyph_index < 0 then { data := [], width := 0 }
  else (datafile.GetGlyphEntry glyph_index).getD { data := [], width := 0 }

/-- The glyphs of a range as the range encoders hand them to `crop_glyphs`. -/
def range_glyphs (datafile : DataFile) (range : char_range_t) : List glyphentry_t :=
  range.glyph_indices.map (slot_glyph datafile)

/-- The glyphs and the font info of a range after `crop_glyphs`. -/
def cropped_range (E : export_decls) (datafile : DataFile) (range : char_range_t) :
    List glyphentry_t × fontinfo_t :=
  E.crop_glyphs (range_glyphs datafile range) datafile.GetFontInfo

/-- The bytes `encode_glyph` appends for each glyph of a list. -/
def glyph_spans (new_fi : fontinfo_t) (width : Nat) (glyphs : List glyphentry_t) :
    List (List Nat) :=
  glyphs.map (fun g => (encode_glyph g new_fi [] width).getD [])

/-- The offsets the formatting loop records when it appends the given spans
to data of length `len`: before each span, the length so far over the stride. -/
def span_offsets (stride : Nat) : Nat → List (List Nat) → List Nat
  | _, [] => []
  | len, span :: rest => len / stride :: span_offsets stride (len + span.length) rest

/-- A data file with one glyph in a box 1 wide and 9 high, every pixel inked,
of advance width 2, named `B`. -/
def banded_datafile : DataFile where
  glyphtable := [{ data := [16, 16, 16, 16, 16, 16, 16, 16, 16], width := 2 }]
  fontinfo :=
    { name := [66], max_width := 1, max_height := 9, baseline_x := 0,
      baseline_y := 8, line_height := 9, flags := 0 }

/-- The range that holds glyph 0 alone at codepoint 65. -/
def single_range : char_range_t where
  first_char := 65
  char_count := 1
  glyph_indices := [0]

/-- A data file with two 3 by 3 glyphs, both of advance width 3. -/
def mono_datafile : DataFile where
  glyphtable :=
    [{ data := [0, 16, 0, 9, 0, 0, 0, 8, 0], width := 3 },
     { data := [0, 0, 0, 9, 0, 0, 0, 8, 0], width := 3 }]
  fontinfo :=
    { name := [77], max_width := 3, max_height := 3, baseline_x := 1,
      baseline_y := 2, line_height := 4, flags := 0 }

/-- The range of three slots from codepoint 65 whose middle codepoint is
absent from the source: glyph 0, a missing glyph, glyph 1. -/
def gap_range : char_range_t where
  first_char := 65
  char_count := 3
  glyph_indices := [0, -1, 1]

/-- The range of two slots from codepoint 65 holding glyphs 0 and 1. -/
def pair_range : char_range_t where
  first_char := 65
  char_count := 2
  glyph_indices := [0, 1]

/-- The scenario font with a fallback codepoint 96 whose glyph has advance 0
and one inked run, as an accent that does not move the cursor has; no other
codepoint is mapped. -/
def accent_font : mf_font_s :=
  { scenario_font with
    fallback_character := 96
    render_character := fun x0 y0 c =>
      if c = 96 then (0, [{ x := x0 + 1, y := y0 + 2, count := 2, alpha := 16 }])
      else (0, []) }

/-- A data file with two 3 by 3 glyphs, both of advance width 3, each with
ink in the first and in the last column and in the first and in the last row,
so that the box of their ink is the whole 3 by 3 box. -/
def framed_datafile : DataFile where
  glyphtable :=
    [{ data := [16, 0, 0, 0, 0, 0, 0, 0, 16], width := 3 },
     { data := [0, 0, 16, 0, 0, 0, 16, 0, 0], width := 3 }]
  fontinfo :=
    { name := [82], max_width := 3, max_height := 3, baseline_x := 1,
      baseline_y := 2, line_height := 4, flags := 0 }

/-! ## Dispatch with fallback -/

/-- C3. Width fallback: when the variant's measure of `c` is 0,
`mf_character_width font c` equals `mf_character_width` of the fallback
character; when it is nonzero, `mf_character_width` returns exactly it. -/
theorem mf_character_width_fallback (font : mf_font_s) (c : Nat) :
    (font.character_width c = 0 →
      mf_character_width font c = mf_character_width font font.fallback_character) ∧
    (font.character_width c ≠ 0 →
      mf_character_width font c = font.character_width c) := by
  constructor
  · intro h
    by_cases hf : font.character_width font.fallback_character = 0
    · simp [mf_character_width, h, hf]
    · simp [mf_character_width, h, hf]
  · intro h
    simp [mf_character_width, h]

/-- Instance of C3 on the scenario font: `B` (66) is outside every range and
measures as the fallback `A` does, which measures 5. -/
theorem mf_character_width_fallback_witness :
    scenario_font.character_width 66 = 0 ∧
    mf_character_width scenario_font 66
      = mf_character_width scenario_font scenario_font.fallback_character ∧
    scenario_font.character_width 65 ≠ 0 ∧
    mf_character_width scenario_font 65 = scenario_font.character_width 65 :=
  ⟨by decide, (mf_character_width_fallback scenario_font 66).1 (by decide),
   by decide, (mf_character_width_fallback scenario_font 65).2 (by decide)⟩

theorem deliver_append {σ : Type} (callback : Int → Int → Nat → Nat → σ → σ)
    (r1 r2 : List Run) (state : σ) :
    deliver callback (r1 ++ r2) state = deliver callback r2 (deliver callback r1 state) := by
  simp [deliver, List.foldl_append]

theorem deliver_record_run (runs seen : List Run) :
    deliver record_run runs seen = seen ++ runs := by
  induction runs generalizing seen with
  | nil => simp [deliver]
  | cons r rest ih =>
    have := ih (seen ++ [r])
    simp only [deliver, List.foldl_cons] at this ⊢
    rw [show record_run r.x r.y r.count r.alpha seen = seen ++ [r] from rfl, this]
    simp

/-- C4. `mf_render_character` invokes the variant once with
`(x0, y0, c)`, handing its runs to the sink on `state`; a nonzero advance is
returned with no second invocation; on advance 0 the variant is invoked
exactly once more, with the fallback codepoint and the same `x0`, `y0`, sink
and state, and that second advance is returned even when 0; so when both
invocations return 0 and emit no run, the result is advance 0 and the sink
is never invoked. -/
theorem mf_render_character_fallback_once {σ : Type} (font : mf_font_s) (x0 y0 : Int)
    (c : Nat) (callback : Int → Int → Nat → Nat → σ → σ) (state : σ) :
    ((font.render_character x0 y0 c).1 ≠ 0 →
      (mf_render_character font x0 y0 c callback state).width
          = (font.render_character x0 y0 c).1 ∧
      (mf_render_character font x0 y0 c callback state).calls
          = [{ x0 := x0, y0 := y0, character := c }] ∧
      (mf_render_character font x0 y0 c callback state).state
          = deliver callback (font.render_character x0 y0 c).2 state) ∧
    ((font.render_character x0 y0 c).1 = 0 →
      (mf_render_character font x0 y0 c callback state).width
          = (font.render_character x0 y0 font.fallback_character).1 ∧
      (mf_render_character font x0 y0 c callback state).calls
          = [{ x0 := x0, y0 := y0, character := c },
             { x0 := x0, y0 := y0, character := font.fallback_character }] ∧
      (mf_render_character font x0 y0 c callback state).state
          = deliver callback (font.render_character x0 y0 font.fallback_character).2
              (deliver callback (font.render_character x0 y0 c).2 state) ∧
      (mf_render_character font x0 y0 c record_run []).state
          = (font.render_character x0 y0 c).2
              ++ (font.render_character x0 y0 font.fallback_character).2) ∧
    ((font.render_character x0 y0 c).1 = 0 →
      (font.render_character x0 y0 c).2 = [] →
      (font.render_character x0 y0 font.fallback_character).1 = 0 →
      (font.render_character x0 y0 font.fallback_character).2 = [] →
      (mf_render_character font x0 y0 c callback state).width = 0 ∧
      (mf_render_character font x0 y0 c callback state).state = state ∧
      (mf_render_character font x0 y0 c record_run []).state = []) := by
  refine ⟨?_, ?_, ?_⟩
  · intro h
    simp [mf_render_character, h]
  · intro h
    simp [mf_render_character, h, deliver_record_run]
  · intro h1 h2 h3 h4
    simp [mf_render_character, h1, h2, h3, h4, deliver]

/-- Instance of C4: on the scenario font `A` is rendered by one invocation,
`B` by two, and on the font with an unmapped fallback `B` yields advance 0
and no sink invocation. -/
theorem mf_render_character_fallback_once_witness :
    (mf_render_character scenario_font 0 0 65 record_run []).calls
        = [{ x0 := 0, y0 := 0, character := 65 }] ∧
    (mf_render_character scenario_font 0 0 66 record_run []).width = 5 ∧
    (mf_render_character scenario_font 0 0 66 record_run []).calls
        = [{ x0 := 0, y0 := 0, character := 66 }, { x0 := 0, y0 := 0, character := 65 }] ∧
    (mf_render_character orphan_font 0 0 66 record_run []).width = 0 ∧
    (mf_render_character orphan_font 0 0 66 record_run []).state = [] :=
  ⟨((mf_render_character_fallback_once scenario_font 0 0 65 record_run []).1
      (by decide)).2.1,
   ((mf_render_character_fallback_once scenario_font 0 0 66 record_run []).2.1
      (by decide)).1,
   ((mf_render_character_fallback_once scenario_font 0 0 66 record_run []).2.1
      (by decide)).2.1,
   ((mf_render_character_fallback_once orphan_font 0 0 66 record_run []).2.2
      (by decide) (by decide) (by decide) (by decide)).1,
   ((mf_render_character_fallback_once orphan_font 0 0 66 record_run []).2.2
      (by decide) (by decide) (by decide) (by decide)).2.1⟩

/-! ## The loader -/

theorem strequals_bw_iff (bulk : Nat → Nat) :
    strequals MF_BWFONT_MAGIC bulk = true ↔
      magic_of bulk = MF_BWFONT_MAGIC ∧ byteAt bulk 4 = 0 := by
  simp only [strequals, MF_BWFONT_MAGIC, magic_of, byteAt]
  constructor
  · intro h
    split_ifs at h <;> simp_all
  · intro h
    simp_all

theorem strequals_rl_iff (bulk : Nat → Nat) :
    strequals MF_RLEFONT_MAGIC bulk = true ↔
      magic_of bulk = MF_RLEFONT_MAGIC ∧ byteAt bulk 4 = 0 := by
  simp only [strequals, MF_RLEFONT_MAGIC, magic_of, byteAt]
  constructor
  · intro h
    split_ifs at h <;> simp_all
  · intro h
    simp_all

theorem mf_make_font_fields_eq_none_iff (D : mf_decls) (bulk : Nat → Nat) (flags : Nat) :
    mf_make_font_fields D bulk flags 4 = none ↔
      byteAt bulk 4 ≠ D.MF_TYPECASE_VERSION_SUPPORTED ∨
      byteAt bulk 13 &&& D.MF_FONT_FLAG_BW = 0 := by
  simp only [mf_make_font_fields]
  split_ifs with h1 h2 <;> simp_all

theorem mf_make_font_eq_none_iff (D : mf_decls) (bulk : Nat → Nat) (len : Nat) :
    mf_make_font D bulk len = none ↔
      (strequals MF_BWFONT_MAGIC bulk = false ∧ strequals MF_RLEFONT_MAGIC bulk = false) ∨
      byteAt bulk 4 ≠ D.MF_TYPECASE_VERSION_SUPPORTED ∨
      byteAt bulk 13 &&& D.MF_FONT_FLAG_BW = 0 := by
  simp only [mf_make_font]
  split_ifs with h1 h2
  · rw [mf_make_font_fields_eq_none_iff]; simp [h1]
  · rw [mf_make_font_fields_eq_none_iff]; simp [h2]
  · simp_all

theorem mf_make_font_some_version (D : mf_decls) (bulk : Nat → Nat) (len : Nat)
    (d : mf_bwfont_s) (h : mf_make_font D bulk len = some d) :
    byteAt bulk 4 = 0 ∧ D.MF_TYPECASE_VERSION_SUPPORTED = 0 := by
  have hne : ¬ mf_make_font D bulk len = none := by simp [h]
  rw [mf_make_font_eq_none_iff] at hne
  simp only [not_or, not_and, ne_eq, not_not] at hne
  obtain ⟨hm, hv, _⟩ := hne
  have h4 : byteAt bulk 4 = 0 := by
    cases hb : strequals MF_BWFONT_MAGIC bulk
    · have hr := hm hb
      cases hr2 : strequals MF_RLEFONT_MAGIC bulk
      · exact absurd hr2 hr
      · exact ((strequals_rl_iff bulk).1 hr2).2
    · exact ((strequals_bw_iff bulk).1 hb).2
  exact ⟨h4, by rw [← hv, h4]⟩

/-- C6. Bad magic is rejected: a buffer whose first four bytes are neither
`ftbw` nor `ftrl` makes `mf_make_font` return `NULL`. -/
theorem mf_make_font_bad_magic (D : mf_decls) (bulk : Nat → Nat) (len : Nat)
    (hbw : magic_of bulk ≠ MF_BWFONT_MAGIC) (hrl : magic_of bulk ≠ MF_RLEFONT_MAGIC) :
    mf_make_font D bulk len = none := by
  rw [mf_make_font_eq_none_iff]
  left
  constructor
  · cases h : strequals MF_BWFONT_MAGIC bulk
    · rfl
    · exact absurd ((strequals_bw_iff bulk).1 h).1 hbw
  · cases h : strequals MF_RLEFONT_MAGIC bulk
    · rfl
    · exact absurd ((strequals_rl_iff bulk).1 h).1 hrl

/-- Instance of C6: a buffer that starts with `case` is rejected. -/
theorem mf_make_font_bad_magic_witness :
    magic_of (bufferOf sample_file_case) ≠ MF_BWFONT_MAGIC ∧
    magic_of (bufferOf sample_file_case) ≠ MF_RLEFONT_MAGIC ∧
    mf_make_font (decls_with_version 0) (bufferOf sample_file_case) 43 = none :=
  ⟨by decide, by decide,
   mf_make_font_bad_magic (decls_with_version 0) (bufferOf sample_file_case) 43
     (by decide) (by decide)⟩

/-- C7. Unsupported version is rejected: when the byte at offset 4 differs
from `MF_TYPECASE_VERSION_SUPPORTED`, `mf_make_font` returns `NULL` whatever
else the buffer holds. -/
theorem mf_make_font_bad_version (D : mf_decls) (bulk : Nat → Nat) (len : Nat)
    (hver : byteAt bulk 4 ≠ D.MF_TYPECASE_VERSION_SUPPORTED) :
    mf_make_font D bulk len = none := by
  rw [mf_make_font_eq_none_iff]
  exact Or.inr (Or.inl hver)

/-- Instance of C7: the sample file, whose version byte is 0 and whose magic
is accepted, is rejected by a loader that supports version 2. -/
theorem mf_make_font_bad_version_witness :
    strequals MF_BWFONT_MAGIC (bufferOf sample_file) = true ∧
    byteAt (bufferOf sample_file) 4 ≠ (decls_with_version 2).MF_TYPECASE_VERSION_SUPPORTED ∧
    mf_make_font (decls_with_version 2) (bufferOf sample_file) 43 = none :=
  ⟨by decide, by decide,
   mf_make_font_bad_version (decls_with_version 2) (bufferOf sample_file) 43 (by decide)⟩

/-- C5, the code at two buffers with magic `ftbw` and the supported version
byte: the loader that supports version 2 rejects the file whose version byte
is 2, and the loader that supports version 0 rejects the file whose flags
byte is 0. -/
theorem mf_make_font_rejects_bw_files :
    (magic_of (bufferOf sample_file_v2) = MF_BWFONT_MAGIC ∧
      byteAt (bufferOf sample_file_v2) 4
        = (decls_with_version 2).MF_TYPECASE_VERSION_SUPPORTED ∧
      (mf_make_font (decls_with_version 2) (bufferOf sample_file_v2) 43).isNone = true) ∧
    (magic_of (bufferOf sample_file_plain) = MF_BWFONT_MAGIC ∧
      byteAt (bufferOf sample_file_plain) 4
        = (decls_with_version 0).MF_TYPECASE_VERSION_SUPPORTED ∧
      (mf_make_font (decls_with_version 0) (bufferOf sample_file_plain) 43).isNone = true) := by
  decide

/-- Under a supported version of 0, the one value for which the magic
comparison and the version test can both pass: the loader returns a descriptor
for a buffer with magic `ftrl` whose flags byte is 2, with the flags 2 and one
range. -/
theorem mf_make_font_constructs_rle_file :
    magic_of (bufferOf sample_file_rle) = MF_RLEFONT_MAGIC ∧
    (mf_make_font (decls_with_version 0) (bufferOf sample_file_rle) 43).map
        (fun d => (d.font.flags, d.font.width, d.char_ranges))
      = some (2, 5,
          [{ first_char := 65, char_count := 1, offset_x := 0, offset_y := 0,
             height_bytes := 1, height_pixels := 8, width := 5,
             glyph_widths := none, glyph_offsets := none, glyph_data := 42 }]) := by
  decide

/-- Under a supported version of 0: the sample file declares a layout of 42
bytes, and `mf_make_font` called on it with `len = 20` returns a descriptor. -/
theorem mf_make_font_accepts_truncated :
    declared_size (bufferOf sample_file) = 42 ∧
    (mf_make_font (decls_with_version 0) (bufferOf sample_file) 20).isSome = true := by
  decide

/-- For a buffer whose `len` is smaller than the layout it declares,
`mf_make_font` returns `NULL` exactly when the magic comparison fails, the
version byte is not the supported one, or the flags byte lacks the
black-and-white bit; `len` is not consulted, so the outcome is that of the
same memory under any other length. -/
theorem mf_make_font_truncated (D : mf_decls) (bulk : Nat → Nat) (len : Nat)
    (htrunc : len < declared_size bulk) :
    (mf_make_font D bulk len = none ↔
      (strequals MF_BWFONT_MAGIC bulk = false ∧ strequals MF_RLEFONT_MAGIC bulk = false) ∨
      byteAt bulk 4 ≠ D.MF_TYPECASE_VERSION_SUPPORTED ∨
      byteAt bulk 13 &&& D.MF_FONT_FLAG_BW = 0) ∧
    mf_make_font D bulk len = mf_make_font D bulk (declared_size bulk) := by
  have _ := htrunc
  exact ⟨mf_make_font_eq_none_iff D bulk len, rfl⟩

/-- The sample file with `len = 20` under a supported version of 0. -/
theorem mf_make_font_truncated_witness :
    20 < declared_size (bufferOf sample_file) ∧
    mf_make_font (decls_with_version 0) (bufferOf sample_file) 20
      = mf_make_font (decls_with_version 0) (bufferOf sample_file)
          (declared_size (bufferOf sample_file)) :=
  ⟨by decide,
   (mf_make_font_truncated (decls_with_version 0) (bufferOf sample_file) 20
      (by decide)).2⟩

theorem read_range_next (bulk : Nat → Nat) (run : Nat) :
    (read_range bulk run).2 = run + 21 := by
  simp [read_range]

theorem read_ranges_length (bulk : Nat → Nat) (count run : Nat) :
    (read_ranges bulk count run).length = count := by
  induction count generalizing run with
  | zero => simp [read_ranges]
  | succ n ih => simp [read_ranges, ih]

theorem read_ranges_get (bulk : Nat → Nat) (count run r : Nat) (hr : r < count) :
    (read_ranges bulk count run)[r]? = some (read_range bulk (run + 21 * r)).1 := by
  induction count generalizing run r with
  | zero => omega
  | succ n ih =>
    cases r with
    | zero => simp [read_ranges]
    | succ k =>
      simp only [read_ranges, List.getElem?_cons_succ]
      rw [ih _ k (by omega), read_range_next]
      congr 3
      omega

theorem mf_make_font_fields_some (D : mf_decls) (bulk : Nat → Nat) (flags : Nat)
    (d : mf_bwfont_s) (h : mf_make_font_fields D bulk flags 4 = some d) :
    d.font.width = byteAt bulk 6 ∧ d.font.height = byteAt bulk 7 ∧
    d.font.min_x_advance = byteAt bulk 8 ∧ d.font.max_x_advance = byteAt bulk 9 ∧
    d.font.baseline_x = byteAt bulk 10 ∧ d.font.baseline_y = byteAt bulk 11 ∧
    d.font.line_height = byteAt bulk 12 ∧ d.font.flags = byteAt bulk 13 ∧
    d.font.fallback_character = byteAt bulk 14 + 256 * byteAt bulk 15 ∧
    d.version = byteAt bulk 5 ∧
    d.font.full_name = copy_name bulk 17 (byteAt bulk 16) ∧
    d.font.short_name
      = copy_name bulk (18 + byteAt bulk 16) (byteAt bulk (17 + byteAt bulk 16)) ∧
    d.char_range_count
      = byteAt bulk (18 + byteAt bulk 16 + byteAt bulk (17 + byteAt bulk 16)) ∧
    d.char_ranges
      = read_ranges bulk d.char_range_count
          (19 + byteAt bulk 16 + byteAt bulk (17 + byteAt bulk 16)) := by
  simp only [mf_make_font_fields] at h
  split_ifs at h with h1 h2
  simp only [Option.some.injEq] at h
  subst h
  have e1 : 4 + 1 + 1 + 1 + 1 + 1 + 1 + 1 + 1 + 1 + 1 + 2 + 1 = 17 := rfl
  have e2 : 4 + 1 + 1 + 1 + 1 + 1 + 1 + 1 + 1 + 1 + 1 + 2 = 16 := rfl
  refine ⟨rfl, rfl, rfl, rfl, rfl, rfl, rfl, rfl, rfl, rfl, rfl, ?_, ?_, ?_⟩
  all_goals
    have e3 : ∀ a : Nat, 17 + a + 1 = 18 + a := fun a => by omega
    have e4 : ∀ a b : Nat, 18 + a + b + 1 = 19 + a + b := fun a b => by omega
    simp only [e1, e2, e3, e4]

theorem mf_make_font_some (D : mf_decls) (bulk : Nat → Nat) (len : Nat)
    (d : mf_bwfont_s) (h : mf_make_font D bulk len = some d) :
    ∃ flags, mf_make_font_fields D bulk flags 4 = some d := by
  simp only [mf_make_font] at h
  split_ifs at h
  · exact ⟨_, h⟩
  · exact ⟨_, h⟩

/-- C10. On a successful load, range record `r` below the range count is
read from the 21 bytes at `19 + L1 + L2 + 21 * r`: `first_char` and
`char_count` little-endian u16, then `offset_x`, `offset_y`, `height_bytes`,
`height_pixels`, `width` one byte each, then three little-endian u32;
`glyph_data` is the buffer position given by the third, and `glyph_widths`,
`glyph_offsets` are the positions given by the first and second when `width`
is 0 and `NULL` when it is nonzero. -/
theorem mf_make_font_range_records (D : mf_decls) (bulk : Nat → Nat) (len : Nat)
    (d : mf_bwfont_s) (h : mf_make_font D bulk len = some d)
    (r : Nat) (hr : r < d.char_range_count) :
    ∃ range, d.char_ranges[r]? = some range ∧
      range.first_char
        = little_endian [byteAt bulk (range_record_offset bulk r),
            byteAt bulk (range_record_offset bulk r + 1)] ∧
      range.char_count
        = little_endian [byteAt bulk (range_record_offset bulk r + 2),
            byteAt bulk (range_record_offset bulk r + 3)] ∧
      range.offset_x = byteAt bulk (range_record_offset bulk r + 4) ∧
      range.offset_y = byteAt bulk (range_record_offset bulk r + 5) ∧
      range.height_bytes = byteAt bulk (range_record_offset bulk r + 6) ∧
      range.height_pixels = byteAt bulk (range_record_offset bulk r + 7) ∧
      range.width = byteAt bulk (range_record_offset bulk r + 8) ∧
      range.glyph_data
        = little_endian [byteAt bulk (range_record_offset bulk r + 17),
            byteAt bulk (range_record_offset bulk r + 18),
            byteAt bulk (range_record_offset bulk r + 19),
            byteAt bulk (range_record_offset bulk r + 20)] ∧
      (range.width = 0 →
        range.glyph_widths
          = some (little_endian [byteAt bulk (range_record_offset bulk r + 9),
              byteAt bulk (range_record_offset bulk r + 10),
              byteAt bulk (range_record_offset bulk r + 11),
              byteAt bulk (range_record_offset bulk r + 12)]) ∧
        range.glyph_offsets
          = some (little_endian [byteAt bulk (range_record_offset bulk r + 13),
              byteAt bulk (range_record_offset bulk r + 14),
              byteAt bulk (range_record_offset bulk r + 15),
              byteAt bulk (range_record_offset bulk r + 16)])) ∧
      (range.width ≠ 0 → range.glyph_widths = none ∧ range.glyph_offsets = none) := by
  obtain ⟨flags, hf⟩ := mf_make_font_some D bulk len d h
  have hd := mf_make_font_fields_some D bulk flags d hf
  have hranges := hd.2.2.2.2.2.2.2.2.2.2.2.2.2
  refine ⟨(read_range bulk (range_record_offset bulk r)).1, ?_, ?_⟩
  · rw [hranges, read_ranges_get bulk _ _ r hr]
    rfl
  · generalize range_record_offset bulk r = p
    have a2 : p + 2 + 1 = p + 3 := rfl
    have a4 : p + 2 + 2 = p + 4 := rfl
    have a5 : p + 4 + 1 = p + 5 := rfl
    have a6 : p + 5 + 1 = p + 6 := rfl
    have a7 : p + 6 + 1 = p + 7 := rfl
    have a8 : p + 7 + 1 = p + 8 := rfl
    have a9 : p + 8 + 1 = p + 9 := rfl
    have a13 : p + 9 + 4 = p + 13 := rfl
    have a17 : p + 13 + 4 = p + 17 := rfl
    have b10 : p + 9 + 1 = p + 10 := rfl
    have b11 : p + 9 + 2 = p + 11 := rfl
    have b12 : p + 9 + 3 = p + 12 := rfl
    have b14 : p + 13 + 1 = p + 14 := rfl
    have b15 : p + 13 + 2 = p + 15 := rfl
    have b16 : p + 13 + 3 = p + 16 := rfl
    have b18 : p + 17 + 1 = p + 18 := rfl
    have b19 : p + 17 + 2 = p + 19 := rfl
    have b20 : p + 17 + 3 = p + 20 := rfl
    simp only [read_range, u16At, u32At, little_endian, a2, a4, a5, a6, a7, a8, a9, a13,
      a17, b10, b11, b12, b14, b15, b16, b18, b19, b20]
    refine ⟨by omega, by omega, trivial, trivial, trivial, trivial, trivial, by omega, ?_, ?_⟩
    · intro hw
      simp only [hw, ne_eq, not_true_eq_false, if_false, Option.some.injEq]
      constructor <;> omega
    · intro hw
      simp [hw]

theorem sample_file_loads :
    (mf_make_font (decls_with_version 0) (bufferOf sample_file) 43).map
        (fun d => d.char_range_count) = some 1 := by
  decide

/-- Instance of C10 on the sample file: the load succeeds with one range and
record 0 is read at offset 21. -/
theorem mf_make_font_range_records_witness :
    ∃ d, mf_make_font (decls_with_version 0) (bufferOf sample_file) 43 = some d ∧
      0 < d.char_range_count ∧
      range_record_offset (bufferOf sample_file) 0 = 21 ∧
      ∃ range, d.char_ranges[0]? = some range ∧
        range.first_char = 65 ∧ range.width = 5 ∧ range.glyph_data = 42 ∧
        range.glyph_widths = none := by
  have hs := sample_file_loads
  cases hd : mf_make_font (decls_with_version 0) (bufferOf sample_file) 43 with
  | none => rw [hd] at hs; exact absurd hs (by decide)
  | some d =>
    rw [hd] at hs
    have hc : d.char_range_count = 1 := by simpa using hs
    have hpos : 0 < d.char_range_count := by omega
    obtain ⟨range, hr, h1, _, _, _, _, _, h7, h8, _, h10⟩ :=
      mf_make_font_range_records (decls_with_version 0) (bufferOf sample_file) 43 d hd 0 hpos
    have hw : range.width = 5 := by rw [h7]; decide
    exact ⟨d, rfl, hpos, by decide, range, hr, by rw [h1]; decide, hw,
      by rw [h8]; decide, (h10 (by omega)).1⟩

/-! ## The serializer against the loader -/

theorem for_loop_invariant {α : Type} (P : α → Prop) (body : Nat → α → Option α)
    (hbody : ∀ i s s1, P s → body i s = some s1 → P s1) :
    ∀ n i s s1, P s → for_loop body n i s = some s1 → P s1 := by
  intro n
  induction n with
  | zero =>
    intro i s s1 hs h
    simp only [for_loop, Option.some.injEq] at h
    exact h ▸ hs
  | succ n ih =>
    intro i s s1 hs h
    simp only [for_loop] at h
    cases hb : body i s with
    | none => simp [hb] at h
    | some s2 =>
      simp only [hb] at h
      exact ih (i + 1) s2 s1 (hbody i s s2 hs hb) h

theorem for_step_invariant {α : Type} (P : α → Prop) (body : Nat → α → Option α)
    (bound step : Nat) (hbody : ∀ i s s1, P s → body i s = some s1 → P s1) :
    ∀ fuel y s s1, P s → for_step body bound step fuel y s = some s1 → P s1 := by
  intro fuel
  induction fuel with
  | zero =>
    intro y s s1 hs h
    simp only [for_step, Option.some.injEq] at h
    exact h ▸ hs
  | succ n ih =>
    intro y s s1 hs h
    simp only [for_step] at h
    split_ifs at h with hy
    · cases hb : body y s with
      | none => simp [hb] at h
      | some s2 =>
        simp only [hb] at h
        exact ih (y + step) s2 s1 (hbody y s s2 hs hb) h
    · simp only [Option.some.injEq] at h
      exact h ▸ hs

theorem write_records_extends (ranges : List char_range_t) (crops : List cropinfo_t)
    (blocks : List (List Nat)) (pre : List Nat) (n i : Nat) (s s1 : List Nat × Nat)
    (hs : ∃ r, s.1 = pre ++ r) (h : write_records ranges crops blocks n i s = some s1) :
    ∃ r, s1.1 = pre ++ r := by
  refine for_loop_invariant (fun s => ∃ r, s.1 = pre ++ r) _ ?_ n i s s1 hs h
  intro i s s1 hs hb
  obtain ⟨r, hr⟩ := hs
  simp only at hb
  split at hb
  · split_ifs at hb
    · split at hb
      · exact absurd hb (by simp)
      · simp only [Option.some.injEq] at hb
        subst hb
        exact ⟨_, by simp only [hr, List.append_assoc]; rfl⟩
    · split at hb
      · simp only [Option.some.injEq] at hb
        subst hb
        exact ⟨_, by simp only [hr, List.append_assoc]; rfl⟩
      · exact absurd hb (by simp)
  · exact absurd hb (by simp)

theorem write_blocks_extends (blocks : List (List Nat)) (pre : List Nat) (fuel i : Nat)
    (out out1 : List Nat) (hs : ∃ r, out = pre ++ r)
    (h : write_blocks blocks fuel i out = some out1) :
    ∃ r, out1 = pre ++ r := by
  refine for_step_invariant (fun s => ∃ r, s = pre ++ r) _ _ _ ?_ fuel i out out1 hs h
  intro i s s1 hs hb
  obtain ⟨r, hr⟩ := hs
  simp only at hb
  split at hb
  · simp only [Option.some.injEq] at hb
    subst hb
    exact ⟨_, by simp only [hr, List.append_assoc]; rfl⟩
  · exact absurd hb (by simp)

theorem write_case_starts (E : export_decls) (name : List Nat) (datafile : DataFile)
    (out : List Nat) (h : write_case E name datafile = some out) :
    ∃ r, out = [102, 116, 98, 119, 2, 4] ++ r := by
  simp only [write_case] at h
  split at h
  · exact absurd h (by simp)
  · split at h
    · exact absurd h (by simp)
    · rename_i out2 run2 hrec
      refine write_blocks_extends _ _ _ _ _ _ ?_ h
      have := write_records_extends _ _ _ [102, 116, 98, 119, 2, 4] _ _ _ _ ?_ hrec
      · exact this
      · exact ⟨_, by simp only [MF_BWFONT_MAGIC, put, List.append_assoc]; rfl⟩

/-- C2, the code on every file `write_case` writes: whatever the source font,
the exporter's collaborators and the loader's supported version, the byte at
offset 4 of the stream is 2, the magic comparison therefore fails, and
`mf_make_font` returns `NULL`. -/
theorem write_case_never_loads (E : export_decls) (D : mf_decls) (name : List Nat)
    (datafile : DataFile) (out : List Nat) (len : Nat)
    (h : write_case E name datafile = some out) :
    magic_of (bufferOf out) = MF_BWFONT_MAGIC ∧ byteAt (bufferOf out) 4 = 2 ∧
    mf_make_font D (bufferOf out) len = none := by
  obtain ⟨r, hr⟩ := write_case_starts E name datafile out h
  subst hr
  have h4 : byteAt (bufferOf ([102, 116, 98, 119, 2, 4] ++ r)) 4 = 2 := by
    simp [byteAt, bufferOf]
  have hm : magic_of (bufferOf ([102, 116, 98, 119, 2, 4] ++ r)) = MF_BWFONT_MAGIC := by
    simp [magic_of, byteAt, bufferOf, MF_BWFONT_MAGIC]
  refine ⟨hm, h4, ?_⟩
  rw [mf_make_font_eq_none_iff]
  left
  constructor
  · cases hb : strequals MF_BWFONT_MAGIC (bufferOf ([102, 116, 98, 119, 2, 4] ++ r))
    · rfl
    · have := ((strequals_bw_iff _).1 hb).2
      omega
  · cases hb : strequals MF_RLEFONT_MAGIC (bufferOf ([102, 116, 98, 119, 2, 4] ++ r))
    · rfl
    · have := ((strequals_rl_iff _).1 hb).2
      omega

/-- Instance of C2: the sample data file is written as the 55 bytes of
`sample_stream`, which the loader that supports version 2 rejects. -/
theorem write_case_never_loads_witness :
    write_case sample_export [97] sample_datafile = some sample_stream ∧
    mf_make_font (decls_with_version 2) (bufferOf sample_stream) 55 = none :=
  ⟨by decide,
   (write_case_never_loads sample_export (decls_with_version 2) [97] sample_datafile
      sample_stream 55 (by decide)).2.2⟩

/-! ## The glyph packer -/

theorem for_loop_total {α : Type} (P : Nat → α → Prop) (body : Nat → α → Option α) :
    ∀ (n i0 : Nat) (s : α), P i0 s →
      (∀ i s, i0 ≤ i → i < i0 + n → P i s → ∃ s1, body i s = some s1 ∧ P (i + 1) s1) →
      ∃ s1, for_loop body n i0 s = some s1 ∧ P (i0 + n) s1 := by
  intro n
  induction n with
  | zero =>
    intro i0 s h0 _
    exact ⟨s, rfl, h0⟩
  | succ n ih =>
    intro i0 s h0 hstep
    obtain ⟨s1, hb, hp⟩ := hstep i0 s (Nat.le_refl _) (by omega) h0
    obtain ⟨s2, hl, hq⟩ := ih (i0 + 1) s1 hp
      (fun i s hi hlt hP => hstep i s (by omega) (by omega) hP)
    refine ⟨s2, ?_, ?_⟩
    · simp only [for_loop, hb]
      exact hl
    · have e : i0 + (n + 1) = i0 + 1 + n := by omega
      rw [e]
      exact hq

theorem for_step_eq_for_loop {α : Type} (body : Nat → α → Option α) (bound : Nat) :
    ∀ (fuel b0 : Nat) (s : α), (bound + 7) / 8 ≤ b0 + fuel →
      for_step body bound 8 fuel (8 * b0) s
        = for_loop (fun b => body (8 * b)) ((bound + 7) / 8 - b0) b0 s := by
  intro fuel
  induction fuel with
  | zero =>
    intro b0 s h
    have e : (bound + 7) / 8 - b0 = 0 := by omega
    rw [e]
    rfl
  | succ n ih =>
    intro b0 s h
    simp only [for_step]
    split_ifs with hy
    · have e : (bound + 7) / 8 - b0 = ((bound + 7) / 8 - (b0 + 1)) + 1 := by omega
      rw [e]
      simp only [for_loop]
      cases hb : body (8 * b0) s with
      | none => rfl
      | some s1 =>
        have e8 : 8 * b0 + 8 = 8 * (b0 + 1) := by omega
        simp only [e8]
        exact ih (b0 + 1) s1 (by omega)
    · have e : (bound + 7) / 8 - b0 = 0 := by omega
      rw [e]
      rfl

theorem pixel_index_lt (mw mh x r : Nat) (hx : x < mw) (hr : r < mh) :
    r * mw + x < mw * mh := by
  have h1 : r * mw + x < (r + 1) * mw := by
    rw [Nat.add_mul, Nat.one_mul]
    omega
  have h2 : (r + 1) * mw ≤ mh * mw := Nat.mul_le_mul_right mw hr
  calc r * mw + x < (r + 1) * mw := h1
    _ ≤ mh * mw := h2
    _ = mw * mh := Nat.mul_comm mh mw

theorem pixel_read (data : List Nat) (index : Nat) (h : index < data.length) :
    data[index]? = some (data.getD index 0) := by
  simp [List.getElem?_eq_getElem h]

theorem pack_byte_bits (glyph : glyphentry_t) (fontinfo : fontinfo_t) (x y : Nat)
    (hsize : glyph.data.length = fontinfo.max_width * fontinfo.max_height)
    (hx : x < fontinfo.max_width) :
    ∃ byte, pack_byte glyph fontinfo x y = some byte ∧
      ∀ j, byte.testBit j
        = (decide (j < min 8 (fontinfo.max_height - y)) &&
            decide (8 ≤ glyph.data.getD ((y + j) * fontinfo.max_width + x) 0)) := by
  have key := for_loop_total
    (fun i byte => ∀ j, Nat.testBit byte j
        = (decide (j < i) &&
            decide (8 ≤ glyph.data.getD ((y + j) * fontinfo.max_width + x) 0)))
    (fun i byte =>
      match glyph.data[(y + i) * fontinfo.max_width + x]? with
      | none => none
      | some a => some (if a ≥ 8 then (byte ||| (1 <<< i)) % 256 else byte))
    (min 8 (fontinfo.max_height - y)) 0 0 (by intro j; simp) ?_
  · obtain ⟨byte, hb, hP⟩ := key
    refine ⟨byte, hb, ?_⟩
    intro j
    rw [hP j]
    simp
  · intro i byte _ hi hP
    have hi8 : i < 8 := by omega
    have hrow : y + i < fontinfo.max_height := by omega
    have hidx : (y + i) * fontinfo.max_width + x < glyph.data.length := by
      rw [hsize]
      exact pixel_index_lt _ _ _ _ hx hrow
    beta_reduce
    rw [pixel_read _ _ hidx]
    refine ⟨_, rfl, ?_⟩
    intro j
    have e256 : (256 : Nat) = 2 ^ 8 := rfl
    by_cases ha : 8 ≤ glyph.data.getD ((y + i) * fontinfo.max_width + x) 0
    · simp only [ge_iff_le, ha, if_true, e256, Nat.testBit_mod_two_pow, Nat.testBit_or,
        Nat.one_shiftLeft, Nat.testBit_two_pow, hP j]
      rcases Nat.lt_trichotomy j i with hlt | heq | hgt
      · have h1 : j < i + 1 := by omega
        have h2 : j < 8 := by omega
        have h3 : ¬ i = j := by omega
        simp [hlt, h1, h2, h3]
      · subst heq
        simp only [List.getD_eq_getElem?_getD] at ha
        simp [hi8, ha]
      · have h1 : ¬ j < i + 1 := by omega
        have h2 : ¬ j < i := by omega
        have h3 : ¬ i = j := by omega
        simp [h1, h2, h3]
    · simp only [ge_iff_le, ha, if_false, hP j]
      rcases Nat.lt_trichotomy j i with hlt | heq | hgt
      · have h1 : j < i + 1 := by omega
        simp [hlt, h1]
      · subst heq
        simp only [List.getD_eq_getElem?_getD] at ha
        simp [ha]
      · have h1 : ¬ j < i + 1 := by omega
        have h2 : ¬ j < i := by omega
        simp [h1, h2]

theorem write_band_eq (glyph : glyphentry_t) (fontinfo : fontinfo_t) (x : Nat)
    (hsize : glyph.data.length = fontinfo.max_width * fontinfo.max_height)
    (hx : x < fontinfo.max_width) (dest : List Nat) :
    for_step (fun y dest =>
        match pack_byte glyph fontinfo x y with
        | none => none
        | some byte => some (dest ++ [byte]))
        fontinfo.max_height 8 fontinfo.max_height 0 dest
      = some (dest ++ (List.range ((fontinfo.max_height + 7) / 8)).map
          (fun b => (pack_byte glyph fontinfo x (8 * b)).getD 0)) := by
  have e0 : (0 : Nat) = 8 * 0 := rfl
  rw [e0, for_step_eq_for_loop _ _ _ 0 dest (by omega)]
  obtain ⟨s1, h1, hP⟩ := for_loop_total
    (fun b s => s = dest ++ (List.range b).map
      (fun b => (pack_byte glyph fontinfo x (8 * b)).getD 0))
    (fun b => (fun y dest =>
        match pack_byte glyph fontinfo x y with
        | none => none
        | some byte => some (dest ++ [byte])) (8 * b))
    ((fontinfo.max_height + 7) / 8 - 0) 0 dest (by simp) (by
      intro b s _ _ hs
      obtain ⟨byte, hb, _⟩ := pack_byte_bits glyph fontinfo x (8 * b) hsize hx
      refine ⟨s ++ [byte], by simp [hb], ?_⟩
      beta_reduce at hs ⊢
      rw [hs, List.range_succ, List.map_append]
      simp [hb])
  rw [h1, hP]
  simp

theorem write_cols_eq (glyph : glyphentry_t) (fontinfo : fontinfo_t) (dest : List Nat)
    (cols : Nat)
    (hsize : glyph.data.length = fontinfo.max_width * fontinfo.max_height)
    (hcols : cols ≤ fontinfo.max_width) :
    write_cols glyph fontinfo dest cols
      = some (dest ++ ((List.range cols).map (fun x =>
          (List.range ((fontinfo.max_height + 7) / 8)).map
            (fun b => (pack_byte glyph fontinfo x (8 * b)).getD 0))).flatten) := by
  obtain ⟨s1, h1, hP⟩ := for_loop_total
    (fun x s => s = dest ++ ((List.range x).map (fun x =>
          (List.range ((fontinfo.max_height + 7) / 8)).map
            (fun b => (pack_byte glyph fontinfo x (8 * b)).getD 0))).flatten)
    (fun x dest =>
      for_step (fun y dest =>
        match pack_byte glyph fontinfo x y with
        | none => none
        | some byte => some (dest ++ [byte]))
        fontinfo.max_height 8 fontinfo.max_height 0 dest)
    cols 0 dest (by simp) (by
      intro x s _ hx hs
      refine ⟨_, write_band_eq glyph fontinfo x hsize (by omega) s, ?_⟩
      beta_reduce at hs ⊢
      rw [hs, List.range_succ, List.map_append, List.flatten_append]
      simp)
  simp only [write_cols]
  rw [h1, hP]
  simp

theorem flatten_uniform_length (L : List (List Nat)) (hb : Nat)
    (hL : ∀ l ∈ L, l.length = hb) : L.flatten.length = L.length * hb := by
  induction L with
  | nil => simp
  | cons l rest ih =>
    have h1 : l.length = hb := hL l (by simp)
    have h2 := ih (fun l hl => hL l (by simp [hl]))
    simp only [List.flatten_cons, List.length_append, List.length_cons, h1, h2]
    rw [Nat.add_mul, Nat.one_mul, Nat.add_comm]

theorem flatten_uniform_getD (L : List (List Nat)) (hb : Nat)
    (hL : ∀ l ∈ L, l.length = hb) (x b : Nat) (hbb : b < hb) :
    L.flatten.getD (x * hb + b) 0 = (L.getD x []).getD b 0 := by
  induction L generalizing x with
  | nil => simp
  | cons l rest ih =>
    have h1 : l.length = hb := hL l (by simp)
    have h2 := ih (fun l hl => hL l (by simp [hl]))
    cases x with
    | zero =>
      rw [List.flatten_cons, Nat.zero_mul, Nat.zero_add,
        List.getD_append _ _ _ _ (by omega)]
      rfl
    | succ k =>
      have e : (k + 1) * hb + b - l.length = k * hb + b := by
        rw [h1, Nat.add_mul, Nat.one_mul]
        omega
      rw [List.flatten_cons, List.getD_append_right _ _ _ _ (by
        rw [h1, Nat.add_mul, Nat.one_mul]; omega), e, h2 k]
      rfl

theorem find_num_cols_auto (glyph : glyphentry_t) (fontinfo : fontinfo_t)
    (hsize : glyph.data.length = fontinfo.max_width * fontinfo.max_height) :
    ∃ cols, find_num_cols glyph fontinfo 0 = some cols ∧ cols ≤ fontinfo.max_width ∧
      ∀ x y, x < fontinfo.max_width → y < fontinfo.max_height → cols ≤ x →
        glyph.data.getD (y * fontinfo.max_width + x) 0 < 8 := by
  obtain ⟨c, h1, hP⟩ := for_loop_total
    (fun x nc => nc ≤ x ∧ ∀ x1 y, x1 < x → y < fontinfo.max_height → nc ≤ x1 →
        glyph.data.getD (y * fontinfo.max_width + x1) 0 < 8)
    (fun x num_cols =>
      for_loop (fun y num_cols =>
        match glyph.data[y * fontinfo.max_width + x]? with
        | none => none
        | some a => some (if a ≥ 8 then x + 1 else num_cols))
        fontinfo.max_height 0 num_cols)
    fontinfo.max_width 0 0 ⟨Nat.le_refl _, fun x1 y h => absurd h (Nat.not_lt_zero _)⟩ (by
      intro x nc _ hx hP
      obtain ⟨hle, hblank⟩ := hP
      have hxw : x < fontinfo.max_width := by omega
      obtain ⟨nc1, hn1, hQ⟩ := for_loop_total
        (fun y n1 => (n1 = nc ∨ n1 = x + 1) ∧
          (n1 = nc → ∀ y1, y1 < y → glyph.data.getD (y1 * fontinfo.max_width + x) 0 < 8))
        (fun y num_cols =>
          match glyph.data[y * fontinfo.max_width + x]? with
          | none => none
          | some a => some (if a ≥ 8 then x + 1 else num_cols))
        fontinfo.max_height 0 nc ⟨Or.inl rfl, fun _ y1 h => absurd h (Nat.not_lt_zero _)⟩ (by
          intro y n1 _ hy hQ
          have hidx : y * fontinfo.max_width + x < glyph.data.length := by
            rw [hsize]
            exact pixel_index_lt _ _ _ _ hxw (by omega)
          beta_reduce
          rw [pixel_read _ _ hidx]
          refine ⟨_, rfl, ?_⟩
          by_cases ha : 8 ≤ glyph.data.getD (y * fontinfo.max_width + x) 0
          · simp only [ge_iff_le, ha, if_true]
            refine ⟨Or.inr trivial, ?_⟩
            intro hcontra
            omega
          · simp only [ge_iff_le, ha, if_false]
            refine ⟨hQ.1, ?_⟩
            intro hn y1 hy1
            rcases Nat.lt_succ_iff_lt_or_eq.1 hy1 with hlt | heq
            · exact hQ.2 hn y1 hlt
            · rw [heq]
              omega)
      refine ⟨nc1, hn1, ?_, ?_⟩
      · rcases hQ.1 with h | h <;> omega
      · intro x1 y hx1 hy hnc1
        rcases hQ.1 with h | h
        · rcases Nat.lt_succ_iff_lt_or_eq.1 hx1 with hlt | heq
          · exact hblank x1 y hlt hy (by omega)
          · rw [heq]
            exact hQ.2 h y (by omega)
        · omega)
  refine ⟨c, ?_, by omega, ?_⟩
  · simp only [find_num_cols, if_true]
    exact h1
  · intro x y hx hy hc
    exact hP.2 x y (by omega) hy hc

theorem find_num_cols_blank_beyond (glyph : glyphentry_t) (fontinfo : fontinfo_t)
    (num_cols : Nat)
    (hsize : glyph.data.length = fontinfo.max_width * fontinfo.max_height)
    (hcols : num_cols = 0 ∨ num_cols = fontinfo.max_width) :
    ∃ cols, find_num_cols glyph fontinfo num_cols = some cols ∧
      cols ≤ fontinfo.max_width ∧
      ∀ x y, x < fontinfo.max_width → y < fontinfo.max_height → cols ≤ x →
        glyph.data.getD (y * fontinfo.max_width + x) 0 < 8 := by
  by_cases h0 : num_cols = 0
  · subst h0
    exact find_num_cols_auto glyph fontinfo hsize
  · have hw : num_cols = fontinfo.max_width := by
      rcases hcols with h | h
      · exact absurd h h0
      · exact h
    refine ⟨num_cols, by simp [find_num_cols, h0], by omega, ?_⟩
    intro x y hx _ hc
    omega

theorem unpack_packed (glyph : glyphentry_t) (fontinfo : fontinfo_t) (cols x y : Nat)
    (hsize : glyph.data.length = fontinfo.max_width * fontinfo.max_height)
    (hcols : cols ≤ fontinfo.max_width) (hx : x < cols) (hy : y < fontinfo.max_height) :
    unpack_pixel
        ((List.range cols).map (fun x =>
          (List.range ((fontinfo.max_height + 7) / 8)).map
            (fun b => (pack_byte glyph fontinfo x (8 * b)).getD 0))).flatten
        ((fontinfo.max_height + 7) / 8) x y
      = if 8 ≤ glyph.data.getD (y * fontinfo.max_width + x) 0 then 16 else 0 := by
  have hband : y / 8 < (fontinfo.max_height + 7) / 8 := by omega
  obtain ⟨byte, hb, hbits⟩ :=
    pack_byte_bits glyph fontinfo x (8 * (y / 8)) hsize (by omega)
  have hget := flatten_uniform_getD
    ((List.range cols).map (fun x =>
          (List.range ((fontinfo.max_height + 7) / 8)).map
            (fun b => (pack_byte glyph fontinfo x (8 * b)).getD 0)))
    ((fontinfo.max_height + 7) / 8)
    (by
      intro l hl
      simp only [List.mem_map, List.mem_range] at hl
      obtain ⟨x1, _, rfl⟩ := hl
      simp)
    x (y / 8) hband
  have hbyte :
      ((List.range cols).map (fun x =>
          (List.range ((fontinfo.max_height + 7) / 8)).map
            (fun b => (pack_byte glyph fontinfo x (8 * b)).getD 0))).flatten.getD
          (x * ((fontinfo.max_height + 7) / 8) + y / 8) 0 = byte := by
    rw [hget]
    simp [hx, hband, hb]
  have hrow : 8 * (y / 8) + y % 8 = y := Nat.div_add_mod y 8
  have hin : y % 8 < min 8 (fontinfo.max_height - 8 * (y / 8)) := by
    have : y % 8 < 8 := Nat.mod_lt _ (by omega)
    omega
  simp only [unpack_pixel, hbyte, hbits (y % 8), hrow, hin, decide_True, Bool.true_and,
    decide_eq_true_eq]

/-- C1. Pack and unpack round trip: for a glyph whose alpha matrix has
`max_width * max_height` entries, packed with the column count detected
(`num_cols = 0`) or with the uniform count `max_width`, `encode_glyph`
appends a span of `cols * ceil(max_height / 8)` bytes with `cols` at most
`max_width`; unpacking byte `x * height_bytes + y / 8`, bit `y % 8` of the
span gives 16 exactly where the original alpha at `(x, y)` is at least 8 and
0 elsewhere, for every pixel in a column below `cols`; every pixel in a
column at or beyond `cols` is below the threshold in the original. -/
theorem encode_glyph_unpack_round_trip (glyph : glyphentry_t) (fontinfo : fontinfo_t)
    (dest : List Nat) (num_cols : Nat)
    (hsize : glyph.data.length = fontinfo.max_width * fontinfo.max_height)
    (hcols : num_cols = 0 ∨ num_cols = fontinfo.max_width) :
    ∃ span cols, encode_glyph glyph fontinfo dest num_cols = some (dest ++ span) ∧
      span.length = cols * ((fontinfo.max_height + 7) / 8) ∧
      cols ≤ fontinfo.max_width ∧
      ∀ x y, x < fontinfo.max_width → y < fontinfo.max_height →
        (x < cols →
          unpack_pixel span ((fontinfo.max_height + 7) / 8) x y
            = if 8 ≤ glyph.data.getD (y * fontinfo.max_width + x) 0 then 16 else 0) ∧
        (cols ≤ x → glyph.data.getD (y * fontinfo.max_width + x) 0 < 8) := by
  by_cases hempty : glyph.data.length = 0
  · refine ⟨[], 0, by simp [encode_glyph, hempty], by simp, Nat.zero_le _, ?_⟩
    intro x y hx hy
    have := pixel_index_lt _ _ _ _ hx hy
    omega
  · obtain ⟨cols, hfind, hle, hblank⟩ :=
      find_num_cols_blank_beyond glyph fontinfo num_cols hsize hcols
    refine ⟨((List.range cols).map (fun x =>
          (List.range ((fontinfo.max_height + 7) / 8)).map
            (fun b => (pack_byte glyph fontinfo x (8 * b)).getD 0))).flatten,
      cols, ?_, ?_, hle, ?_⟩
    · simp only [encode_glyph, hempty, if_false, hfind]
      exact write_cols_eq glyph fontinfo dest cols hsize hle
    · rw [flatten_uniform_length _ ((fontinfo.max_height + 7) / 8) (by
        intro l hl
        simp only [List.mem_map, List.mem_range] at hl
        obtain ⟨x1, _, rfl⟩ := hl
        simp)]
      simp
    · intro x y hx hy
      exact ⟨fun hxc => unpack_packed glyph fontinfo cols x y hsize hle hxc hy,
        fun hxc => hblank x y hx hy hxc⟩

/-- Instance of C1: the first glyph of the sample data file, 3 by 3, packed
with the detected column count gives the span `[2, 5]`, two columns, from
which every pixel of columns 0 and 1 is recovered, column 2 being blank. -/
theorem encode_glyph_unpack_round_trip_witness :
    ∃ span cols,
      encode_glyph { data := [0, 16, 0, 9, 0, 0, 0, 8, 0], width := 3 }
        sample_datafile.fontinfo [7] 0 = some ([7] ++ span) ∧
      span = [2, 5] ∧ cols = 2 ∧
      ∀ x y, x < 3 → y < 3 →
        (x < cols →
          unpack_pixel span 1 x y
            = if 8 ≤ ([0, 16, 0, 9, 0, 0, 0, 8, 0] : List Nat).getD (y * 3 + x) 0
              then 16 else 0) ∧
        (cols ≤ x → ([0, 16, 0, 9, 0, 0, 0, 8, 0] : List Nat).getD (y * 3 + x) 0 < 8) := by
  obtain ⟨span, cols, h1, h2, _, h4⟩ :=
    encode_glyph_unpack_round_trip { data := [0, 16, 0, 9, 0, 0, 0, 8, 0], width := 3 }
      sample_datafile.fontinfo [7] 0 (by decide) (Or.inl rfl)
  have hrun : encode_glyph { data := [0, 16, 0, 9, 0, 0, 0, 8, 0], width := 3 }
      sample_datafile.fontinfo [7] 0 = some [7, 2, 5] := by decide
  have hspan : span = [2, 5] := by
    rw [hrun] at h1
    simpa using h1.symm
  have hcols : cols = 2 := by
    rw [hspan] at h2
    have e : (sample_datafile.fontinfo.max_height + 7) / 8 = 1 := by decide
    rw [e] at h2
    simpa using h2.symm
  exact ⟨span, cols, h1, hspan, hcols, h4⟩

/-! ## The names and the range count of a loaded font -/

/-- C11. On a successful load the full name is the copy of the `L1` bytes at
offsets `17 .. 17+L1-1`, `L1` being byte 16, the short name is the copy of the
`L2` bytes that follow the length byte `L2` at offset `17+L1`, both followed
by NUL bytes, and the range count is the byte at offset `18+L1+L2`. -/
theorem mf_make_font_names (D : mf_decls) (bulk : Nat → Nat) (len : Nat)
    (d : mf_bwfont_s) (h : mf_make_font D bulk len = some d) :
    d.font.full_name
      = (List.range (byteAt bulk 16)).map (fun i => byteAt bulk (17 + i)) ++ [0, 0] ∧
    d.font.short_name
      = (List.range (byteAt bulk (17 + byteAt bulk 16))).map
          (fun i => byteAt bulk (17 + byteAt bulk 16 + 1 + i)) ++ [0, 0] ∧
    c_string d.font.full_name
      = c_string ((List.range (byteAt bulk 16)).map (fun i => byteAt bulk (17 + i))) ∧
    c_string d.font.short_name
      = c_string ((List.range (byteAt bulk (17 + byteAt bulk 16))).map
          (fun i => byteAt bulk (17 + byteAt bulk 16 + 1 + i))) ∧
    d.char_range_count
      = byteAt bulk (18 + byteAt bulk 16 + byteAt bulk (17 + byteAt bulk 16)) := by
  obtain ⟨flags, hf⟩ := mf_make_font_some D bulk len d h
  obtain ⟨_, _, _, _, _, _, _, _, _, _, hfull, hshort, hcount, _⟩ :=
    mf_make_font_fields_some D bulk flags d hf
  have e : ∀ i : Nat, 17 + byteAt bulk 16 + 1 + i = 18 + byteAt bulk 16 + i := by
    intro i; omega
  have hterm : ∀ l : List Nat, c_string (l ++ [0, 0]) = c_string l := by
    intro l
    induction l with
    | nil => simp [c_string]
    | cons a l ih =>
      simp only [c_string, List.cons_append, List.takeWhile_cons] at ih ⊢
      split_ifs
      · rw [ih]
      · rfl
  refine ⟨?_, ?_, ?_, ?_, hcount⟩
  · rw [hfull]; rfl
  · rw [hshort]; simp only [copy_name, e]
  · rw [hfull, copy_name, hterm]
  · rw [hshort, copy_name, hterm]; simp only [e]

/-- Instance of C11 on the sample file: the names are `S` and `s`, the range
count is 1. -/
theorem mf_make_font_names_witness :
    ∃ d, mf_make_font (decls_with_version 0) (bufferOf sample_file) 43 = some d ∧
      d.font.full_name = [83, 0, 0] ∧ d.font.short_name = [115, 0, 0] ∧
      d.char_range_count = 1 := by
  cases hd : mf_make_font (decls_with_version 0) (bufferOf sample_file) 43 with
  | none =>
    have hs := sample_file_loads
    rw [hd] at hs
    exact absurd hs (by decide)
  | some d =>
    obtain ⟨h1, h2, _, _, h5⟩ :=
      mf_make_font_names (decls_with_version 0) (bufferOf sample_file) 43 d hd
    exact ⟨d, rfl, by rw [h1]; decide, by rw [h2]; decide, by rw [h5]; decide⟩

/-! ## The registry -/

theorem bufferOf_tail (n : Nat) (ns : List Nat) :
    (fun i => bufferOf (n :: ns) (i + 1)) = bufferOf ns := by
  funext i
  simp [bufferOf]

theorem strequals_eq_same_name (stored name : List Nat) :
    strequals stored (bufferOf name) = same_name stored name := by
  induction stored generalizing name with
  | nil =>
    cases name with
    | nil => simp [strequals, same_name, c_string, as_bytes, byteAt, bufferOf]
    | cons n ns =>
      by_cases hn : n % 256 = 0
      · simp [strequals, same_name, c_string, as_bytes, byteAt, bufferOf, hn]
      · simp [strequals, same_name, c_string, as_bytes, byteAt, bufferOf, hn]
  | cons c rest ih =>
    by_cases hc : c = 0
    · subst hc
      cases name with
      | nil => simp [strequals, same_name, c_string, as_bytes, byteAt, bufferOf]
      | cons n ns =>
        by_cases hn : n % 256 = 0
        · simp [strequals, same_name, c_string, as_bytes, byteAt, bufferOf, hn]
        · simp [strequals, same_name, c_string, as_bytes, byteAt, bufferOf, hn]
    · cases name with
      | nil =>
        simp [strequals, same_name, c_string, as_bytes, byteAt, bufferOf, hc]
      | cons n ns =>
        by_cases hn : c = n % 256
        · have hn0 : ¬ n % 256 = 0 := by omega
          have hrec := ih ns
          simp only [strequals, hc, if_false, byteAt, bufferOf, List.getD_cons_zero]
          have hb : (fun i => (n :: ns).getD (i + 1) 0) = bufferOf ns := bufferOf_tail n ns
          rw [if_neg (by simpa using hn), hb, hrec]
          simp only [same_name, c_string, as_bytes, List.map_cons, List.takeWhile_cons]
          simp [hc, hn0, hn]
        · have hne : ¬ c = (n :: ns).getD 0 0 % 256 := by simpa using hn
          simp only [strequals, hc, if_false, byteAt, bufferOf]
          rw [if_pos (by simpa using hn)]
          simp only [same_name, c_string, as_bytes, List.map_cons, List.takeWhile_cons]
          by_cases hn0 : n % 256 = 0
          · simp [hc, hn0]
          · simp [hc, hn0, hn]

/-- C12. `mf_find_font name` returns the first font, in list order, whose
full name or short name is the same string as `name`, byte for byte, and
returns none exactly when no font of the list has such a name. -/
theorem mf_find_font_first_match (fonts : List mf_font_s) (name : List Nat) :
    mf_find_font fonts name
      = fonts.find? (fun f => same_name f.full_name name || same_name f.short_name name) ∧
    (mf_find_font fonts name = none ↔
      ∀ f ∈ fonts, c_string f.full_name ≠ c_string (as_bytes name) ∧
        c_string f.short_name ≠ c_string (as_bytes name)) := by
  have hfind : mf_find_font fonts name
      = fonts.find? (fun f => same_name f.full_name name || same_name f.short_name name) := by
    induction fonts with
    | nil => rfl
    | cons f rest ih =>
      simp only [mf_find_font, List.find?_cons, strequals_eq_same_name]
      cases hm : (same_name f.full_name name || same_name f.short_name name)
      · simp [ih]
      · simp
  refine ⟨hfind, ?_⟩
  rw [hfind, List.find?_eq_none]
  simp [same_name]

/-- C13, refuted: in a registry of two fonts that share their short name, the
second font is returned for its full name and the first font for its short
name. -/
theorem mf_find_font_names_disagree :
    (clashing_registry.map (fun f => (f.full_name, f.short_name, f.width)))[1]?
      = some ([121], [115], 2) ∧
    (mf_find_font clashing_registry [121]).map (fun f => f.width) = some 2 ∧
    (mf_find_font clashing_registry [115]).map (fun f => f.width) = some 1 := by
  decide

/-- C13, amended. For a font `f` of the registry such that no font before it
in the list has a full or short name equal to the full name or to the short
name of `f`, `mf_find_font` of the full name and of the short name of `f`
both return `f`. -/
theorem mf_find_font_both_names (before after : List mf_font_s) (f : mf_font_s)
    (hfull : ∀ c ∈ f.full_name, c < 256) (hshort : ∀ c ∈ f.short_name, c < 256)
    (hfirst : ∀ g ∈ before,
      c_string g.full_name ≠ c_string f.full_name ∧
      c_string g.short_name ≠ c_string f.full_name ∧
      c_string g.full_name ≠ c_string f.short_name ∧
      c_string g.short_name ≠ c_string f.short_name) :
    mf_find_font (before ++ f :: after) f.full_name = some f ∧
    mf_find_font (before ++ f :: after) f.short_name = some f := by
  have e1 : as_bytes f.full_name = f.full_name := by
    simp only [as_bytes]
    conv_rhs => rw [← List.map_id f.full_name]
    apply List.map_congr_left
    intro c hc
    exact Nat.mod_eq_of_lt (hfull c hc)
  have e2 : as_bytes f.short_name = f.short_name := by
    simp only [as_bytes]
    conv_rhs => rw [← List.map_id f.short_name]
    apply List.map_congr_left
    intro c hc
    exact Nat.mod_eq_of_lt (hshort c hc)
  induction before with
  | nil =>
    simp only [List.nil_append, mf_find_font, strequals_eq_same_name]
    simp [same_name, e1, e2]
  | cons g rest ih =>
    have hg := hfirst g (by simp)
    have hrest := ih (fun g1 hg1 => hfirst g1 (by simp [hg1]))
    simp only [List.cons_append, mf_find_font, strequals_eq_same_name]
    simp only [same_name, e1, e2]
    simp only [hg.1, hg.2.1, hg.2.2.1, hg.2.2.2, decide_False, Bool.or_self, if_false,
      Bool.false_eq_true]
    exact hrest

/-- Instance of C13 amended: the first font of the clashing registry is found
by either of its names. -/
theorem mf_find_font_both_names_witness :
    (mf_find_font clashing_registry [120]).map (fun f => f.width) = some 1 ∧
    (mf_find_font clashing_registry [115]).map (fun f => f.width) = some 1 := by
  have h := mf_find_font_both_names []
    [{ scenario_font with full_name := [121], short_name := [115], width := 2 }]
    { scenario_font with full_name := [120], short_name := [115], width := 1 }
    (by decide) (by decide) (by simp)
  constructor
  · have h1 := h.1
    simp only [List.nil_append] at h1
    show (mf_find_font clashing_registry [120]).map (fun f => f.width) = some 1
    unfold clashing_registry
    rw [h1]
    rfl
  · have h2 := h.2
    simp only [List.nil_append] at h2
    show (mf_find_font clashing_registry [115]).map (fun f => f.width) = some 1
    unfold clashing_registry
    rw [h2]
    rfl

/-! ## The whitespace box -/

theorem render_state_eq_deliver {σ : Type} (font : mf_font_s) (x0 y0 : Int) (c : Nat)
    (callback : Int → Int → Nat → Nat → σ → σ) (state : σ) :
    (mf_render_character font x0 y0 c callback state).state
      = deliver callback (mf_render_character font x0 y0 c record_run []).state state := by
  by_cases h : (font.render_character x0 y0 c).1 = 0
  · simp [mf_render_character, h, deliver_record_run, deliver_append]
  · simp [mf_render_character, h, deliver_record_run]

theorem deliver_whitespace_inked (runs : List Run) (s : whitespace_state) :
    deliver whitespace_callback runs s = deliver whitespace_callback (inked runs) s := by
  induction runs generalizing s with
  | nil => rfl
  | cons r rest ih =>
    by_cases ha : r.alpha > 7
    · have e : inked (r :: rest) = r :: inked rest := by simp [inked, ha]
      rw [e]
      simp only [deliver, List.foldl_cons]
      exact ih _
    · have e : inked (r :: rest) = inked rest := by simp [inked, ha]
      rw [e]
      simp only [deliver, List.foldl_cons]
      have hs : whitespace_callback r.x r.y r.count r.alpha s = s := by
        simp [whitespace_callback, ha]
      rw [hs]
      exact ih s

theorem deliver_whitespace_fields (runs : List Run) (s : whitespace_state)
    (hink : ∀ r ∈ runs, r.alpha > 7) :
    (deliver whitespace_callback runs s).min_x
      = running_min (fun r => r.x) runs s.min_x ∧
    (deliver whitespace_callback runs s).min_y
      = running_min (fun r => r.y) runs s.min_y ∧
    (deliver whitespace_callback runs s).max_x
      = running_max (fun r => to_int16 (r.x + ((r.count : Int) - 1))) runs s.max_x ∧
    (deliver whitespace_callback runs s).max_y
      = running_max (fun r => r.y) runs s.max_y := by
  induction runs generalizing s with
  | nil => exact ⟨rfl, rfl, rfl, rfl⟩
  | cons r rest ih =>
    have ha : r.alpha > 7 := hink r (by simp)
    have hrest := ih (whitespace_callback r.x r.y r.count r.alpha s)
      (fun r1 h1 => hink r1 (by simp [h1]))
    simp only [deliver, List.foldl_cons, running_min, running_max] at hrest ⊢
    obtain ⟨h1, h2, h3, h4⟩ := hrest
    rw [h1, h2, h3, h4]
    refine ⟨?_, ?_, ?_, ?_⟩ <;> congr 1 <;>
      simp only [whitespace_callback, ha, if_true] <;> split_ifs <;> rfl

theorem running_min_spec (val : Run → Int) (runs : List Run) (start : Nat)
    (hval : ∀ r ∈ runs, 0 ≤ val r ∧ val r ≤ 255) :
    running_min val runs start ≤ start ∧
    (∀ r ∈ runs, (running_min val runs start : Int) ≤ val r) ∧
    (running_min val runs start = start ∨
      ∃ r ∈ runs, val r = running_min val runs start) := by
  induction runs generalizing start with
  | nil => simp [running_min]
  | cons r rest ih =>
    have hr := hval r (by simp)
    simp only [running_min, List.foldl_cons]
    by_cases hlt : (start : Int) > val r
    · simp only [hlt, if_true]
      have hconv : ((to_uint8 (val r) : Nat) : Int) = val r := by
        simp only [to_uint8]; omega
      obtain ⟨h1, h2, h3⟩ := ih (to_uint8 (val r)) (fun r1 h1 => hval r1 (by simp [h1]))
      simp only [running_min] at h1 h2 h3
      refine ⟨by omega, ?_, ?_⟩
      · intro r1 hr1
        rcases List.mem_cons.1 hr1 with he | hm
        · subst he; omega
        · exact h2 r1 hm
      · right
        rcases h3 with he | ⟨r1, hm, hv⟩
        · exact ⟨r, by simp, by rw [he]; exact hconv.symm⟩
        · exact ⟨r1, by simp [hm], hv⟩
    · simp only [hlt, if_false]
      obtain ⟨h1, h2, h3⟩ := ih start (fun r1 h1 => hval r1 (by simp [h1]))
      simp only [running_min] at h1 h2 h3
      refine ⟨h1, ?_, ?_⟩
      · intro r1 hr1
        rcases List.mem_cons.1 hr1 with he | hm
        · subst he; omega
        · exact h2 r1 hm
      · rcases h3 with he | ⟨r1, hm, hv⟩
        · exact Or.inl he
        · exact Or.inr ⟨r1, by simp [hm], hv⟩

theorem running_max_spec (val : Run → Int) (runs : List Run) (start : Nat)
    (hval : ∀ r ∈ runs, 0 ≤ val r ∧ val r ≤ 255) :
    start ≤ running_max val runs start ∧
    (∀ r ∈ runs, val r ≤ (running_max val runs start : Int)) ∧
    (running_max val runs start = start ∨
      ∃ r ∈ runs, val r = running_max val runs start) := by
  induction runs generalizing start with
  | nil => simp [running_max]
  | cons r rest ih =>
    have hr := hval r (by simp)
    simp only [running_max, List.foldl_cons]
    by_cases hlt : (start : Int) < val r
    · simp only [hlt, if_true]
      have hconv : ((to_uint8 (val r) : Nat) : Int) = val r := by
        simp only [to_uint8]; omega
      obtain ⟨h1, h2, h3⟩ := ih (to_uint8 (val r)) (fun r1 h1 => hval r1 (by simp [h1]))
      simp only [running_max] at h1 h2 h3
      refine ⟨by omega, ?_, ?_⟩
      · intro r1 hr1
        rcases List.mem_cons.1 hr1 with he | hm
        · subst he; omega
        · exact h2 r1 hm
      · right
        rcases h3 with he | ⟨r1, hm, hv⟩
        · exact ⟨r, by simp, by rw [he]; exact hconv.symm⟩
        · exact ⟨r1, by simp [hm], hv⟩
    · simp only [hlt, if_false]
      obtain ⟨h1, h2, h3⟩ := ih start (fun r1 h1 => hval r1 (by simp [h1]))
      simp only [running_max] at h1 h2 h3
      refine ⟨h1, ?_, ?_⟩
      · intro r1 hr1
        rcases List.mem_cons.1 hr1 with he | hm
        · subst he; omega
        · exact h2 r1 hm
      · rcases h3 with he | ⟨r1, hm, hv⟩
        · exact Or.inl he
        · exact Or.inr ⟨r1, by simp [hm], hv⟩

/-- C14. Blank-glyph whitespace: when rendering the character at the origin
hands the sink no run with alpha above 7, `mf_character_whitespace` reports
left = the font's width, top = the font's height, right = 0, bottom = 0. -/
theorem mf_character_whitespace_blank (font : mf_font_s) (c : Nat)
    (hblank : ∀ r ∈ runs_at_origin font c, r.alpha ≤ 7) :
    mf_character_whitespace font c
      = { left := font.width, top := font.height, right := 0, bottom := 0 } := by
  have hnone : inked (runs_at_origin font c) = [] := by
    simp only [inked, List.filter_eq_nil_iff]
    intro r hr
    have := hblank r hr
    simp only [decide_eq_true_eq]
    omega
  have hstate : (mf_render_character font 0 0 c whitespace_callback
      { min_x := 255, min_y := 255, max_x := 0, max_y := 0 }).state
      = { min_x := 255, min_y := 255, max_x := 0, max_y := 0 } := by
    rw [render_state_eq_deliver, deliver_whitespace_inked]
    show deliver whitespace_callback (inked (runs_at_origin font c)) _ = _
    rw [hnone]
    rfl
  simp only [mf_character_whitespace, hstate]
  simp

/-- Instance of C14: on the font whose fallback is unmapped, `B` renders
nothing and the box is that of a blank glyph. -/
theorem mf_character_whitespace_blank_witness :
    runs_at_origin orphan_font 66 = [] ∧
    mf_character_whitespace orphan_font 66
      = { left := 5, top := 8, right := 0, bottom := 0 } :=
  ⟨by decide, mf_character_whitespace_blank orphan_font 66 (by decide)⟩

/-- C15, refuted: the font 44 wide renders `A` as one run that starts at
column 260; the minimum start x is 260, and `mf_character_whitespace` reports
left = 255. -/
theorem mf_character_whitespace_wraps :
    inked (runs_at_origin wide_font 65) = [{ x := 260, y := 0, count := 3, alpha := 16 }] ∧
    mf_character_whitespace wide_font 65
      = { left := 255, top := 0, right := 37, bottom := 7 } := by
  decide

/-- C15, amended. When the font's width and height are at most 255 and every
run with alpha above 7 that rendering at the origin hands the sink lies inside
the font's box (`0 ≤ x`, `1 ≤ count`, `x + count ≤ width`, `0 ≤ y < height`),
and there is at least one such run, `mf_character_whitespace` reports left =
the minimum start x and top = the minimum y over those runs, right =
`width - M - 1` with `M` the maximum of `x + count - 1` over them, and bottom
= `height - (maximum y) - 1`; runs with alpha at most 7 play no part. -/
theorem mf_character_whitespace_inked (font : mf_font_s) (c : Nat)
    (hw : font.width ≤ 255) (hh : font.height ≤ 255)
    (hbox : ∀ r ∈ inked (runs_at_origin font c),
      0 ≤ r.x ∧ 1 ≤ r.count ∧ r.x + r.count ≤ font.width ∧ 0 ≤ r.y ∧ r.y < font.height)
    (hsome : inked (runs_at_origin font c) ≠ []) :
    (∀ r ∈ inked (runs_at_origin font c),
      ((mf_character_whitespace font c).left : Int) ≤ r.x) ∧
    (∃ r ∈ inked (runs_at_origin font c),
      r.x = ((mf_character_whitespace font c).left : Int)) ∧
    (∀ r ∈ inked (runs_at_origin font c),
      ((mf_character_whitespace font c).top : Int) ≤ r.y) ∧
    (∃ r ∈ inked (runs_at_origin font c),
      r.y = ((mf_character_whitespace font c).top : Int)) ∧
    ∃ max_x max_y : Int,
      (∀ r ∈ inked (runs_at_origin font c), r.x + r.count - 1 ≤ max_x) ∧
      (∃ r ∈ inked (runs_at_origin font c), r.x + r.count - 1 = max_x) ∧
      (∀ r ∈ inked (runs_at_origin font c), r.y ≤ max_y) ∧
      (∃ r ∈ inked (runs_at_origin font c), r.y = max_y) ∧
      ((mf_character_whitespace font c).right : Int) = font.width - max_x - 1 ∧
      ((mf_character_whitespace font c).bottom : Int) = font.height - max_y - 1 := by
  have hink : ∀ r ∈ inked (runs_at_origin font c), r.alpha > 7 := by
    intro r hr
    simp only [inked, List.mem_filter, decide_eq_true_eq] at hr
    exact hr.2
  have hstate : (mf_render_character font 0 0 c whitespace_callback
      { min_x := 255, min_y := 255, max_x := 0, max_y := 0 }).state
      = deliver whitespace_callback (inked (runs_at_origin font c))
          { min_x := 255, min_y := 255, max_x := 0, max_y := 0 } := by
    rw [render_state_eq_deliver, deliver_whitespace_inked]
    rfl
  obtain ⟨f1, f2, f3, f4⟩ := deliver_whitespace_fields (inked (runs_at_origin font c))
    { min_x := 255, min_y := 255, max_x := 0, max_y := 0 } hink
  have hv16 : ∀ r ∈ inked (runs_at_origin font c),
      to_int16 (r.x + ((r.count : Int) - 1)) = r.x + r.count - 1 := by
    intro r hr
    have := hbox r hr
    simp only [to_int16]
    omega
  obtain ⟨_, a2, a3⟩ := running_min_spec (fun r => r.x) (inked (runs_at_origin font c)) 255
    (fun r hr => by have := hbox r hr; beta_reduce; constructor <;> omega)
  obtain ⟨_, b2, b3⟩ := running_min_spec (fun r => r.y) (inked (runs_at_origin font c)) 255
    (fun r hr => by have := hbox r hr; beta_reduce; constructor <;> omega)
  obtain ⟨_, c2, c3⟩ := running_max_spec
    (fun r => to_int16 (r.x + ((r.count : Int) - 1))) (inked (runs_at_origin font c)) 0
    (fun r hr => by
      have := hbox r hr
      have := hv16 r hr
      beta_reduce
      constructor <;> omega)
  obtain ⟨_, d2, d3⟩ := running_max_spec (fun r => r.y) (inked (runs_at_origin font c)) 0
    (fun r hr => by have := hbox r hr; beta_reduce; constructor <;> omega)
  rw [← f1] at a2 a3
  rw [← f2] at b2 b3
  rw [← f3] at c2 c3
  rw [← f4] at d2 d3
  rw [← hstate] at a2 a3 b2 b3 c2 c3 d2 d3
  obtain ⟨r0, hr0⟩ := List.exists_mem_of_ne_nil _ hsome
  have hb0 := hbox r0 hr0
  have hminx := a2 r0 hr0
  have hnotblank : ¬ ((mf_render_character font 0 0 c whitespace_callback
      { min_x := 255, min_y := 255, max_x := 0, max_y := 0 }).state.min_x = 255 ∧
      (mf_render_character font 0 0 c whitespace_callback
      { min_x := 255, min_y := 255, max_x := 0, max_y := 0 }).state.min_y = 255) := by
    intro hc
    omega
  have hleft : ∃ r ∈ inked (runs_at_origin font c),
      r.x = (((mf_render_character font 0 0 c whitespace_callback
      { min_x := 255, min_y := 255, max_x := 0, max_y := 0 }).state.min_x : Nat) : Int) := by
    rcases a3 with he | hex
    · omega
    · exact hex
  have htop : ∃ r ∈ inked (runs_at_origin font c),
      r.y = (((mf_render_character font 0 0 c whitespace_callback
      { min_x := 255, min_y := 255, max_x := 0, max_y := 0 }).state.min_y : Nat) : Int) := by
    rcases b3 with he | hex
    · have := b2 r0 hr0
      omega
    · exact hex
  have hmaxx : ∃ r ∈ inked (runs_at_origin font c),
      r.x + r.count - 1 = (((mf_render_character font 0 0 c whitespace_callback
      { min_x := 255, min_y := 255, max_x := 0, max_y := 0 }).state.max_x : Nat) : Int) := by
    rcases c3 with he | ⟨r1, hr1, hv⟩
    · refine ⟨r0, hr0, ?_⟩
      have h1 := c2 r0 hr0
      have h2 := hv16 r0 hr0
      beta_reduce at h1
      omega
    · refine ⟨r1, hr1, ?_⟩
      have h2 := hv16 r1 hr1
      omega
  have hmaxy : ∃ r ∈ inked (runs_at_origin font c),
      r.y = (((mf_render_character font 0 0 c whitespace_callback
      { min_x := 255, min_y := 255, max_x := 0, max_y := 0 }).state.max_y : Nat) : Int) := by
    rcases d3 with he | hex
    · refine ⟨r0, hr0, ?_⟩
      have h1 := d2 r0 hr0
      beta_reduce at h1
      omega
    · exact hex
  have hbox_eq : mf_character_whitespace font c
      = { left := (mf_render_character font 0 0 c whitespace_callback
            { min_x := 255, min_y := 255, max_x := 0, max_y := 0 }).state.min_x,
          top := (mf_render_character font 0 0 c whitespace_callback
            { min_x := 255, min_y := 255, max_x := 0, max_y := 0 }).state.min_y,
          right := to_uint8 ((font.width : Int) - (mf_render_character font 0 0 c
            whitespace_callback
            { min_x := 255, min_y := 255, max_x := 0, max_y := 0 }).state.max_x - 1),
          bottom := to_uint8 ((font.height : Int) - (mf_render_character font 0 0 c
            whitespace_callback
            { min_x := 255, min_y := 255, max_x := 0, max_y := 0 }).state.max_y - 1) } := by
    simp only [mf_character_whitespace]
    rw [if_neg hnotblank]
  rw [hbox_eq]
  generalize (mf_render_character font 0 0 c whitespace_callback
      { min_x := 255, min_y := 255, max_x := 0, max_y := 0 }).state = st at *
  refine ⟨a2, hleft, b2, htop, (st.max_x : Int), (st.max_y : Int), ?_, hmaxx, d2, hmaxy, ?_, ?_⟩
  · intro r hr
    have h1 := c2 r hr
    have h2 := hv16 r hr
    beta_reduce at h1
    omega
  · obtain ⟨r1, hr1, hv⟩ := hmaxx
    have := hbox r1 hr1
    simp only [to_uint8]
    omega
  · obtain ⟨r1, hr1, hv⟩ := hmaxy
    have := hbox r1 hr1
    simp only [to_uint8]
    omega

/-- Instance of C15 amended: the scenario font renders `A` as one run of 5
pixels in row 0 of its 5 by 8 box; the box reported is left 0, top 0,
right 0, bottom 7. -/
theorem mf_character_whitespace_inked_witness :
    inked (runs_at_origin scenario_font 65) = [{ x := 0, y := 0, count := 5, alpha := 16 }] ∧
    ∃ max_x max_y : Int,
      (∃ r ∈ inked (runs_at_origin scenario_font 65), r.x + r.count - 1 = max_x) ∧
      (∃ r ∈ inked (runs_at_origin scenario_font 65), r.y = max_y) ∧
      ((mf_character_whitespace scenario_font 65).right : Int)
        = scenario_font.width - max_x - 1 ∧
      ((mf_character_whitespace scenario_font 65).bottom : Int)
        = scenario_font.height - max_y - 1 := by
  obtain ⟨_, _, _, _, mx, my, _, h2, _, h4, h5, h6⟩ :=
    mf_character_whitespace_inked scenario_font 65 (by decide) (by decide)
      (by decide) (by decide)
  exact ⟨by decide, mx, my, h2, h4, h5, h6⟩

/-! ## The glyph packer: bytes and column count -/

theorem find_num_cols_given (glyph : glyphentry_t) (fontinfo : fontinfo_t) (num_cols : Nat)
    (hsize : glyph.data.length = fontinfo.max_width * fontinfo.max_height)
    (hcols : num_cols ≤ fontinfo.max_width) :
    ∃ cols, find_num_cols glyph fontinfo num_cols = some cols ∧
      cols ≤ fontinfo.max_width ∧ (num_cols ≠ 0 → cols = num_cols) := by
  by_cases h0 : num_cols = 0
  · subst h0
    obtain ⟨cols, h1, h2, _⟩ := find_num_cols_auto glyph fontinfo hsize
    exact ⟨cols, h1, h2, fun h => absurd rfl h⟩
  · exact ⟨num_cols, by simp [find_num_cols, h0], hcols, fun _ => rfl⟩

theorem encode_glyph_span (glyph : glyphentry_t) (fontinfo : fontinfo_t)
    (dest : List Nat) (num_cols : Nat)
    (hne : glyph.data ≠ [])
    (hsize : glyph.data.length = fontinfo.max_width * fontinfo.max_height)
    (hcols : num_cols ≤ fontinfo.max_width) :
    ∃ cols, find_num_cols glyph fontinfo num_cols = some cols ∧
      cols ≤ fontinfo.max_width ∧ (num_cols ≠ 0 → cols = num_cols) ∧
      encode_glyph glyph fontinfo dest num_cols
        = some (dest ++ ((List.range cols).map (fun x =>
            (List.range ((fontinfo.max_height + 7) / 8)).map
              (fun b => (pack_byte glyph fontinfo x (8 * b)).getD 0))).flatten) ∧
      (((List.range cols).map (fun x =>
            (List.range ((fontinfo.max_height + 7) / 8)).map
              (fun b => (pack_byte glyph fontinfo x (8 * b)).getD 0))).flatten).length
        = cols * ((fontinfo.max_height + 7) / 8) := by
  obtain ⟨cols, hfind, hle, hgiven⟩ := find_num_cols_given glyph fontinfo num_cols hsize hcols
  have hlen : ¬ glyph.data.length = 0 := by
    intro h
    exact hne (List.length_eq_zero.1 h)
  refine ⟨cols, hfind, hle, hgiven, ?_, ?_⟩
  · simp only [encode_glyph, hlen, if_false, hfind]
    exact write_cols_eq glyph fontinfo dest cols hsize hle
  · rw [flatten_uniform_length _ ((fontinfo.max_height + 7) / 8) (by
      intro l hl
      simp only [List.mem_map, List.mem_range] at hl
      obtain ⟨x1, _, rfl⟩ := hl
      simp)]
    simp

/-- C16. Glyph packing: for a glyph with a non-empty alpha matrix of
`max_width * max_height` entries and a column count of at most `max_width`,
`encode_glyph` leaves the bytes already in the destination unchanged and
appends a span in which, for every column `x` below the emitted column count
and every band `b`, bit `i` of byte `x * ceil(max_height/8) + b` is set if and
only if row `8b+i` lies in the glyph and the alpha at row `8b+i`, column `x`
is at least 8; bits of rows at or beyond `max_height` are clear. -/
theorem encode_glyph_packs_columns (glyph : glyphentry_t) (fontinfo : fontinfo_t)
    (dest : List Nat) (num_cols : Nat)
    (hne : glyph.data ≠ [])
    (hsize : glyph.data.length = fontinfo.max_width * fontinfo.max_height)
    (hcols : num_cols ≤ fontinfo.max_width) :
    ∃ span cols, find_num_cols glyph fontinfo num_cols = some cols ∧
      (num_cols ≠ 0 → cols = num_cols) ∧
      encode_glyph glyph fontinfo dest num_cols = some (dest ++ span) ∧
      span.length = cols * ((fontinfo.max_height + 7) / 8) ∧
      ∀ x b i, x < cols → b < (fontinfo.max_height + 7) / 8 →
        (span.getD (x * ((fontinfo.max_height + 7) / 8) + b) 0).testBit i
          = (decide (i < 8) && decide (8 * b + i < fontinfo.max_height) &&
              decide (8 ≤ glyph.data.getD ((8 * b + i) * fontinfo.max_width + x) 0)) := by
  obtain ⟨cols, hfind, hle, hgiven⟩ := find_num_cols_given glyph fontinfo num_cols hsize hcols
  have hlen : ¬ glyph.data.length = 0 := by
    intro h
    exact hne (List.length_eq_zero.1 h)
  have huniform : ∀ l ∈ (List.range cols).map (fun x =>
      (List.range ((fontinfo.max_height + 7) / 8)).map
        (fun b => (pack_byte glyph fontinfo x (8 * b)).getD 0)),
      l.length = (fontinfo.max_height + 7) / 8 := by
    intro l hl
    simp only [List.mem_map, List.mem_range] at hl
    obtain ⟨x1, _, rfl⟩ := hl
    simp
  refine ⟨((List.range cols).map (fun x =>
      (List.range ((fontinfo.max_height + 7) / 8)).map
        (fun b => (pack_byte glyph fontinfo x (8 * b)).getD 0))).flatten,
    cols, hfind, hgiven, ?_, ?_, ?_⟩
  · simp only [encode_glyph, hlen, if_false, hfind]
    exact write_cols_eq glyph fontinfo dest cols hsize hle
  · rw [flatten_uniform_length _ _ huniform]
    simp
  · intro x b i hx hb
    obtain ⟨byte, hbyte, hbits⟩ := pack_byte_bits glyph fontinfo x (8 * b) hsize (by omega)
    rw [flatten_uniform_getD _ _ huniform x b hb]
    have hcell : (((List.range cols).map (fun x =>
        (List.range ((fontinfo.max_height + 7) / 8)).map
          (fun b => (pack_byte glyph fontinfo x (8 * b)).getD 0))).getD x []).getD b 0
        = byte := by
      simp [hx, hb, hbyte]
    rw [hcell, hbits i]
    congr 1
    by_cases h8 : i < 8
    · by_cases hrow : 8 * b + i < fontinfo.max_height
      · have : i < min 8 (fontinfo.max_height - 8 * b) := by omega
        simp [h8, hrow, this]
      · have : ¬ i < min 8 (fontinfo.max_height - 8 * b) := by omega
        simp [h8, hrow, this]
    · have : ¬ i < min 8 (fontinfo.max_height - 8 * b) := by omega
      simp [h8, this]

/-- Instance of C16: the first glyph of the sample data file packed with the
uniform column count 3 gives three bytes after the byte already there, the
second with bits 0 and 2 for rows 0 and 2 of column 1. -/
theorem encode_glyph_packs_columns_witness :
    ∃ span cols,
      encode_glyph { data := [0, 16, 0, 9, 0, 0, 0, 8, 0], width := 3 }
        sample_datafile.fontinfo [7] 3 = some ([7] ++ span) ∧
      cols = 3 ∧ span = [2, 5, 0] ∧
      ∀ i, (span.getD (1 * ((sample_datafile.fontinfo.max_height + 7) / 8) + 0) 0).testBit i
        = (decide (i < 8) && decide (8 * 0 + i < sample_datafile.fontinfo.max_height) &&
            decide (8 ≤ ([0, 16, 0, 9, 0, 0, 0, 8, 0] : List Nat).getD
              ((8 * 0 + i) * sample_datafile.fontinfo.max_width + 1) 0)) := by
  obtain ⟨span, cols, _, h2, h3, _, h5⟩ :=
    encode_glyph_packs_columns { data := [0, 16, 0, 9, 0, 0, 0, 8, 0], width := 3 }
      sample_datafile.fontinfo [7] 3 (by decide) (by decide) (by decide)
  have hrun : encode_glyph { data := [0, 16, 0, 9, 0, 0, 0, 8, 0], width := 3 }
      sample_datafile.fontinfo [7] 3 = some [7, 2, 5, 0] := by decide
  have hspan : span = [2, 5, 0] := by
    rw [hrun] at h3
    simpa using h3.symm
  have hc : cols = 3 := h2 (by decide)
  refine ⟨span, cols, h3, hc, hspan, ?_⟩
  intro i
  exact h5 1 0 i (by omega) (by decide)

theorem for_loop_partial {α : Type} (P : Nat → α → Prop) (body : Nat → α → Option α) :
    ∀ (n i0 : Nat) (s s1 : α), P i0 s →
      (∀ i s s1, i0 ≤ i → i < i0 + n → P i s → body i s = some s1 → P (i + 1) s1) →
      for_loop body n i0 s = some s1 → P (i0 + n) s1 := by
  intro n
  induction n with
  | zero =>
    intro i0 s s1 h0 _ h
    simp only [for_loop, Option.some.injEq] at h
    exact h ▸ h0
  | succ n ih =>
    intro i0 s s1 h0 hstep h
    simp only [for_loop] at h
    cases hb : body i0 s with
    | none => simp [hb] at h
    | some s2 =>
      simp only [hb] at h
      have e : i0 + (n + 1) = i0 + 1 + n := by omega
      rw [e]
      exact ih (i0 + 1) s2 s1 (hstep i0 s s2 (Nat.le_refl _) (by omega) h0 hb)
        (fun i s s1 hi hlt hP hbody => hstep i s s1 (by omega) (by omega) hP hbody) h

theorem for_step_three_eq_for_loop {α : Type} (body : Nat → α → Option α) (n : Nat) :
    ∀ (fuel b0 : Nat) (s : α), n ≤ b0 + fuel →
      for_step body (3 * n) 3 fuel (3 * b0) s
        = for_loop (fun b => body (3 * b)) (n - b0) b0 s := by
  intro fuel
  induction fuel with
  | zero =>
    intro b0 s h
    have e : n - b0 = 0 := by omega
    rw [e]
    rfl
  | succ k ih =>
    intro b0 s h
    simp only [for_step]
    split_ifs with hy
    · have e : n - b0 = (n - (b0 + 1)) + 1 := by omega
      rw [e]
      simp only [for_loop]
      cases hb : body (3 * b0) s with
      | none => rfl
      | some s1 =>
        have e3 : 3 * b0 + 3 = 3 * (b0 + 1) := by omega
        simp only [e3]
        exact ih (b0 + 1) s1 (by omega)
    · have e : n - b0 = 0 := by omega
      rw [e]
      rfl

theorem copy_glyphs_spec (datafile : DataFile) (indices : List Int) :
    ∀ (glyphs : List glyphentry_t) (cw : Bool) (width : Nat)
      (glyphs1 : List glyphentry_t) (cw1 : Bool) (width1 : Nat),
      copy_glyphs datafile indices (glyphs, cw, width) = some (glyphs1, cw1, width1) →
      (cw = false → width = 0) →
      glyphs1.length = glyphs.length + indices.length ∧ (cw1 = false → width1 = 0) := by
  induction indices with
  | nil =>
    intro glyphs cw width glyphs1 cw1 width1 h hinv
    simp only [copy_glyphs, Option.some.injEq, Prod.mk.injEq] at h
    obtain ⟨h1, h2, h3⟩ := h
    subst h1 h2 h3
    exact ⟨by simp, hinv⟩
  | cons gi rest ih =>
    intro glyphs cw width glyphs1 cw1 width1 h hinv
    simp only [copy_glyphs] at h
    split_ifs at h with hneg
    · obtain ⟨h1, h2⟩ := ih _ _ _ _ _ _ h hinv
      exact ⟨by simp only [List.length_append, List.length_cons, List.length_nil] at h1 ⊢; omega,
        h2⟩
    · split at h
      · exact absurd h (by simp)
      · split_ifs at h with hw
        · obtain ⟨h1, h2⟩ := ih _ _ _ _ _ _ h (fun _ => rfl)
          exact ⟨by
            simp only [List.length_append, List.length_cons, List.length_nil] at h1 ⊢; omega,
            h2⟩
        · obtain ⟨h1, h2⟩ := ih _ _ _ _ _ _ h hinv
          exact ⟨by
            simp only [List.length_append, List.length_cons, List.length_nil] at h1 ⊢; omega,
            h2⟩

theorem format_glyphs_spec (new_fi : fontinfo_t) (stride width : Nat)
    (glyphs : List glyphentry_t) :
    ∀ (offsets data widths offsets1 data1 widths1 : List Nat),
      format_glyphs new_fi stride width glyphs (offsets, data, widths)
        = some (offsets1, data1, widths1) →
      offsets1.length = offsets.length + glyphs.length ∧
      widths1.length = widths.length + glyphs.length := by
  induction glyphs with
  | nil =>
    intro offsets data widths offsets1 data1 widths1 h
    simp only [format_glyphs, Option.some.injEq, Prod.mk.injEq] at h
    obtain ⟨h1, _, h3⟩ := h
    subst h1 h3
    simp
  | cons g rest ih =>
    intro offsets data widths offsets1 data1 widths1 h
    simp only [format_glyphs] at h
    split_ifs at h with hs
    split at h
    · exact absurd h (by simp)
    · obtain ⟨h1, h2⟩ := ih _ _ _ _ _ _ h
      simp only [List.length_append, List.length_cons, List.length_nil] at h1 h2 ⊢
      omega

theorem encode_character_range_raw_spec (E : export_decls) (blocks : List (List Nat))
    (datafile : DataFile) (range : char_range_t) (index : Nat)
    (blocks1 : List (List Nat)) (crop : cropinfo_t)
    (h : encode_character_range_raw E blocks datafile range index = some (blocks1, crop)) :
    ∃ widths offsets data, blocks1 = blocks ++ [widths, offsets, data] ∧
      (crop.width ≠ 0 → widths = [] ∧ offsets = []) ∧
      ((∀ glyphs, 0 < (E.crop_glyphs glyphs datafile.GetFontInfo).2.max_width ∧
          (E.crop_glyphs glyphs datafile.GetFontInfo).2.max_width < 256 ∧
          (E.crop_glyphs glyphs datafile.GetFontInfo).1.length = glyphs.length) →
        crop.width < 256 ∧
        (crop.width = 0 →
          widths.length = range.glyph_indices.length ∧
          offsets.length = range.glyph_indices.length + 1)) := by
  simp only [encode_character_range_raw] at h
  split at h
  · exact absurd h (by simp)
  · split at h
    · exact absurd h (by simp)
    · split at h
      · exact absurd h (by simp)
      · rename_i glyphs cw width hcopy
        obtain ⟨hlen, hcw⟩ := copy_glyphs_spec _ _ _ _ _ _ _ _ hcopy (by simp)
        split at h
        · exact absurd h (by simp)
        · rename_i offsets data widths hfmt
          obtain ⟨ho, hwd⟩ := format_glyphs_spec _ _ _ _ _ _ _ _ _ _ hfmt
          by_cases hstride :
              ((E.crop_glyphs glyphs datafile.GetFontInfo).2.max_height + 7) / 8 = 0
          · simp [hstride] at h
          · simp only [hstride, if_false, Option.some.injEq, Prod.mk.injEq] at h
            obtain ⟨hb, hc⟩ := h
            by_cases hmw : (E.crop_glyphs glyphs datafile.GetFontInfo).2.max_width = width
            · cases hcwv : cw with
              | true =>
                simp only [hmw, ne_eq, not_true_eq_false, if_false, hcwv, Bool.not_true,
                  Bool.false_eq_true] at hb hc
                subst hb hc
                refine ⟨[], [], data, by simp, fun _ => ⟨rfl, rfl⟩, ?_⟩
                intro hcrop
                obtain ⟨hpos, h256, _⟩ := hcrop glyphs
                refine ⟨by simp only; omega, fun hz => ?_⟩
                simp only at hz
                omega
              | false =>
                have hw0 : width = 0 := hcw hcwv
                simp only [hmw, ne_eq, not_true_eq_false, if_false, hcwv, Bool.not_false,
                  if_true] at hb hc
                subst hb hc
                refine ⟨widths, offsets ++ [data.length /
                  (((E.crop_glyphs glyphs datafile.GetFontInfo).2.max_height + 7) / 8)],
                  data, by simp, ?_, ?_⟩
                · intro hne
                  simp only at hne
                  omega
                · intro hcrop
                  obtain ⟨hpos, h256, hpres⟩ := hcrop glyphs
                  omega
            · simp only [hmw, ne_eq, not_false_eq_true, if_true, Bool.not_false] at hb hc
              subst hb hc
              refine ⟨widths, offsets ++ [data.length /
                (((E.crop_glyphs glyphs datafile.GetFontInfo).2.max_height + 7) / 8)],
                data, by simp, ?_, ?_⟩
              · intro hne
                exact absurd rfl hne
              · intro hcrop
                obtain ⟨_, h256, hpres⟩ := hcrop glyphs
                refine ⟨by simp, fun _ => ?_⟩
                simp only [List.length_append, List.length_cons, List.length_nil] at ho hwd hlen ⊢
                omega

theorem encode_ranges_spec (E : export_decls) (datafile : DataFile)
    (ranges : List char_range_t) (blocks : List (List Nat)) (crops : List cropinfo_t)
    (h : encode_ranges E datafile ranges ranges.length 0 ([], []) = some (blocks, crops)) :
    blocks.length = 3 * ranges.length ∧ crops.length = ranges.length ∧
    ∀ i, i < ranges.length →
      ∃ range crop widths offsets data,
        ranges[i]? = some range ∧ crops[i]? = some crop ∧
        blocks[i * 3 + 0]? = some widths ∧ blocks[i * 3 + 1]? = some offsets ∧
        blocks[i * 3 + 2]? = some data ∧
        (crop.width ≠ 0 → widths = [] ∧ offsets = []) ∧
        ((∀ glyphs, 0 < (E.crop_glyphs glyphs datafile.GetFontInfo).2.max_width ∧
            (E.crop_glyphs glyphs datafile.GetFontInfo).2.max_width < 256 ∧
            (E.crop_glyphs glyphs datafile.GetFontInfo).1.length = glyphs.length) →
          crop.width < 256 ∧
          (crop.width = 0 →
            widths.length = range.glyph_indices.length ∧
            offsets.length = range.glyph_indices.length + 1)) := by
  have key := for_loop_partial
    (fun i (s : List (List Nat) × List cropinfo_t) =>
      s.1.length = 3 * i ∧ s.2.length = i ∧
      ∀ j, j < i →
        ∃ range crop widths offsets data,
          ranges[j]? = some range ∧ s.2[j]? = some crop ∧
          s.1[j * 3 + 0]? = some widths ∧ s.1[j * 3 + 1]? = some offsets ∧
          s.1[j * 3 + 2]? = some data ∧
          (crop.width ≠ 0 → widths = [] ∧ offsets = []) ∧
          ((∀ glyphs, 0 < (E.crop_glyphs glyphs datafile.GetFontInfo).2.max_width ∧
              (E.crop_glyphs glyphs datafile.GetFontInfo).2.max_width < 256 ∧
              (E.crop_glyphs glyphs datafile.GetFontInfo).1.length = glyphs.length) →
            crop.width < 256 ∧
            (crop.width = 0 →
              widths.length = range.glyph_indices.length ∧
              offsets.length = range.glyph_indices.length + 1)))
    (fun i s =>
      match ranges[i]? with
      | none => none
      | some range =>
        match encode_character_range_raw E s.1 datafile range i with
        | none => none
        | some r => some (r.1, s.2 ++ [r.2]))
    ranges.length 0 ([], []) (blocks, crops)
    ⟨rfl, rfl, fun j hj => absurd hj (Nat.not_lt_zero _)⟩
    (by
      intro i s s1 _ _ hP hbody
      obtain ⟨hl1, hl2, hprev⟩ := hP
      beta_reduce at hbody
      split at hbody
      · exact absurd hbody (by simp)
      · rename_i range hrange
        split at hbody
        · exact absurd hbody (by simp)
        · rename_i r henc
          simp only [Option.some.injEq] at hbody
          subst hbody
          obtain ⟨widths, offsets, data, hb, hw, hc⟩ :=
            encode_character_range_raw_spec E s.1 datafile range i r.1 r.2 henc
          refine ⟨?_, ?_, ?_⟩
          · simp only [hb, List.length_append, List.length_cons, List.length_nil, hl1]
            omega
          · simp only [List.length_append, List.length_cons, List.length_nil, hl2]
          · intro j hj
            rcases Nat.lt_succ_iff_lt_or_eq.1 hj with hlt | heq
            · obtain ⟨range1, crop1, w1, o1, d1, g1, g2, g3, g4, g5, g6, g7⟩ := hprev j hlt
              refine ⟨range1, crop1, w1, o1, d1, g1, ?_, ?_, ?_, ?_, g6, g7⟩
              · rw [List.getElem?_append_left (by omega)]
                exact g2
              · simp only [hb]
                rw [List.getElem?_append_left (by omega)]
                exact g3
              · simp only [hb]
                rw [List.getElem?_append_left (by omega)]
                exact g4
              · simp only [hb]
                rw [List.getElem?_append_left (by omega)]
                exact g5
            · subst heq
              refine ⟨range, r.2, widths, offsets, data, hrange, ?_, ?_, ?_, ?_, hw, hc⟩
              · rw [List.getElem?_append_right (by omega)]
                simp [hl2]
              · simp only [hb]
                rw [List.getElem?_append_right (by omega)]
                have e : j * 3 + 0 - s.1.length = 0 := by omega
                rw [e]
                rfl
              · simp only [hb]
                rw [List.getElem?_append_right (by omega)]
                have e : j * 3 + 1 - s.1.length = 1 := by omega
                rw [e]
                rfl
              · simp only [hb]
                rw [List.getElem?_append_right (by omega)]
                have e : j * 3 + 2 - s.1.length = 2 := by omega
                rw [e]
                rfl)
    (by simpa only [encode_ranges] using h)
  simpa using key

theorem serial_bytes_length (block : List Nat) : (serial_bytes block).length = block.length := by
  induction block with
  | nil => rfl
  | cons a rest ih =>
    simp only [serial_bytes, List.map_cons, List.flatten_cons, List.length_append] at ih ⊢
    rw [ih]
    simp [put]
    omega

theorem serial_words_length (block : List Nat) :
    (serial_words block).length = 2 * block.length := by
  induction block with
  | nil => rfl
  | cons a rest ih =>
    simp only [serial_words, List.map_cons, List.flatten_cons, List.length_append] at ih ⊢
    rw [ih]
    simp [write_u16]
    omega

theorem blobs_before_succ (blocks : List (List Nat)) (i : Nat) :
    blobs_before blocks (i + 1) = blobs_before blocks i + (range_blob blocks i).length := by
  simp [blobs_before, List.range_succ]

theorem block_read (blocks : List (List Nat)) (k : Nat) (h : k < blocks.length) :
    blocks[k]? = some (blocks.getD k []) := by
  simp [List.getElem?_eq_getElem h]

theorem write_records_spec (ranges : List char_range_t) (crops : List cropinfo_t)
    (blocks : List (List Nat)) (out0 : List Nat) (run0 : Nat)
    (hblocks : blocks.length = 3 * ranges.length)
    (hlook : ∀ i, i < ranges.length →
      ∃ range crop, ranges[i]? = some range ∧ crops[i]? = some crop ∧
        (crop.width ≠ 0 → blocks.getD (i * 3 + 0) [] = [] ∧ blocks.getD (i * 3 + 1) [] = [])) :
    write_records ranges crops blocks ranges.length 0 (out0, run0)
      = some (out0 ++ ((List.range ranges.length).map
          (record_of ranges crops blocks run0)).flatten,
          run0 + blobs_before blocks ranges.length) := by
  obtain ⟨s1, hs1, hP⟩ := for_loop_total
    (fun i (s : List Nat × Nat) =>
      s = (out0 ++ ((List.range i).map (record_of ranges crops blocks run0)).flatten,
        run0 + blobs_before blocks i))
    (fun i (s : List Nat × Nat) =>
      let out := s.1
      let run := s.2
      match ranges[i]?, crops[i]? with
      | some range, some crop =>
        let out := out ++ write_u16 range.first_char
        let out := out ++ write_u16 range.char_count
        let out := out ++ put crop.offset_x
        let out := out ++ put crop.offset_y
        let out := out ++ put crop.height_bytes
        let out := out ++ put crop.height_pixels
        let out := out ++ put crop.width
        if crop.width ≠ 0 then
          let out := out ++ write_u32 0
          let out := out ++ write_u32 0
          match blocks[i * 3 + 2]? with
          | none => none
          | some data =>
            let out := out ++ write_u32 run
            let run := run + data.length * 1
            some (out, run)
        else
          match blocks[i * 3 + 0]?, blocks[i * 3 + 1]?, blocks[i * 3 + 2]? with
          | some widths, some offsets, some data =>
            let out := out ++ write_u32 run
            let run := run + widths.length * 1
            let out := out ++ write_u32 run
            let run := run + offsets.length * 2
            let out := out ++ write_u32 run
            let run := run + data.length * 1
            some (out, run)
          | _, _, _ => none
      | _, _ => none)
    ranges.length 0 (out0, run0) (by simp [blobs_before]) (by
      intro i s _ hi hs
      obtain ⟨range, crop, hr, hc, hw⟩ := hlook i (by omega)
      have h0 := block_read blocks (i * 3 + 0) (by omega)
      have h1 := block_read blocks (i * 3 + 1) (by omega)
      have h2 := block_read blocks (i * 3 + 2) (by omega)
      subst hs
      simp only [hr, hc, h0, h1, h2]
      by_cases hcw : crop.width ≠ 0
      · obtain ⟨e0, e1⟩ := hw hcw
        refine ⟨_, by rw [if_pos hcw], ?_⟩
        simp only [Prod.mk.injEq]
        constructor
        · rw [List.range_succ, List.map_append, List.flatten_append]
          simp only [List.map_cons, List.map_nil, List.flatten_cons, List.flatten_nil,
            List.append_nil, record_of, hr, hc, range_record, if_pos hcw,
            List.append_assoc]
        · rw [blobs_before_succ]
          simp only [range_blob, e0, e1, List.length_append, serial_bytes_length,
            serial_words_length, List.length_nil]
          omega
      · refine ⟨_, by rw [if_neg hcw], ?_⟩
        simp only [Prod.mk.injEq]
        constructor
        · rw [List.range_succ, List.map_append, List.flatten_append]
          simp only [List.map_cons, List.map_nil, List.flatten_cons, List.flatten_nil,
            List.append_nil, record_of, hr, hc, range_record, if_neg hcw,
            List.append_assoc, Nat.mul_one]
          have e : ∀ a b : Nat, a + b * 2 = a + 2 * b := fun a b => by omega
          simp only [e, Nat.add_assoc]
        · rw [blobs_before_succ]
          simp only [range_blob, List.length_append, serial_bytes_length,
            serial_words_length]
          omega)
  rw [show write_records ranges crops blocks ranges.length 0 (out0, run0) = some s1 from hs1]
  rw [hP]
  simp

theorem write_blocks_spec (blocks : List (List Nat)) (n : Nat) (out0 : List Nat)
    (hblocks : blocks.length = 3 * n) :
    write_blocks blocks blocks.length 0 out0
      = some (out0 ++ ((List.range n).map (range_blob blocks)).flatten) := by
  obtain ⟨s1, hs1, hP⟩ := for_loop_total
    (fun i (s : List Nat) => s = out0 ++ ((List.range i).map (range_blob blocks)).flatten)
    (fun b => (fun i (out : List Nat) =>
      match blocks[i + 0]?, blocks[i + 1]?, blocks[i + 2]? with
      | some widths, some offsets, some data =>
        let out := out ++ (widths.map put).flatten
        let out := out ++ (offsets.map write_u16).flatten
        let out := out ++ (data.map put).flatten
        some out
      | _, _, _ => none) (3 * b))
    (n - 0) 0 out0 (by simp) (by
      intro i s _ hi hs
      have a0 : 3 * i + 0 = i * 3 + 0 := by omega
      have a1 : 3 * i + 1 = i * 3 + 1 := by omega
      have a2 : 3 * i + 2 = i * 3 + 2 := by omega
      have h0 := block_read blocks (i * 3 + 0) (by omega)
      have h1 := block_read blocks (i * 3 + 1) (by omega)
      have h2 := block_read blocks (i * 3 + 2) (by omega)
      beta_reduce at hs ⊢
      subst hs
      simp only [a0, a1, a2, h0, h1, h2]
      refine ⟨_, rfl, ?_⟩
      rw [List.range_succ, List.map_append, List.flatten_append]
      simp only [List.map_cons, List.map_nil, List.flatten_cons, List.flatten_nil,
        List.append_nil, range_blob, serial_bytes, serial_words, List.append_assoc])
  have hrun : write_blocks blocks blocks.length 0 out0 = some s1 := by
    unfold write_blocks
    rw [hblocks]
    exact (for_step_three_eq_for_loop _ n (3 * n) 0 out0 (by omega)).trans hs1
  rw [hrun, hP]
  simp

theorem case_header_length (E : export_decls) (name : List Nat) (datafile : DataFile) :
    (case_header E name datafile).length
      = 19 + datafile.GetFontInfo.name.length + (E.filename_to_identifier name).length := by
  simp only [case_header, MF_BWFONT_MAGIC, put, write_u16, write_chars, List.length_append,
    List.length_cons, List.length_nil, List.length_map]
  omega

theorem write_case_layout (E : export_decls) (name : List Nat) (datafile : DataFile)
    (out : List Nat) (h : write_case E name datafile = some out) :
    ∃ blocks crops,
      encode_ranges E datafile (case_ranges E datafile) (case_ranges E datafile).length 0
        ([], []) = some (blocks, crops) ∧
      out = case_header E name datafile
        ++ ((List.range (case_ranges E datafile).length).map
            (record_of (case_ranges E datafile) crops blocks
              ((case_header E name datafile).length
                + 21 * (case_ranges E datafile).length))).flatten
        ++ ((List.range (case_ranges E datafile).length).map (range_blob blocks)).flatten := by
  simp only [write_case] at h
  split at h
  · exact absurd h (by simp)
  · rename_i blocks crops henc
    have henc2 : encode_ranges E datafile (case_ranges E datafile)
        (case_ranges E datafile).length 0 ([], []) = some (blocks, crops) := henc
    obtain ⟨hblocks, _, hlook⟩ := encode_ranges_spec E datafile _ blocks crops henc2
    have hlook2 : ∀ i, i < (case_ranges E datafile).length →
        ∃ range crop, (case_ranges E datafile)[i]? = some range ∧ crops[i]? = some crop ∧
          (crop.width ≠ 0 →
            blocks.getD (i * 3 + 0) [] = [] ∧ blocks.getD (i * 3 + 1) [] = []) := by
      intro i hi
      obtain ⟨range, crop, w, o, d, g1, g2, g3, g4, _, g6, _⟩ := hlook i hi
      refine ⟨range, crop, g1, g2, fun hne => ?_⟩
      obtain ⟨e1, e2⟩ := g6 hne
      subst e1 e2
      simp only [List.getD_eq_getElem?_getD, g3, g4]
      exact ⟨rfl, rfl⟩
    refine ⟨blocks, crops, henc2, ?_⟩
    have hrec := write_records_spec (case_ranges E datafile) crops blocks
    change (match write_records (case_ranges E datafile) crops blocks
        (case_ranges E datafile).length 0 (_, _) with
      | none => none
      | some (out, _) => write_blocks blocks blocks.length 0 out) = some out at h
    rw [hrec _ _ hblocks hlook2] at h
    simp only at h
    rw [write_blocks_spec blocks _ _ hblocks] at h
    simp only [Option.some.injEq] at h
    rw [← h]
    have hrun : 0 + 4 + 1 + 1 + 1 + 1 + 1 + 1 + 1 + 1 + 1 + 1 + 2 + 1
        + datafile.GetFontInfo.name.length + 1 + (E.filename_to_identifier name).length + 1
        + (2 + 2 + 1 + 1 + 1 + 1 + 1 + 4 + 4 + 4) * (case_ranges E datafile).length
        = (case_header E name datafile).length + 21 * (case_ranges E datafile).length := by
      rw [case_header_length]
      omega
    rw [← hrun]
    rfl

theorem range_record_length (range : char_range_t) (crop : cropinfo_t)
    (widths offsets : List Nat) (start : Nat) :
    (range_record range crop widths offsets start).length = 21 := by
  simp only [range_record]
  split_ifs <;> simp [write_u16, write_u32, put]

theorem record_of_length (ranges : List char_range_t) (crops : List cropinfo_t)
    (blocks : List (List Nat)) (base i : Nat)
    (hr : i < ranges.length) (hc : i < crops.length) :
    (record_of ranges crops blocks base i).length = 21 := by
  simp only [record_of, List.getElem?_eq_getElem hr, List.getElem?_eq_getElem hc]
  exact range_record_length _ _ _ _ _

theorem records_uniform (ranges : List char_range_t) (crops : List cropinfo_t)
    (blocks : List (List Nat)) (base : Nat) (hc : crops.length = ranges.length) :
    ∀ r ∈ (List.range ranges.length).map (record_of ranges crops blocks base),
      r.length = 21 := by
  intro r hr
  simp only [List.mem_map, List.mem_range] at hr
  obtain ⟨i, hi, rfl⟩ := hr
  exact record_of_length _ _ _ _ _ hi (by omega)

theorem little_endian_write_u32 (v : Nat) :
    little_endian (write_u32 v) = v % 4294967296 := by
  simp only [little_endian, write_u32]
  omega

theorem blobs_before_le (blocks : List (List Nat)) (n i : Nat) (hi : i < n) :
    blobs_before blocks i + (range_blob blocks i).length ≤ blobs_before blocks n := by
  induction n with
  | zero => omega
  | succ k ih =>
    rw [blobs_before_succ]
    rcases Nat.lt_succ_iff_lt_or_eq.1 hi with hlt | heq
    · have := ih hlt
      omega
    · subst heq
      omega

theorem blobs_take (blocks : List (List Nat)) (n i : Nat) (hi : i ≤ n) :
    (((List.range n).map (range_blob blocks)).take i).flatten.length
      = blobs_before blocks i := by
  rw [← List.map_take, List.take_range, Nat.min_eq_left hi]
  rfl

theorem write_case_positions (E : export_decls) (name : List Nat) (datafile : DataFile)
    (out : List Nat) (h : write_case E name datafile = some out)
    (hlen : out.length < 4294967296) :
    ∃ (blocks : List (List Nat)) (crops : List cropinfo_t) (records blobs : List (List Nat)),
      encode_ranges E datafile (case_ranges E datafile) (case_ranges E datafile).length 0
        ([], []) = some (blocks, crops) ∧
      out = case_header E name datafile ++ records.flatten ++ blobs.flatten ∧
      records.length = (case_ranges E datafile).length ∧
      blobs.length = (case_ranges E datafile).length ∧
      ∀ i, i < (case_ranges E datafile).length →
        ∃ range crop widths offsets data woff ooff doff,
          (case_ranges E datafile)[i]? = some range ∧ crops[i]? = some crop ∧
          blocks[i * 3 + 0]? = some widths ∧ blocks[i * 3 + 1]? = some offsets ∧
          blocks[i * 3 + 2]? = some data ∧
          records[i]? = some (write_u16 range.first_char ++ write_u16 range.char_count
            ++ put crop.offset_x ++ put crop.offset_y ++ put crop.height_bytes
            ++ put crop.height_pixels ++ put crop.width ++ woff ++ ooff ++ doff) ∧
          woff.length = 4 ∧ ooff.length = 4 ∧ doff.length = 4 ∧
          blobs[i]? = some (serial_bytes widths ++ serial_words offsets ++ serial_bytes data) ∧
          little_endian doff
            = (case_header E name datafile ++ records.flatten ++ (blobs.take i).flatten
                ++ serial_bytes widths ++ serial_words offsets).length ∧
          (crop.width = 0 →
            little_endian woff
              = (case_header E name datafile ++ records.flatten
                  ++ (blobs.take i).flatten).length ∧
            little_endian ooff
              = (case_header E name datafile ++ records.flatten ++ (blobs.take i).flatten
                  ++ serial_bytes widths).length) ∧
          (crop.width ≠ 0 →
            woff = [0, 0, 0, 0] ∧ ooff = [0, 0, 0, 0] ∧ widths = [] ∧ offsets = []) ∧
          ((∀ glyphs, 0 < (E.crop_glyphs glyphs datafile.GetFontInfo).2.max_width ∧
              (E.crop_glyphs glyphs datafile.GetFontInfo).2.max_width < 256 ∧
              (E.crop_glyphs glyphs datafile.GetFontInfo).1.length = glyphs.length) →
            crop.width < 256 ∧
            (crop.width = 0 →
              widths.length = range.glyph_indices.length ∧
              offsets.length = range.glyph_indices.length + 1)) := by
  obtain ⟨blocks, crops, henc, hout⟩ := write_case_layout E name datafile out h
  obtain ⟨hblocks, hcrops, hlook⟩ := encode_ranges_spec E datafile _ blocks crops henc
  have hrecs := flatten_uniform_length _ 21
    (records_uniform (case_ranges E datafile) crops blocks
      ((case_header E name datafile).length + 21 * (case_ranges E datafile).length) hcrops)
  simp only [List.length_map, List.length_range] at hrecs
  have hblobs : (((List.range (case_ranges E datafile).length).map
      (range_blob blocks)).flatten).length
      = blobs_before blocks (case_ranges E datafile).length := rfl
  have htotal : out.length = (case_header E name datafile).length
      + (case_ranges E datafile).length * 21
      + blobs_before blocks (case_ranges E datafile).length := by
    rw [hout]
    simp only [List.length_append, hrecs, hblobs]
  refine ⟨blocks, crops, _, _, henc, hout, by simp, by simp, ?_⟩
  intro i hi
  obtain ⟨range, crop, widths, offsets, data, g1, g2, g3, g4, g5, g6, g7⟩ := hlook i hi
  have d0 : blocks.getD (i * 3 + 0) [] = widths := by
    simp only [List.getD_eq_getElem?_getD, g3]; rfl
  have d1 : blocks.getD (i * 3 + 1) [] = offsets := by
    simp only [List.getD_eq_getElem?_getD, g4]; rfl
  have d2 : blocks.getD (i * 3 + 2) [] = data := by
    simp only [List.getD_eq_getElem?_getD, g5]; rfl
  have hblob : range_blob blocks i
      = serial_bytes widths ++ serial_words offsets ++ serial_bytes data := by
    simp only [range_blob, d0, d1, d2]
  have hmono := blobs_before_le blocks _ i hi
  rw [hblob] at hmono
  simp only [List.length_append, serial_bytes_length, serial_words_length] at hmono
  have hpos : (case_header E name datafile
      ++ ((List.range (case_ranges E datafile).length).map
          (record_of (case_ranges E datafile) crops blocks
            ((case_header E name datafile).length
              + 21 * (case_ranges E datafile).length))).flatten
      ++ (((List.range (case_ranges E datafile).length).map
          (range_blob blocks)).take i).flatten).length
      = (case_header E name datafile).length + 21 * (case_ranges E datafile).length
        + blobs_before blocks i := by
    simp only [List.length_append, hrecs, blobs_take blocks _ i (Nat.le_of_lt hi)]
    omega
  have hrecord : ((List.range (case_ranges E datafile).length).map
      (record_of (case_ranges E datafile) crops blocks
        ((case_header E name datafile).length
          + 21 * (case_ranges E datafile).length)))[i]?
      = some (range_record range crop widths offsets
          ((case_header E name datafile).length + 21 * (case_ranges E datafile).length
            + blobs_before blocks i)) := by
    rw [List.getElem?_map, List.getElem?_range hi]
    simp only [Option.map_some', record_of, g1, g2, d0, d1]
  have hblobi : ((List.range (case_ranges E datafile).length).map (range_blob blocks))[i]?
      = some (serial_bytes widths ++ serial_words offsets ++ serial_bytes data) := by
    rw [List.getElem?_map, List.getElem?_range hi]
    simp only [Option.map_some', hblob]
  by_cases hw : crop.width ≠ 0
  · obtain ⟨e1, e2⟩ := g6 hw
    refine ⟨range, crop, widths, offsets, data, write_u32 0, write_u32 0,
      write_u32 ((case_header E name datafile).length + 21 * (case_ranges E datafile).length
        + blobs_before blocks i),
      g1, g2, g3, g4, g5, ?_, rfl, rfl, rfl, hblobi, ?_, fun h0 => absurd h0 hw,
      fun _ => ⟨rfl, rfl, e1, e2⟩, g7⟩
    · rw [hrecord]
      simp only [range_record, if_pos hw, List.append_assoc]
    · rw [little_endian_write_u32]
      simp only [List.length_append] at hpos ⊢
      simp only [e1, e2, serial_bytes, serial_words, List.map_nil, List.flatten_nil,
        List.length_nil, Nat.add_zero]
      rw [hpos]
      apply Nat.mod_eq_of_lt
      omega
  · have hw0 : crop.width = 0 := by omega
    refine ⟨range, crop, widths, offsets, data,
      write_u32 ((case_header E name datafile).length + 21 * (case_ranges E datafile).length
        + blobs_before blocks i),
      write_u32 ((case_header E name datafile).length + 21 * (case_ranges E datafile).length
        + blobs_before blocks i + widths.length),
      write_u32 ((case_header E name datafile).length + 21 * (case_ranges E datafile).length
        + blobs_before blocks i + widths.length + 2 * offsets.length),
      g1, g2, g3, g4, g5, ?_, rfl, rfl, rfl, hblobi, ?_, fun _ => ⟨?_, ?_⟩,
      fun hne => absurd hw0 hne, g7⟩
    · rw [hrecord]
      simp only [range_record, if_neg hw, List.append_assoc]
    · rw [little_endian_write_u32]
      simp only [List.length_append] at hpos ⊢
      rw [hpos, serial_bytes_length, serial_words_length]
      apply Nat.mod_eq_of_lt
      omega
    · rw [little_endian_write_u32, hpos]
      apply Nat.mod_eq_of_lt
      omega
    · rw [little_endian_write_u32]
      simp only [List.length_append] at hpos ⊢
      rw [hpos, serial_bytes_length]
      apply Nat.mod_eq_of_lt
      omega

set_option maxRecDepth 100000 in
/-- C20, refuted: for a data file whose one glyph and cropped box are 256
wide, the record's width byte (offset 29) is 0, both table offsets (offsets
30 to 37) are 0, and the 298 bytes of the stream hold nothing between the
record, which ends at offset 42, and the 256 bytes of glyph data. -/
theorem write_case_wide_range_has_neither :
    (write_case sample_export [97] wide_datafile).map
        (fun out => (out.getD 29 0, (out.drop 30).take 8, out.length))
      = some (0, [0, 0, 0, 0, 0, 0, 0, 0], 298) := by
  decide

/-! ## The loader: length, version byte and flags byte -/

/-- C25. `mf_make_font` performs no validation against the buffer length:
for every buffer contents and every two length arguments the outcome is the
same, both `NULL` or the same descriptor. -/
theorem mf_make_font_ignores_len (D : mf_decls) (bulk : Nat → Nat) (len1 len2 : Nat) :
    mf_make_font D bulk len1 = mf_make_font D bulk len2 := by
  rfl

/-- C26. The magic is compared as a NUL-terminated string, so a buffer with
a nonzero byte at offset 4, the typecase version byte, makes `mf_make_font`
return `NULL`, also when bytes 0-3 are `ftbw` and also when that byte is the
supported version. -/
theorem mf_make_font_needs_zero_version (D : mf_decls) (bulk : Nat → Nat) (len : Nat)
    (h4 : byteAt bulk 4 ≠ 0) :
    mf_make_font D bulk len = none := by
  cases hd : mf_make_font D bulk len with
  | none => rfl
  | some d => exact absurd (mf_make_font_some_version D bulk len d hd).1 h4

/-- Instance of C26: the sample file with version byte 2 has the magic `ftbw`
and is rejected by the loader that supports version 2. -/
theorem mf_make_font_needs_zero_version_witness :
    byteAt (bufferOf sample_file_v2) 4 ≠ 0 ∧
    magic_of (bufferOf sample_file_v2) = MF_BWFONT_MAGIC ∧
    byteAt (bufferOf sample_file_v2) 4
      = (decls_with_version 2).MF_TYPECASE_VERSION_SUPPORTED ∧
    mf_make_font (decls_with_version 2) (bufferOf sample_file_v2) 43 = none :=
  ⟨by decide, by decide, by decide,
   mf_make_font_needs_zero_version (decls_with_version 2) (bufferOf sample_file_v2) 43
     (by decide)⟩

theorem mf_make_font_fields_flags_overwritten (D : mf_decls) (bulk : Nat → Nat)
    (flags1 flags2 run : Nat) :
    mf_make_font_fields D bulk flags1 run = mf_make_font_fields D bulk flags2 run := by
  rfl

theorem mf_make_font_fields_variant (D : mf_decls) (bulk : Nat → Nat) (flags : Nat)
    (d : mf_bwfont_s) (h : mf_make_font_fields D bulk flags 4 = some d) :
    d.font.character_width = D.mf_bwfont_character_width d.char_ranges bulk ∧
    d.font.render_character = D.mf_bwfont_render_character d.char_ranges bulk := by
  simp only [mf_make_font_fields] at h
  split_ifs at h with h1 h2
  simp only [Option.some.injEq] at h
  subst h
  exact ⟨rfl, rfl⟩

/-- C27. The flags byte of the file, not the magic, decides the variant:
the flag stored for the magic is overwritten by byte 13, so the outcome for a
buffer is the same whichever value the magic branch stored; `mf_make_font`
returns a descriptor only if byte 13 has the black-and-white bit set, and
every descriptor it returns has its flags equal to byte 13 and the
bitmap-variant measure and render operations installed on the range table it
read. -/
theorem mf_make_font_flags_byte_decides (D : mf_decls) (bulk : Nat → Nat) (len : Nat)
    (d : mf_bwfont_s) (h : mf_make_font D bulk len = some d) :
    byteAt bulk 13 &&& D.MF_FONT_FLAG_BW ≠ 0 ∧
    d.font.flags = byteAt bulk 13 ∧
    d.font.character_width = D.mf_bwfont_character_width d.char_ranges bulk ∧
    d.font.render_character = D.mf_bwfont_render_character d.char_ranges bulk ∧
    mf_make_font_fields D bulk D.MF_FONT_FLAG_BW 4 = mf_make_font_fields D bulk 0 4 := by
  obtain ⟨flags, hf⟩ := mf_make_font_some D bulk len d h
  have hd := mf_make_font_fields_some D bulk flags d hf
  have hv := mf_make_font_fields_variant D bulk flags d hf
  have hne : ¬ mf_make_font D bulk len = none := by simp [h]
  rw [mf_make_font_eq_none_iff] at hne
  simp only [not_or] at hne
  exact ⟨hne.2.2, hd.2.2.2.2.2.2.2.1, hv.1, hv.2, rfl⟩

/-- Instance of C27: the buffer with magic `ftrl` whose flags byte is 2 loads
as a bitmap font with flags 2, and the buffer with magic `ftbw` whose flags
byte is 0 does not load. -/
theorem mf_make_font_flags_byte_decides_witness :
    magic_of (bufferOf sample_file_rle) = MF_RLEFONT_MAGIC ∧
    (∃ d, mf_make_font (decls_with_version 0) (bufferOf sample_file_rle) 43 = some d ∧
      byteAt (bufferOf sample_file_rle) 13 &&& (decls_with_version 0).MF_FONT_FLAG_BW ≠ 0 ∧
      d.font.flags = 2 ∧
      d.font.character_width
        = (decls_with_version 0).mf_bwfont_character_width d.char_ranges
            (bufferOf sample_file_rle)) ∧
    magic_of (bufferOf sample_file_plain) = MF_BWFONT_MAGIC ∧
    (mf_make_font (decls_with_version 0) (bufferOf sample_file_plain) 43).isNone = true := by
  refine ⟨by decide, ?_, by decide, by decide⟩
  have hs : (mf_make_font (decls_with_version 0) (bufferOf sample_file_rle) 43).isSome
      = true := by decide
  cases hd : mf_make_font (decls_with_version 0) (bufferOf sample_file_rle) 43 with
  | none => rw [hd] at hs; exact absurd hs (by decide)
  | some d =>
    obtain ⟨h1, h2, h3, _, _⟩ :=
      mf_make_font_flags_byte_decides (decls_with_version 0) (bufferOf sample_file_rle) 43 d hd
    exact ⟨d, rfl, h1, by rw [h2]; decide, h3⟩

/-! ## The bytes one glyph appends -/

theorem for_loop_append (body : Nat → List Nat → Option (List Nat))
    (hbody : ∀ i s, body i s = (body i []).map (fun t => s ++ t)) :
    ∀ (n i : Nat) (s : List Nat),
      for_loop body n i s = (for_loop body n i []).map (fun t => s ++ t) := by
  intro n
  induction n with
  | zero =>
    intro i s
    simp [for_loop]
  | succ n ih =>
    intro i s
    simp only [for_loop]
    rw [hbody i s]
    cases hb : body i [] with
    | none => simp
    | some t =>
      simp only [Option.map_some']
      rw [ih (i + 1) (s ++ t), ih (i + 1) t]
      cases for_loop body n (i + 1) [] with
      | none => simp
      | some u => simp [List.append_assoc]

theorem for_step_append (body : Nat → List Nat → Option (List Nat))
    (hbody : ∀ i s, body i s = (body i []).map (fun t => s ++ t)) (bound step : Nat) :
    ∀ (fuel y : Nat) (s : List Nat),
      for_step body bound step fuel y s
        = (for_step body bound step fuel y []).map (fun t => s ++ t) := by
  intro fuel
  induction fuel with
  | zero =>
    intro y s
    simp [for_step]
  | succ n ih =>
    intro y s
    simp only [for_step]
    split_ifs with hy
    · rw [hbody y s]
      cases hb : body y [] with
      | none => simp
      | some t =>
        simp only [Option.map_some']
        rw [ih (y + step) (s ++ t), ih (y + step) t]
        cases for_step body bound step n (y + step) [] with
        | none => simp
        | some u => simp [List.append_assoc]
    · simp

theorem write_cols_append (glyph : glyphentry_t) (fontinfo : fontinfo_t) (dest : List Nat)
    (num_cols : Nat) :
    write_cols glyph fontinfo dest num_cols
      = (write_cols glyph fontinfo [] num_cols).map (fun span => dest ++ span) := by
  simp only [write_cols]
  apply for_loop_append
  intro x s
  apply for_step_append
  intro y s1
  cases pack_byte glyph fontinfo x y with
  | none => simp
  | some byte => simp

theorem encode_glyph_append (glyph : glyphentry_t) (fontinfo : fontinfo_t) (dest : List Nat)
    (num_cols : Nat) :
    encode_glyph glyph fontinfo dest num_cols
      = (encode_glyph glyph fontinfo [] num_cols).map (fun span => dest ++ span) := by
  simp only [encode_glyph]
  split_ifs with h0
  · simp
  · cases find_num_cols glyph fontinfo num_cols with
    | none => simp
    | some cols => exact write_cols_append glyph fontinfo dest cols

theorem write_band_length (glyph : glyphentry_t) (fontinfo : fontinfo_t) (x : Nat)
    (dest dest1 : List Nat)
    (h : for_step (fun y dest =>
        match pack_byte glyph fontinfo x y with
        | none => none
        | some byte => some (dest ++ [byte]))
        fontinfo.max_height 8 fontinfo.max_height 0 dest = some dest1) :
    dest1.length = dest.length + (fontinfo.max_height + 7) / 8 := by
  have e0 : (0 : Nat) = 8 * 0 := rfl
  rw [e0, for_step_eq_for_loop _ _ _ 0 dest (by omega)] at h
  have key := for_loop_partial (fun b (s : List Nat) => s.length = dest.length + b)
    (fun b => (fun y dest =>
        match pack_byte glyph fontinfo x y with
        | none => none
        | some byte => some (dest ++ [byte])) (8 * b))
    ((fontinfo.max_height + 7) / 8 - 0) 0 dest dest1 (by simp) (by
      intro b s s1 _ _ hs hb
      beta_reduce at hs hb ⊢
      cases hp : pack_byte glyph fontinfo x (8 * b) with
      | none => simp [hp] at hb
      | some byte =>
        simp only [hp, Option.some.injEq] at hb
        subst hb
        simp only [List.length_append, List.length_cons, List.length_nil]
        omega) h
  simpa using key

theorem write_cols_length (glyph : glyphentry_t) (fontinfo : fontinfo_t)
    (dest dest1 : List Nat) (num_cols : Nat)
    (h : write_cols glyph fontinfo dest num_cols = some dest1) :
    dest1.length = dest.length + num_cols * ((fontinfo.max_height + 7) / 8) := by
  simp only [write_cols] at h
  have key := for_loop_partial
    (fun x (s : List Nat) => s.length = dest.length + x * ((fontinfo.max_height + 7) / 8))
    (fun x dest =>
      for_step (fun y dest =>
        match pack_byte glyph fontinfo x y with
        | none => none
        | some byte => some (dest ++ [byte]))
        fontinfo.max_height 8 fontinfo.max_height 0 dest)
    num_cols 0 dest dest1 (by simp) (by
      intro x s s1 _ _ hs hb
      beta_reduce at hs hb ⊢
      rw [write_band_length glyph fontinfo x s s1 hb, hs, Nat.add_mul, Nat.one_mul]
      omega) h
  simpa using key

theorem encode_glyph_columns (glyph : glyphentry_t) (fontinfo : fontinfo_t)
    (dest dest1 : List Nat) (num_cols : Nat)
    (h : encode_glyph glyph fontinfo dest num_cols = some dest1) :
    ∃ (span : List Nat) (cols : Nat), dest1 = dest ++ span ∧
      encode_glyph glyph fontinfo [] num_cols = some span ∧
      span.length = cols * ((fontinfo.max_height + 7) / 8) ∧
      (glyph.data = [] → span = []) ∧
      (glyph.data ≠ [] → num_cols ≠ 0 → cols = num_cols) := by
  rw [encode_glyph_append] at h
  cases hs : encode_glyph glyph fontinfo [] num_cols with
  | none => simp [hs] at h
  | some span =>
    simp only [hs, Option.map_some', Option.some.injEq] at h
    simp only [encode_glyph] at hs
    split_ifs at hs with h0
    · simp only [Option.some.injEq] at hs
      subst hs
      refine ⟨[], 0, by simpa using h.symm, rfl, by simp, fun _ => rfl, ?_⟩
      intro hne
      exact absurd (List.length_eq_zero.1 h0) hne
    · cases hf : find_num_cols glyph fontinfo num_cols with
      | none => simp [hf] at hs
      | some cols =>
        simp only [hf] at hs
        have hlen := write_cols_length glyph fontinfo [] span cols hs
        refine ⟨span, cols, h.symm, rfl, by simpa using hlen, ?_, ?_⟩
        · intro hd
          exact absurd (by simp [hd]) h0
        · intro _ hn
          simp only [find_num_cols, hn, if_false, Option.some.injEq] at hf
          exact hf.symm

/-! ## The tables of one range -/

theorem span_offsets_length (stride : Nat) (spans : List (List Nat)) :
    ∀ len, (span_offsets stride len spans).length = spans.length := by
  induction spans with
  | nil => intro len; rfl
  | cons span rest ih =>
    intro len
    simp [span_offsets, ih]

theorem span_offsets_get (stride : Nat) (spans : List (List Nat)) :
    ∀ (len i : Nat), i < spans.length →
      (span_offsets stride len spans)[i]?
        = some ((len + (spans.take i).flatten.length) / stride) := by
  induction spans with
  | nil =>
    intro len i hi
    simp at hi
  | cons span rest ih =>
    intro len i hi
    cases i with
    | zero => simp [span_offsets]
    | succ k =>
      simp only [span_offsets, List.getElem?_cons_succ, List.take_succ_cons,
        List.flatten_cons, List.length_append]
      rw [ih (len + span.length) k (by simpa using hi)]
      simp [Nat.add_assoc]

theorem flatten_take_succ (spans : List (List Nat)) (i : Nat) (span : List Nat)
    (h : spans[i]? = some span) :
    (spans.take (i + 1)).flatten = (spans.take i).flatten ++ span := by
  induction spans generalizing i with
  | nil => simp at h
  | cons s rest ih =>
    cases i with
    | zero =>
      simp only [List.getElem?_cons_zero, Option.some.injEq] at h
      subst h
      simp
    | succ k =>
      simp only [List.getElem?_cons_succ] at h
      simp only [List.take_succ_cons, List.flatten_cons, ih k h, List.append_assoc]

theorem flatten_take_initial (spans : List (List Nat)) (i : Nat) :
    spans.flatten.take (spans.take i).flatten.length = (spans.take i).flatten := by
  induction spans generalizing i with
  | nil => simp
  | cons s rest ih =>
    cases i with
    | zero => simp
    | succ k =>
      simp only [List.take_succ_cons, List.flatten_cons, List.length_append]
      rw [List.take_append_eq_append_take]
      have e : s.length + (rest.take k).flatten.length - s.length
          = (rest.take k).flatten.length := by omega
      rw [e, ih k, List.take_of_length_le (by omega)]

theorem format_glyphs_trace (new_fi : fontinfo_t) (stride width : Nat)
    (glyphs : List glyphentry_t) :
    ∀ (offsets data widths offsets1 data1 widths1 : List Nat),
      format_glyphs new_fi stride width glyphs (offsets, data, widths)
        = some (offsets1, data1, widths1) →
      data1 = data ++ (glyph_spans new_fi width glyphs).flatten ∧
      widths1 = widths ++ glyphs.map (fun g => g.width) ∧
      offsets1 = offsets ++ span_offsets stride data.length (glyph_spans new_fi width glyphs) ∧
      (∀ g ∈ glyphs, ∃ span, encode_glyph g new_fi [] width = some span) := by
  induction glyphs with
  | nil =>
    intro offsets data widths offsets1 data1 widths1 h
    simp only [format_glyphs, Option.some.injEq, Prod.mk.injEq] at h
    obtain ⟨h1, h2, h3⟩ := h
    subst h1 h2 h3
    simp [glyph_spans, span_offsets]
  | cons g rest ih =>
    intro offsets data widths offsets1 data1 widths1 h
    simp only [format_glyphs] at h
    split_ifs at h with hs
    rw [encode_glyph_append] at h
    cases hg : encode_glyph g new_fi [] width with
    | none => simp [hg] at h
    | some span =>
      simp only [hg, Option.map_some'] at h
      obtain ⟨h1, h2, h3, h4⟩ := ih _ _ _ _ _ _ h
      have hsp : glyph_spans new_fi width (g :: rest)
          = span :: glyph_spans new_fi width rest := by
        simp [glyph_spans, hg]
      refine ⟨?_, ?_, ?_, ?_⟩
      · rw [h1, hsp]
        simp
      · rw [h2]
        simp
      · rw [h3, hsp]
        simp [span_offsets]
      · intro g1 hg1
        rcases List.mem_cons.1 hg1 with he | hr
        · subst he
          exact ⟨span, hg⟩
        · exact h4 g1 hr

theorem copy_glyphs_trace (datafile : DataFile) (indices : List Int) :
    ∀ (glyphs : List glyphentry_t) (cw : Bool) (width : Nat)
      (glyphs1 : List glyphentry_t) (cw1 : Bool) (width1 : Nat),
      copy_glyphs datafile indices (glyphs, cw, width) = some (glyphs1, cw1, width1) →
      glyphs1 = glyphs ++ indices.map (slot_glyph datafile) ∧
      ((∀ gi ∈ indices, 0 ≤ gi → (slot_glyph datafile gi).width = width) →
        cw1 = cw ∧ width1 = width) ∧
      (¬ (∀ gi ∈ indices, 0 ≤ gi → (slot_glyph datafile gi).width = width) →
        cw1 = false ∧ width1 = 0) := by
  induction indices with
  | nil =>
    intro glyphs cw width glyphs1 cw1 width1 h
    simp only [copy_glyphs, Option.some.injEq, Prod.mk.injEq] at h
    obtain ⟨h1, h2, h3⟩ := h
    subst h1 h2 h3
    simp
  | cons gi rest ih =>
    intro glyphs cw width glyphs1 cw1 width1 h
    simp only [copy_glyphs] at h
    split_ifs at h with hneg
    · obtain ⟨h1, h2, h3⟩ := ih _ _ _ _ _ _ h
      have hslot : slot_glyph datafile gi = { data := [], width := 0 } := by
        simp [slot_glyph, hneg]
      have hall : (∀ g ∈ gi :: rest, 0 ≤ g → (slot_glyph datafile g).width = width)
          ↔ (∀ g ∈ rest, 0 ≤ g → (slot_glyph datafile g).width = width) := by
        constructor
        · intro hh g hg
          exact hh g (List.mem_cons_of_mem _ hg)
        · intro hh g hg hpos
          rcases List.mem_cons.1 hg with he | hr
          · subst he
            omega
          · exact hh g hr hpos
      refine ⟨?_, ?_, ?_⟩
      · rw [h1, List.map_cons, hslot]
        simp
      · intro hu
        exact h2 (hall.1 hu)
      · intro hu
        exact h3 (fun hh => hu (hall.2 hh))
    · cases hget : datafile.GetGlyphEntry gi with
      | none => simp [hget] at h
      | some glyph =>
        simp only [hget] at h
        have hslot : slot_glyph datafile gi = glyph := by
          simp [slot_glyph, hneg, hget]
        split_ifs at h with hw
        · obtain ⟨h1, h2, h3⟩ := ih _ _ _ _ _ _ h
          refine ⟨?_, ?_, ?_⟩
          · rw [h1, List.map_cons, hslot]
            simp
          · intro hu
            have := hu gi (List.mem_cons_self _ _) (by omega)
            rw [hslot] at this
            exact absurd this hw
          · intro _
            by_cases hz : ∀ g ∈ rest, 0 ≤ g → (slot_glyph datafile g).width = 0
            · exact h2 hz
            · exact h3 hz
        · obtain ⟨h1, h2, h3⟩ := ih _ _ _ _ _ _ h
          have hwe : glyph.width = width := by
            by_contra hc
            exact hw hc
          have hall : (∀ g ∈ gi :: rest, 0 ≤ g → (slot_glyph datafile g).width = width)
              ↔ (∀ g ∈ rest, 0 ≤ g → (slot_glyph datafile g).width = width) := by
            constructor
            · intro hh g hg
              exact hh g (List.mem_cons_of_mem _ hg)
            · intro hh g hg hpos
              rcases List.mem_cons.1 hg with he | hr
              · subst he
                rw [hslot]
                exact hwe
              · exact hh g hr hpos
          refine ⟨?_, ?_, ?_⟩
          · rw [h1, List.map_cons, hslot]
            simp
          · intro hu
            exact h2 (hall.1 hu)
          · intro hu
            exact h3 (fun hh => hu (hall.2 hh))

theorem encode_character_range_raw_inv (E : export_decls) (blocks : List (List Nat))
    (datafile : DataFile) (range : char_range_t) (index : Nat)
    (blocks1 : List (List Nat)) (crop : cropinfo_t)
    (h : encode_character_range_raw E blocks datafile range index = some (blocks1, crop)) :
    ∃ (first_glyph : glyphentry_t) (constant_width : Bool) (offsets data widths : List Nat),
      (∃ first, range.glyph_indices[0]? = some first ∧
        datafile.GetGlyphEntry first = some first_glyph) ∧
      (constant_width = true ↔
        (∀ gi ∈ range.glyph_indices, 0 ≤ gi →
          (slot_glyph datafile gi).width = first_glyph.width) ∧
        (cropped_range E datafile range).2.max_width = first_glyph.width) ∧
      crop.width = (if constant_width = true then first_glyph.width else 0) ∧
      crop.height_pixels = (cropped_range E datafile range).2.max_height ∧
      crop.height_bytes = ((cropped_range E datafile range).2.max_height + 7) / 8 ∧
      crop.offset_x = to_size_t (datafile.GetFontInfo.baseline_x
        - (cropped_range E datafile range).2.baseline_x) ∧
      crop.offset_y = to_size_t (datafile.GetFontInfo.baseline_y
        - (cropped_range E datafile range).2.baseline_y) ∧
      crop.height_bytes ≠ 0 ∧
      format_glyphs (cropped_range E datafile range).2 crop.height_bytes crop.width
        (cropped_range E datafile range).1 ([], [], []) = some (offsets, data, widths) ∧
      blocks1 = blocks ++
        (if constant_width = true then [[], [], data]
         else [widths, offsets ++ [data.length / crop.height_bytes], data]) := by
  simp only [encode_character_range_raw] at h
  cases h0 : range.glyph_indices[0]? with
  | none => simp [h0] at h
  | some first =>
    simp only [h0] at h
    cases h1 : datafile.GetGlyphEntry first with
    | none => simp [h1] at h
    | some first_glyph =>
      simp only [h1] at h
      cases h2 : copy_glyphs datafile range.glyph_indices ([], true, first_glyph.width) with
      | none => simp [h2] at h
      | some r =>
        obtain ⟨glyphs, cw, width⟩ := r
        simp only [h2] at h
        obtain ⟨hg, hu, hn⟩ := copy_glyphs_trace _ _ _ _ _ _ _ _ h2
        have hglyphs : glyphs = range_glyphs datafile range := by
          rw [hg]
          simp [range_glyphs]
        subst hglyphs
        have hcr : E.crop_glyphs (range_glyphs datafile range) datafile.GetFontInfo
            = cropped_range E datafile range := rfl
        rw [hcr] at h
        cases h3 : format_glyphs (cropped_range E datafile range).2
            (((cropped_range E datafile range).2.max_height + 7) / 8)
            (if (cropped_range E datafile range).2.max_width ≠ width then 0 else width)
            (cropped_range E datafile range).1 ([], [], []) with
        | none =>
          rw [h3] at h
          exact absurd h (by simp)
        | some t =>
          obtain ⟨offsets, data, widths⟩ := t
          rw [h3] at h
          simp only at h
          by_cases hstride : ((cropped_range E datafile range).2.max_height + 7) / 8 = 0
          · simp [hstride] at h
          · simp only [hstride, if_false, Option.some.injEq, Prod.mk.injEq] at h
            obtain ⟨hb, hc⟩ := h
            subst hc
            refine ⟨first_glyph,
              (if (cropped_range E datafile range).2.max_width ≠ width then false else cw),
              offsets, data, widths, ⟨first, rfl, h1⟩, ?_, ?_, rfl, rfl, rfl, rfl, hstride,
              h3, ?_⟩
            · by_cases hall : ∀ gi ∈ range.glyph_indices, 0 ≤ gi →
                  (slot_glyph datafile gi).width = first_glyph.width
              · obtain ⟨hcw, hw⟩ := hu hall
                subst hcw hw
                by_cases hmw : (cropped_range E datafile range).2.max_width
                    = first_glyph.width
                · exact ⟨fun _ => ⟨hall, hmw⟩, fun _ => by simp [hmw]⟩
                · simp [hmw]
              · obtain ⟨hcw, hw⟩ := hn hall
                subst hcw hw
                constructor
                · intro hc
                  simp at hc
                · intro hc
                  exact absurd hc.1 hall
            · by_cases hall : ∀ gi ∈ range.glyph_indices, 0 ≤ gi →
                  (slot_glyph datafile gi).width = first_glyph.width
              · obtain ⟨hcw, hw⟩ := hu hall
                subst hcw hw
                by_cases hmw : (cropped_range E datafile range).2.max_width
                    = first_glyph.width
                · simp [hmw]
                · simp [hmw]
              · obtain ⟨hcw, hw⟩ := hn hall
                subst hcw hw
                simp
            · rw [← hb]
              by_cases hmw : (cropped_range E datafile range).2.max_width = width
              · cases cw <;> simp [hmw]
              · simp [hmw]

theorem glyph_spans_length (new_fi : fontinfo_t) (width : Nat) (glyphs : List glyphentry_t) :
    (glyph_spans new_fi width glyphs).length = glyphs.length := by
  simp [glyph_spans]

theorem glyph_spans_get (new_fi : fontinfo_t) (width : Nat) (glyphs : List glyphentry_t)
    (i : Nat) (g : glyphentry_t) (span : List Nat) (hg : glyphs[i]? = some g)
    (hs : encode_glyph g new_fi [] width = some span) :
    (glyph_spans new_fi width glyphs)[i]? = some span := by
  simp [glyph_spans, List.getElem?_map, hg, hs]

theorem glyph_spans_whole_columns (new_fi : fontinfo_t) (width : Nat)
    (glyphs : List glyphentry_t) :
    ∀ s ∈ glyph_spans new_fi width glyphs,
      ∃ cols, s.length = cols * ((new_fi.max_height + 7) / 8) := by
  intro s hs
  simp only [glyph_spans, List.mem_map] at hs
  obtain ⟨g, _, rfl⟩ := hs
  cases he : encode_glyph g new_fi [] width with
  | none => exact ⟨0, by simp⟩
  | some span =>
    obtain ⟨span1, cols, h1, _, h3, _, _⟩ := encode_glyph_columns g new_fi [] span width he
    refine ⟨cols, ?_⟩
    have e : span = span1 := by simpa using h1
    simp only [Option.getD_some]
    rw [e]
    exact h3

theorem flatten_whole_columns (spans : List (List Nat)) (stride : Nat)
    (h : ∀ s ∈ spans, ∃ cols, s.length = cols * stride) :
    ∃ cols, spans.flatten.length = cols * stride := by
  induction spans with
  | nil => exact ⟨0, by simp⟩
  | cons s rest ih =>
    obtain ⟨c1, h1⟩ := h s (List.mem_cons_self _ _)
    obtain ⟨c2, h2⟩ := ih (fun t ht => h t (List.mem_cons_of_mem _ ht))
    refine ⟨c1 + c2, ?_⟩
    simp only [List.flatten_cons, List.length_append, h1, h2, Nat.add_mul]

theorem flatten_take_length_le (spans : List (List Nat)) :
    ∀ (i j : Nat), i ≤ j → (spans.take i).flatten.length ≤ (spans.take j).flatten.length := by
  induction spans with
  | nil =>
    intro i j _
    simp
  | cons s rest ih =>
    intro i j hij
    cases i with
    | zero => simp
    | succ a =>
      cases j with
      | zero => omega
      | succ b =>
        have := ih a b (by omega)
        simp only [List.take_succ_cons, List.flatten_cons, List.length_append]
        omega

theorem table_get (stride : Nat) (spans : List (List Nat)) (i : Nat) (hi : i ≤ spans.length) :
    (span_offsets stride 0 spans ++ [spans.flatten.length / stride])[i]?
      = some ((spans.take i).flatten.length / stride) := by
  rcases Nat.lt_or_eq_of_le hi with hlt | heq
  · rw [List.getElem?_append_left (by rw [span_offsets_length]; exact hlt),
      span_offsets_get stride spans 0 i hlt]
    simp
  · rw [List.getElem?_append_right (by rw [span_offsets_length]; omega), span_offsets_length,
      heq]
    simp

theorem encode_character_range_raw_tables (E : export_decls) (blocks : List (List Nat))
    (datafile : DataFile) (range : char_range_t) (index : Nat)
    (blocks1 : List (List Nat)) (crop : cropinfo_t)
    (h : encode_character_range_raw E blocks datafile range index = some (blocks1, crop)) :
    ∃ (offsets data widths : List Nat),
      format_glyphs (cropped_range E datafile range).2 crop.height_bytes crop.width
        (cropped_range E datafile range).1 ([], [], []) = some (offsets, data, widths) ∧
      (blocks1 = blocks ++ [widths, offsets ++ [data.length / crop.height_bytes], data] ∧
          crop.width = 0 ∨
        blocks1 = blocks ++ [[], [], data]) ∧
      (crop.width ≠ 0 → blocks1 = blocks ++ [[], [], data]) ∧
      crop.height_bytes = (crop.height_pixels + 7) / 8 ∧
      crop.height_pixels = (cropped_range E datafile range).2.max_height ∧
      crop.height_bytes ≠ 0 ∧
      data = (glyph_spans (cropped_range E datafile range).2 crop.width
        (cropped_range E datafile range).1).flatten ∧
      widths = (cropped_range E datafile range).1.map (fun g => g.width) ∧
      (∀ g ∈ (cropped_range E datafile range).1,
        ∃ span, encode_glyph g (cropped_range E datafile range).2 [] crop.width = some span) ∧
      (∀ i, i ≤ (cropped_range E datafile range).1.length →
        ∃ c, ((glyph_spans (cropped_range E datafile range).2 crop.width
            (cropped_range E datafile range).1).take i).flatten.length
              = c * crop.height_bytes ∧
          (offsets ++ [data.length / crop.height_bytes])[i]? = some c) := by
  obtain ⟨first_glyph, cw, offsets, data, widths, _, _, hw, hpx, hhb, _, _, hne, hfmt, hblocks⟩ :=
    encode_character_range_raw_inv E blocks datafile range index blocks1 crop h
  obtain ⟨hd, hwd, ho, hsome⟩ := format_glyphs_trace _ _ _ _ _ _ _ _ _ _ hfmt
  simp only [List.nil_append, List.length_nil] at hd hwd ho
  refine ⟨offsets, data, widths, hfmt, ?_, ?_, by rw [hhb, hpx], hpx, hne, hd, hwd, hsome, ?_⟩
  · cases cw with
    | true => exact Or.inr (by simpa using hblocks)
    | false => exact Or.inl ⟨by simpa using hblocks, by simpa using hw⟩
  · intro hnz
    cases cw with
    | true => simpa using hblocks
    | false => exact absurd (by simpa using hw) hnz
  · intro i hi
    have hmul := flatten_whole_columns
      ((glyph_spans (cropped_range E datafile range).2 crop.width
          (cropped_range E datafile range).1).take i)
      crop.height_bytes (by
        intro s hs
        have := glyph_spans_whole_columns _ _ _ s (List.mem_of_mem_take hs)
        rw [hhb]
        exact this)
    obtain ⟨c, hc⟩ := hmul
    refine ⟨c, hc, ?_⟩
    rw [ho, hd, table_get _ _ i (by rw [glyph_spans_length]; exact hi), hc,
      Nat.mul_div_cancel _ (Nat.pos_of_ne_zero hne)]

theorem encode_character_range_raw_span (E : export_decls) (blocks : List (List Nat))
    (datafile : DataFile) (range : char_range_t) (index : Nat)
    (blocks1 : List (List Nat)) (crop : cropinfo_t)
    (h : encode_character_range_raw E blocks datafile range index = some (blocks1, crop))
    (offsets data widths : List Nat)
    (hfmt : format_glyphs (cropped_range E datafile range).2 crop.height_bytes crop.width
        (cropped_range E datafile range).1 ([], [], []) = some (offsets, data, widths))
    (i : Nat) (g : glyphentry_t) (hg : (cropped_range E datafile range).1[i]? = some g) :
    ∃ (span : List Nat) (c1 c2 : Nat),
      encode_glyph g (cropped_range E datafile range).2 [] crop.width = some span ∧
      (offsets ++ [data.length / crop.height_bytes])[i]? = some c1 ∧
      (offsets ++ [data.length / crop.height_bytes])[i + 1]? = some c2 ∧
      (data.take (c1 * crop.height_bytes)).length = c1 * crop.height_bytes ∧
      data.take (c2 * crop.height_bytes) = data.take (c1 * crop.height_bytes) ++ span ∧
      c2 * crop.height_bytes = c1 * crop.height_bytes + span.length ∧
      widths[i]? = some g.width := by
  obtain ⟨offsets1, data1, widths1, hfmt1, _, _, _, _, _, hd, hwd, hsome, htab⟩ :=
    encode_character_range_raw_tables E blocks datafile range index blocks1 crop h
  rw [hfmt] at hfmt1
  simp only [Option.some.injEq, Prod.mk.injEq] at hfmt1
  obtain ⟨e1, e2, e3⟩ := hfmt1
  subst e1 e2 e3
  have hi : i < (cropped_range E datafile range).1.length := by
    by_contra hc
    rw [List.getElem?_eq_none (by omega)] at hg
    exact absurd hg (by simp)
  obtain ⟨span, hspan⟩ := hsome g (List.getElem?_mem hg)
  have hsp := glyph_spans_get _ _ _ i g span hg hspan
  obtain ⟨c1, hc1, ht1⟩ := htab i (by omega)
  obtain ⟨c2, hc2, ht2⟩ := htab (i + 1) (by omega)
  have hsucc := flatten_take_succ _ i span hsp
  have hp1 := flatten_take_initial
    (glyph_spans (cropped_range E datafile range).2 crop.width
      (cropped_range E datafile range).1) i
  have hp2 := flatten_take_initial
    (glyph_spans (cropped_range E datafile range).2 crop.width
      (cropped_range E datafile range).1) (i + 1)
  rw [hc1, ← hd] at hp1
  rw [hc2, ← hd] at hp2
  refine ⟨span, c1, c2, hspan, ht1, ht2, ?_, ?_, ?_, ?_⟩
  · rw [hp1]
    exact hc1
  · rw [hp2, hp1]
    exact hsucc
  · rw [← hc2, ← hc1, hsucc, List.length_append]
  · rw [hwd, List.getElem?_map, hg]
    rfl

/-! ## The offset table of a range -/

/-- C21, refuted: for the range that holds one glyph 1 column wide and 9 rows
high, whose stride is 2, the offset table is `[0, 1]` and the glyph data has
2 bytes: the last entry counts columns, and is not the data length. -/
theorem offset_table_last_entry_counts_columns :
    encode_character_range_raw sample_export [] banded_datafile single_range 0
      = some ([[2], [0, 1], [255, 1]],
          { offset_x := 0, offset_y := 0, height_bytes := 2, height_pixels := 9,
            width := 0 }) ∧
    ([0, 1] : List Nat).getLast? = some 1 ∧ ([255, 1] : List Nat).length = 2 := by
  decide

/-- C21, amended. The offset table built for a range of `count` slots, when
cropping keeps one glyph per slot, has exactly `count + 1` entries, is
monotonically non-decreasing, and its last entry times the stride
`height_bytes` equals the length of the glyph data of the range.  The table is
the offsets recorded by the formatting loop followed by the closing entry; it
is the block emitted for a range without a shared width. -/
theorem range_offset_table (E : export_decls) (blocks : List (List Nat))
    (datafile : DataFile) (range : char_range_t) (index : Nat)
    (blocks1 : List (List Nat)) (crop : cropinfo_t)
    (h : encode_character_range_raw E blocks datafile range index = some (blocks1, crop))
    (hkeep : (cropped_range E datafile range).1.length = range.glyph_indices.length) :
    ∃ (offsets data widths : List Nat),
      format_glyphs (cropped_range E datafile range).2 crop.height_bytes crop.width
        (cropped_range E datafile range).1 ([], [], []) = some (offsets, data, widths) ∧
      (blocks1 = blocks ++ [widths, offsets ++ [data.length / crop.height_bytes], data] ∧
          crop.width = 0 ∨
        blocks1 = blocks ++ [[], [], data]) ∧
      (offsets ++ [data.length / crop.height_bytes]).length
        = range.glyph_indices.length + 1 ∧
      (∀ i j, i ≤ j → j ≤ range.glyph_indices.length →
        (offsets ++ [data.length / crop.height_bytes]).getD i 0
          ≤ (offsets ++ [data.length / crop.height_bytes]).getD j 0) ∧
      (offsets ++ [data.length / crop.height_bytes]).getD range.glyph_indices.length 0
          * crop.height_bytes = data.length := by
  obtain ⟨offsets, data, widths, hfmt, hblocks, _, _, _, hne, hd, _, _, htab⟩ :=
    encode_character_range_raw_tables E blocks datafile range index blocks1 crop h
  obtain ⟨hlen, _⟩ := format_glyphs_spec _ _ _ _ _ _ _ _ _ _ hfmt
  refine ⟨offsets, data, widths, hfmt, hblocks, ?_, ?_, ?_⟩
  · simp only [List.length_append, List.length_cons, List.length_nil] at hlen ⊢
    omega
  · intro i j hij hj
    obtain ⟨ci, hci, hti⟩ := htab i (by omega)
    obtain ⟨cj, hcj, htj⟩ := htab j (by omega)
    simp only [List.getD_eq_getElem?_getD, hti, htj, Option.getD_some]
    have hle := flatten_take_length_le
      (glyph_spans (cropped_range E datafile range).2 crop.width
        (cropped_range E datafile range).1) i j hij
    rw [hci, hcj] at hle
    exact Nat.le_of_mul_le_mul_right hle (Nat.pos_of_ne_zero hne)
  · obtain ⟨c, hc, ht⟩ := htab range.glyph_indices.length (by omega)
    simp only [List.getD_eq_getElem?_getD, ht, Option.getD_some]
    rw [← hc, hd, List.take_of_length_le (by rw [glyph_spans_length]; omega)]

/-- Instance of C21 amended: the table of the range holding the glyph 1 wide
and 9 high has 2 entries, and its last entry 1 times the stride 2 is the
length of the data. -/
theorem range_offset_table_witness :
    (cropped_range sample_export banded_datafile single_range).1.length
      = single_range.glyph_indices.length ∧
    ∃ (offsets data widths : List Nat),
      format_glyphs (cropped_range sample_export banded_datafile single_range).2 2 0
        (cropped_range sample_export banded_datafile single_range).1 ([], [], [])
          = some (offsets, data, widths) ∧
      (offsets ++ [data.length / 2]).length = 1 + 1 ∧
      (offsets ++ [data.length / 2]).getD 1 0 * 2 = data.length := by
  refine ⟨by decide, ?_⟩
  obtain ⟨offsets, data, widths, h1, _, h3, _, h5⟩ :=
    range_offset_table sample_export [] banded_datafile single_range 0
      [[2], [0, 1], [255, 1]]
      { offset_x := 0, offset_y := 0, height_bytes := 2, height_pixels := 9, width := 0 }
      (by decide) (by decide)
  exact ⟨offsets, data, widths, h1, h3, h5⟩

/-! ## The span of a glyph -/

/-- C22. Glyph span: for every range and every slot `i` of it, with the
stride `height_bytes`, the bytes of the glyph data from `offsets[i] * stride`
up to `offsets[i+1] * stride` are exactly the bytes `encode_glyph` produced for
glyph `i`: called on the data before `offsets[i] * stride` it returned the data
before `offsets[i+1] * stride`, which is the former followed by the bytes it
gives on an empty destination.  The table is the offsets recorded by the
formatting loop followed by the closing entry, the block emitted for a range
without a shared width. -/
theorem range_glyph_span (E : export_decls) (blocks : List (List Nat))
    (datafile : DataFile) (range : char_range_t) (index : Nat)
    (blocks1 : List (List Nat)) (crop : cropinfo_t)
    (h : encode_character_range_raw E blocks datafile range index = some (blocks1, crop)) :
    ∃ (offsets data widths : List Nat),
      format_glyphs (cropped_range E datafile range).2 crop.height_bytes crop.width
        (cropped_range E datafile range).1 ([], [], []) = some (offsets, data, widths) ∧
      (blocks1 = blocks ++ [widths, offsets ++ [data.length / crop.height_bytes], data] ∧
          crop.width = 0 ∨
        blocks1 = blocks ++ [[], [], data]) ∧
      ∀ i g, (cropped_range E datafile range).1[i]? = some g →
        ∃ span,
          encode_glyph g (cropped_range E datafile range).2 [] crop.width = some span ∧
          encode_glyph g (cropped_range E datafile range).2
              (data.take ((offsets ++ [data.length / crop.height_bytes]).getD i 0
                * crop.height_bytes)) crop.width
            = some (data.take ((offsets ++ [data.length / crop.height_bytes]).getD (i + 1) 0
                * crop.height_bytes)) ∧
          (data.drop ((offsets ++ [data.length / crop.height_bytes]).getD i 0
                * crop.height_bytes)).take
              ((offsets ++ [data.length / crop.height_bytes]).getD (i + 1) 0
                  * crop.height_bytes
                - (offsets ++ [data.length / crop.height_bytes]).getD i 0
                  * crop.height_bytes) = span ∧
          (offsets ++ [data.length / crop.height_bytes]).getD (i + 1) 0 * crop.height_bytes
            = (offsets ++ [data.length / crop.height_bytes]).getD i 0 * crop.height_bytes
              + span.length := by
  obtain ⟨offsets, data, widths, hfmt, hblocks, _⟩ :=
    encode_character_range_raw_tables E blocks datafile range index blocks1 crop h
  refine ⟨offsets, data, widths, hfmt, hblocks, ?_⟩
  intro i g hg
  obtain ⟨span, c1, c2, hspan, ht1, ht2, hlen, htake, hsum, _⟩ :=
    encode_character_range_raw_span E blocks datafile range index blocks1 crop h
      offsets data widths hfmt i g hg
  simp only [List.getD_eq_getElem?_getD, ht1, ht2, Option.getD_some]
  refine ⟨span, hspan, ?_, ?_, hsum⟩
  · rw [encode_glyph_append, hspan, htake]
    rfl
  · rw [← List.drop_take, htake, List.drop_left' hlen]

/-- Instance of C22: in the range of the sample data file with a missing
middle glyph, whose table is `[0, 2, 2, 4]`, the bytes 2 and 3 of the data are
the two bytes `encode_glyph` gives for the last glyph. -/
theorem range_glyph_span_witness :
    encode_character_range_raw sample_export [] sample_datafile gap_range 0
      = some ([[3, 0, 2], [0, 2, 2, 4], [2, 5, 2, 4]],
          { offset_x := 0, offset_y := 0, height_bytes := 1, height_pixels := 3,
            width := 0 }) ∧
    ∃ (offsets data widths : List Nat),
      [[3, 0, 2], [0, 2, 2, 4], [2, 5, 2, 4]] = [widths, offsets ++ [data.length / 1], data] ∧
      ∃ span,
        encode_glyph { data := [0, 0, 0, 9, 0, 0, 0, 8, 0], width := 2 }
          sample_datafile.fontinfo [] 0 = some span ∧
        (data.drop ((offsets ++ [data.length / 1]).getD 2 0 * 1)).take
            ((offsets ++ [data.length / 1]).getD (2 + 1) 0 * 1
              - (offsets ++ [data.length / 1]).getD 2 0 * 1) = span := by
  refine ⟨by decide, ?_⟩
  obtain ⟨offsets, data, widths, _, h2, h3⟩ :=
    range_glyph_span sample_export [] sample_datafile gap_range 0
      [[3, 0, 2], [0, 2, 2, 4], [2, 5, 2, 4]]
      { offset_x := 0, offset_y := 0, height_bytes := 1, height_pixels := 3, width := 0 }
      (by decide)
  obtain ⟨span, h4, _, h6, _⟩ := h3 2 { data := [0, 0, 0, 9, 0, 0, 0, 8, 0], width := 2 }
    (by decide)
  have hb : [[3, 0, 2], [0, 2, 2, 4], [2, 5, 2, 4]]
      = [widths, offsets ++ [data.length / 1], data] := by
    rcases h2 with h | h
    · simpa using h.1
    · simp at h
  exact ⟨offsets, data, widths, hb, span, h4, h6⟩

/-! ## The shared width of a range -/

/-- C23. Constant-width decision: the width recorded for a range is a
nonzero value `W` if and only if `W` is the advance width of the first glyph
of the range, every present glyph of the range has advance width `W`, and the
width of the bounding box after cropping equals `W`; in every other case the
recorded width is 0. -/
theorem range_width_decision (E : export_decls) (blocks : List (List Nat))
    (datafile : DataFile) (range : char_range_t) (index : Nat)
    (blocks1 : List (List Nat)) (crop : cropinfo_t)
    (h : encode_character_range_raw E blocks datafile range index = some (blocks1, crop)) :
    ∃ first_glyph : glyphentry_t,
      (∃ first, range.glyph_indices[0]? = some first ∧
        datafile.GetGlyphEntry first = some first_glyph) ∧
      (∀ W, W ≠ 0 →
        (crop.width = W ↔
          first_glyph.width = W ∧
          (∀ gi ∈ range.glyph_indices, 0 ≤ gi → (slot_glyph datafile gi).width = W) ∧
          (cropped_range E datafile range).2.max_width = W)) ∧
      (¬ ((∀ gi ∈ range.glyph_indices, 0 ≤ gi →
              (slot_glyph datafile gi).width = first_glyph.width) ∧
            (cropped_range E datafile range).2.max_width = first_glyph.width) →
        crop.width = 0) := by
  obtain ⟨first_glyph, cw, _, _, _, hfirst, hcw, hw, _⟩ :=
    encode_character_range_raw_inv E blocks datafile range index blocks1 crop h
  refine ⟨first_glyph, hfirst, ?_, ?_⟩
  · intro W hW
    constructor
    · intro hcrop
      cases hc : cw with
      | false =>
        rw [hc] at hw
        simp only [Bool.false_eq_true, if_false] at hw
        omega
      | true =>
        rw [hc] at hw
        simp only [if_true] at hw
        have hfw : first_glyph.width = W := by omega
        obtain ⟨hall, hmw⟩ := hcw.1 hc
        rw [hfw] at hall hmw
        exact ⟨hfw, hall, hmw⟩
    · intro hcond
      obtain ⟨hfw, hall, hmw⟩ := hcond
      have hc : cw = true := by
        apply hcw.2
        rw [hfw]
        exact ⟨hall, hmw⟩
      rw [hc] at hw
      simp only [if_true] at hw
      omega
  · intro hnot
    cases hc : cw with
    | false =>
      rw [hc] at hw
      simpa using hw
    | true => exact absurd (hcw.1 hc) hnot

/-- Instance of C23: the range of the two glyphs of advance width 3 in a box
3 wide is recorded with width 3. -/
theorem range_width_decision_witness :
    encode_character_range_raw sample_export [] mono_datafile pair_range 0
      = some ([[], [], [2, 5, 0, 2, 4, 0]],
          { offset_x := 0, offset_y := 0, height_bytes := 1, height_pixels := 3,
            width := 3 }) ∧
    ∃ first_glyph : glyphentry_t,
      ((3 : Nat) = 3 ↔
        first_glyph.width = 3 ∧
        (∀ gi ∈ pair_range.glyph_indices, 0 ≤ gi → (slot_glyph mono_datafile gi).width = 3) ∧
        (cropped_range sample_export mono_datafile pair_range).2.max_width = 3) := by
  refine ⟨by decide, ?_⟩
  obtain ⟨first_glyph, _, h2, _⟩ :=
    range_width_decision sample_export [] mono_datafile pair_range 0
      [[], [], [2, 5, 0, 2, 4, 0]]
      { offset_x := 0, offset_y := 0, height_bytes := 1, height_pixels := 3, width := 3 }
      (by decide)
  exact ⟨first_glyph, h2 3 (by decide)⟩

/-! ## The stride -/

theorem format_glyphs_total (new_fi : fontinfo_t) (stride width : Nat) (hs : stride ≠ 0)
    (glyphs : List glyphentry_t) :
    (∀ g ∈ glyphs, ∃ span, encode_glyph g new_fi [] width = some span) →
    ∀ (offsets data widths : List Nat),
      ∃ r, format_glyphs new_fi stride width glyphs (offsets, data, widths) = some r := by
  induction glyphs with
  | nil =>
    intro _ offsets data widths
    exact ⟨_, rfl⟩
  | cons g rest ih =>
    intro hsome offsets data widths
    obtain ⟨span, hspan⟩ := hsome g (List.mem_cons_self _ _)
    simp only [format_glyphs, hs, if_false]
    rw [encode_glyph_append, hspan]
    exact ih (fun g1 hg1 => hsome g1 (List.mem_cons_of_mem _ hg1)) _ _ _

/-- C29. The stride is `height_bytes = ceil(height_pixels/8)`, which is at
least 1 row high when the range is encoded; every glyph encoded into the range
appends a whole number of columns of exactly `height_bytes` bytes; and at
every point where an offset is computed, after any number of the glyphs of the
range, the accumulated data length is an exact multiple of the stride, so the
division `data.size() / stride` loses nothing. -/
theorem range_data_whole_columns (E : export_decls) (blocks : List (List Nat))
    (datafile : DataFile) (range : char_range_t) (index : Nat)
    (blocks1 : List (List Nat)) (crop : cropinfo_t)
    (h : encode_character_range_raw E blocks datafile range index = some (blocks1, crop)) :
    crop.height_bytes = (crop.height_pixels + 7) / 8 ∧
    1 ≤ crop.height_pixels ∧
    crop.height_pixels = (cropped_range E datafile range).2.max_height ∧
    (∀ g ∈ (cropped_range E datafile range).1, ∀ dest : List Nat,
      ∃ (span : List Nat) (cols : Nat),
        encode_glyph g (cropped_range E datafile range).2 dest crop.width
          = some (dest ++ span) ∧
        span.length = cols * crop.height_bytes) ∧
    (∀ i, i ≤ (cropped_range E datafile range).1.length →
      ∃ (offsets data widths : List Nat),
        format_glyphs (cropped_range E datafile range).2 crop.height_bytes crop.width
          ((cropped_range E datafile range).1.take i) ([], [], [])
            = some (offsets, data, widths) ∧
        data.length % crop.height_bytes = 0 ∧
        data.length / crop.height_bytes * crop.height_bytes = data.length) := by
  obtain ⟨_, _, _, _, _, _, hhb, hpx, hne, _, _, hsome, _⟩ :=
    encode_character_range_raw_tables E blocks datafile range index blocks1 crop h
  have hstride : (((cropped_range E datafile range).2.max_height + 7) / 8)
      = crop.height_bytes := by rw [hhb, hpx]
  refine ⟨hhb, by omega, hpx, ?_, ?_⟩
  · intro g hg dest
    obtain ⟨span, hspan⟩ := hsome g hg
    have hrun : encode_glyph g (cropped_range E datafile range).2 dest crop.width
        = some (dest ++ span) := by
      rw [encode_glyph_append, hspan]
      rfl
    obtain ⟨span1, cols, h1, _, h3, _, _⟩ := encode_glyph_columns _ _ _ _ _ hrun
    have e : span = span1 := by simpa using h1
    subst e
    rw [hstride] at h3
    exact ⟨span, cols, hrun, h3⟩
  · intro i _
    obtain ⟨r, hr⟩ := format_glyphs_total (cropped_range E datafile range).2
      crop.height_bytes crop.width hne ((cropped_range E datafile range).1.take i)
      (fun g hg => hsome g (List.mem_of_mem_take hg)) [] [] []
    obtain ⟨offsets, data, widths⟩ := r
    obtain ⟨hd, _, _, _⟩ := format_glyphs_trace _ _ _ _ _ _ _ _ _ _ hr
    obtain ⟨c, hc⟩ := flatten_whole_columns
      (glyph_spans (cropped_range E datafile range).2 crop.width
        ((cropped_range E datafile range).1.take i))
      crop.height_bytes (by
        intro s hs
        have := glyph_spans_whole_columns _ _ _ s hs
        rw [hstride] at this
        exact this)
    simp only [List.nil_append] at hd
    refine ⟨offsets, data, widths, hr, ?_, ?_⟩
    · rw [hd, hc]
      exact Nat.mul_mod_left _ _
    · rw [hd, hc, Nat.mul_div_cancel _ (Nat.pos_of_ne_zero hne)]

/-- Instance of C29: for the glyph 1 column wide and 9 rows high the stride
is 2, the glyph appends one column of 2 bytes and the data has 2 bytes when
the closing offset is computed. -/
theorem range_data_whole_columns_witness :
    encode_character_range_raw sample_export [] banded_datafile single_range 0
      = some ([[2], [0, 1], [255, 1]],
          { offset_x := 0, offset_y := 0, height_bytes := 2, height_pixels := 9,
            width := 0 }) ∧
    (2 : Nat) = (9 + 7) / 8 ∧
    ∃ (offsets data widths : List Nat),
      format_glyphs (cropped_range sample_export banded_datafile single_range).2 2 0
        ((cropped_range sample_export banded_datafile single_range).1.take 1) ([], [], [])
          = some (offsets, data, widths) ∧
      data.length % 2 = 0 ∧ data.length / 2 * 2 = data.length := by
  refine ⟨by decide, by decide, ?_⟩
  obtain ⟨_, _, _, _, h5⟩ :=
    range_data_whole_columns sample_export [] banded_datafile single_range 0
      [[2], [0, 1], [255, 1]]
      { offset_x := 0, offset_y := 0, height_bytes := 2, height_pixels := 9, width := 0 }
      (by decide)
  exact h5 1 (by decide)

/-! ## Ranges with a shared width -/

theorem shared_width_spans_length (new_fi : fontinfo_t) (width : Nat) (hw : width ≠ 0)
    (glyphs : List glyphentry_t) :
    (∀ g ∈ glyphs, ∃ span, encode_glyph g new_fi [] width = some span) →
    (glyph_spans new_fi width glyphs).flatten.length
      = glyphs.countP (fun g => decide (g.data ≠ []))
        * (width * ((new_fi.max_height + 7) / 8)) := by
  induction glyphs with
  | nil =>
    intro _
    simp [glyph_spans]
  | cons g rest ih =>
    intro hsome
    obtain ⟨span, hspan⟩ := hsome g (List.mem_cons_self _ _)
    have hrest := ih (fun g1 hg1 => hsome g1 (List.mem_cons_of_mem _ hg1))
    have hsp : glyph_spans new_fi width (g :: rest)
        = span :: glyph_spans new_fi width rest := by
      simp [glyph_spans, hspan]
    obtain ⟨span1, cols, h1, _, h3, h4, h5⟩ := encode_glyph_columns _ _ _ _ _ hspan
    have e : span = span1 := by simpa using h1
    subst e
    rw [hsp, List.flatten_cons, List.length_append, hrest, List.countP_cons]
    by_cases hd : g.data = []
    · rw [h4 hd]
      simp [hd]
    · rw [h3, h5 hd hw]
      simp only [ne_eq, hd, not_false_eq_true, decide_True, if_true, Nat.add_mul, Nat.one_mul]
      omega

/-- C28, the code. A range recorded with a nonzero width `W` has no tables,
and its glyph data has `W * height_bytes` bytes for every glyph whose matrix is
not empty and none for the empty dummy of a missing glyph: the data has
`k * W * height_bytes` bytes, `k` the number of glyphs with a matrix, and the
bytes of glyph `i` start after those of the glyphs with a matrix among the
first `i`.  Only when no glyph of the range is empty is that
`count * W * height_bytes` bytes with glyph `i` at `i * W * height_bytes`. -/
theorem shared_width_range_layout (E : export_decls) (blocks : List (List Nat))
    (datafile : DataFile) (range : char_range_t) (index : Nat)
    (blocks1 : List (List Nat)) (crop : cropinfo_t)
    (h : encode_character_range_raw E blocks datafile range index = some (blocks1, crop))
    (hw : crop.width ≠ 0) :
    ∃ data : List Nat, blocks1 = blocks ++ [[], [], data] ∧
      data.length
        = (cropped_range E datafile range).1.countP (fun g => decide (g.data ≠ []))
          * (crop.width * crop.height_bytes) ∧
      (∀ (i : Nat) (g : glyphentry_t), (cropped_range E datafile range).1[i]? = some g →
        ∃ span, encode_glyph g (cropped_range E datafile range).2 [] crop.width = some span ∧
          span.length = (if g.data = [] then 0 else crop.width * crop.height_bytes) ∧
          (data.drop (((cropped_range E datafile range).1.take i).countP
              (fun g => decide (g.data ≠ [])) * (crop.width * crop.height_bytes))).take
            span.length = span) ∧
      ((∀ g ∈ (cropped_range E datafile range).1, g.data ≠ []) →
        data.length
          = (cropped_range E datafile range).1.length * (crop.width * crop.height_bytes)) := by
  obtain ⟨offsets, data, widths, hfmt, _, hshared, hhb, hpx, hne, hd, _, hsome, htab⟩ :=
    encode_character_range_raw_tables E blocks datafile range index blocks1 crop h
  have hstride : (((cropped_range E datafile range).2.max_height + 7) / 8)
      = crop.height_bytes := by rw [hhb, hpx]
  have hlen : data.length
      = (cropped_range E datafile range).1.countP (fun g => decide (g.data ≠ []))
        * (crop.width * crop.height_bytes) := by
    rw [hd, shared_width_spans_length _ _ hw _ hsome, hstride]
  refine ⟨data, hshared hw, hlen, ?_, ?_⟩
  · intro i g hg
    obtain ⟨span, c1, c2, hspan, ht1, _, hl1, htake, hsum, _⟩ :=
      encode_character_range_raw_span E blocks datafile range index blocks1 crop h
        offsets data widths hfmt i g hg
    have hi : i < (cropped_range E datafile range).1.length := by
      by_contra hc
      rw [List.getElem?_eq_none (by omega)] at hg
      exact absurd hg (by simp)
    obtain ⟨c, hc, htc⟩ := htab i (by omega)
    have hcc : c = c1 := by
      rw [htc] at ht1
      simpa using ht1
    subst hcc
    have hstart : ((cropped_range E datafile range).1.take i).countP
        (fun g => decide (g.data ≠ [])) * (crop.width * crop.height_bytes)
        = c * crop.height_bytes := by
      rw [← hc, ← hstride]
      have := shared_width_spans_length (cropped_range E datafile range).2 crop.width hw
        ((cropped_range E datafile range).1.take i)
        (fun g1 hg1 => hsome g1 (List.mem_of_mem_take hg1))
      rw [← this]
      simp [glyph_spans, List.map_take]
    obtain ⟨span1, cols, h1, _, h3, h4, h5⟩ := encode_glyph_columns _ _ _ _ _ hspan
    have e : span = span1 := by simpa using h1
    subst e
    refine ⟨span, hspan, ?_, ?_⟩
    · by_cases hdata : g.data = []
      · rw [h4 hdata]
        simp [hdata]
      · rw [h3, h5 hdata hw, hstride]
        simp [hdata]
    · rw [hstart]
      have e2 : span.length = c2 * crop.height_bytes - c * crop.height_bytes := by omega
      rw [e2, ← List.drop_take, htake, List.drop_left' hl1]
  · intro hall
    rw [hlen]
    congr 1
    rw [List.countP_eq_length]
    intro g hg
    simpa using hall g hg

/-! ## The two range encoders -/

theorem encode_character_range_cases (E : export_decls) (out : List const_table)
    (name : List Nat) (blocks : List (List Nat)) (datafile : DataFile)
    (range : char_range_t) (index : Nat) :
    (encode_character_range E out name datafile range index = none ∧
      encode_character_range_raw E blocks datafile range index = none) ∨
    ∃ (crop : cropinfo_t) (widths offsets data : List Nat),
      (encode_character_range E out name datafile range index
          = some (out ++
              [{ data := data, datatype := uint8_t_name,
                 name := mf_bwfont_stem ++ name ++ glyph_data_tag ++ to_string index,
                 fifth := 1, sixth := none }], crop) ∧
        encode_character_range_raw E blocks datafile range index
          = some (blocks ++ [[], [], data], crop)) ∨
      (encode_character_range E out name datafile range index
          = some (out ++
              [{ data := data, datatype := uint8_t_name,
                 name := mf_bwfont_stem ++ name ++ glyph_data_tag ++ to_string index,
                 fifth := 1, sixth := none },
               { data := offsets, datatype := uint16_t_name,
                 name := mf_bwfont_stem ++ name ++ glyph_offsets_tag ++ to_string index,
                 fifth := 1, sixth := some 4 },
               { data := widths, datatype := uint8_t_name,
                 name := mf_bwfont_stem ++ name ++ glyph_widths_tag ++ to_string index,
                 fifth := 1, sixth := none }], crop) ∧
        encode_character_range_raw E blocks datafile range index
          = some (blocks ++ [widths, offsets, data], crop) ∧
        offsets ≠ []) := by
  simp only [encode_character_range, encode_character_range_raw]
  cases h0 : range.glyph_indices[0]? with
  | none => exact Or.inl ⟨rfl, rfl⟩
  | some first =>
    dsimp only
    cases h1 : datafile.GetGlyphEntry first with
    | none => exact Or.inl ⟨rfl, rfl⟩
    | some first_glyph =>
      dsimp only
      cases h2 : copy_glyphs datafile range.glyph_indices ([], true, first_glyph.width) with
      | none => exact Or.inl ⟨rfl, rfl⟩
      | some r =>
        obtain ⟨glyphs, cw, width⟩ := r
        dsimp only
        cases h3 : format_glyphs (E.crop_glyphs glyphs datafile.GetFontInfo).2
            (((E.crop_glyphs glyphs datafile.GetFontInfo).2.max_height + 7) / 8)
            (if (E.crop_glyphs glyphs datafile.GetFontInfo).2.max_width ≠ width then 0
              else width)
            (E.crop_glyphs glyphs datafile.GetFontInfo).1 ([], [], []) with
        | none => exact Or.inl ⟨rfl, rfl⟩
        | some t =>
          obtain ⟨offsets, data, widths⟩ := t
          dsimp only
          by_cases hstride :
              ((E.crop_glyphs glyphs datafile.GetFontInfo).2.max_height + 7) / 8 = 0
          · left
            simp [hstride]
          · right
            simp only [hstride, if_false]
            refine ⟨cropinfo_t.mk
              (to_size_t (datafile.GetFontInfo.baseline_x
                - (E.crop_glyphs glyphs datafile.GetFontInfo).2.baseline_x))
              (to_size_t (datafile.GetFontInfo.baseline_y
                - (E.crop_glyphs glyphs datafile.GetFontInfo).2.baseline_y))
              (((E.crop_glyphs glyphs datafile.GetFontInfo).2.max_height + 7) / 8)
              (E.crop_glyphs glyphs datafile.GetFontInfo).2.max_height
              (if (E.crop_glyphs glyphs datafile.GetFontInfo).2.max_width ≠ width then 0
                else width), ?_⟩
            by_cases hmw : (E.crop_glyphs glyphs datafile.GetFontInfo).2.max_width = width
            · cases cw with
              | true =>
                refine ⟨[], [], data, Or.inl ⟨?_, ?_⟩⟩
                · simp [hmw]
                · simp [hmw]
              | false =>
                refine ⟨widths, offsets ++ [data.length /
                  (((E.crop_glyphs glyphs datafile.GetFontInfo).2.max_height + 7) / 8)],
                  data, Or.inr ⟨?_, ?_, by simp⟩⟩
                · simp [hmw]
                · simp [hmw]
            · refine ⟨widths, offsets ++ [data.length /
                (((E.crop_glyphs glyphs datafile.GetFontInfo).2.max_height + 7) / 8)],
                data, Or.inr ⟨?_, ?_, by simp⟩⟩
              · simp [hmw]
              · simp [hmw]

/-- C30. The source-table path and the binary-blob path encode a range
identically: for every data file and range, `encode_character_range` fails
exactly when `encode_character_range_raw` does, and otherwise both compute the
same crop information, the glyph data handed to `write_const_table` is the
data block pushed by the other, and for a range that is not of constant width
the offset table and the width table handed to `write_const_table` are the
offset block and the width block pushed by the other; for a range of constant
width the one writes no table and the other pushes two empty blocks. -/
theorem encode_character_range_agrees (E : export_decls) (out : List const_table)
    (name : List Nat) (blocks : List (List Nat)) (datafile : DataFile)
    (range : char_range_t) (index : Nat) :
    (encode_character_range E out name datafile range index = none ↔
      encode_character_range_raw E blocks datafile range index = none) ∧
    ∀ (out1 : List const_table) (crop1 : cropinfo_t) (blocks1 : List (List Nat))
      (crop2 : cropinfo_t),
      encode_character_range E out name datafile range index = some (out1, crop1) →
      encode_character_range_raw E blocks datafile range index = some (blocks1, crop2) →
      crop1 = crop2 ∧
      ∃ (widths offsets data : List Nat),
        (blocks1 = blocks ++ [[], [], data] ∧
          out1 = out ++
            [{ data := data, datatype := uint8_t_name,
               name := mf_bwfont_stem ++ name ++ glyph_data_tag ++ to_string index,
               fifth := 1, sixth := none }]) ∨
        (blocks1 = blocks ++ [widths, offsets, data] ∧ offsets ≠ [] ∧
          out1 = out ++
            [{ data := data, datatype := uint8_t_name,
               name := mf_bwfont_stem ++ name ++ glyph_data_tag ++ to_string index,
               fifth := 1, sixth := none },
             { data := offsets, datatype := uint16_t_name,
               name := mf_bwfont_stem ++ name ++ glyph_offsets_tag ++ to_string index,
               fifth := 1, sixth := some 4 },
             { data := widths, datatype := uint8_t_name,
               name := mf_bwfont_stem ++ name ++ glyph_widths_tag ++ to_string index,
               fifth := 1, sixth := none }]) := by
  rcases encode_character_range_cases E out name blocks datafile range index with
    ⟨hs, hr⟩ | ⟨crop, widths, offsets, data, ⟨hs, hr⟩ | ⟨hs, hr, hne⟩⟩
  · refine ⟨by rw [hs, hr]; simp, ?_⟩
    intro out1 crop1 blocks1 crop2 h1 _
    rw [hs] at h1
    exact absurd h1 (by simp)
  · refine ⟨by rw [hs, hr]; simp, ?_⟩
    intro out1 crop1 blocks1 crop2 h1 h2
    rw [hs] at h1
    rw [hr] at h2
    simp only [Option.some.injEq, Prod.mk.injEq] at h1 h2
    obtain ⟨ho, hc1⟩ := h1
    obtain ⟨hb, hc2⟩ := h2
    exact ⟨by rw [← hc1, ← hc2], widths, offsets, data, Or.inl ⟨hb.symm, ho.symm⟩⟩
  · refine ⟨by rw [hs, hr]; simp, ?_⟩
    intro out1 crop1 blocks1 crop2 h1 h2
    rw [hs] at h1
    rw [hr] at h2
    simp only [Option.some.injEq, Prod.mk.injEq] at h1 h2
    obtain ⟨ho, hc1⟩ := h1
    obtain ⟨hb, hc2⟩ := h2
    exact ⟨by rw [← hc1, ← hc2], widths, offsets, data, Or.inr ⟨hb.symm, hne, ho.symm⟩⟩

/-- Instance of C30: on the range of the sample data file whose middle
codepoint is missing, both paths compute the width 0, the data `2 5 2 4`, the
offsets `0 2 2 4` and the widths `3 0 2`. -/
theorem encode_character_range_agrees_witness :
    ∃ (out1 : List const_table) (crop : cropinfo_t),
      encode_character_range sample_export [] [70] sample_datafile gap_range 0
        = some (out1, crop) ∧
      encode_character_range_raw sample_export [] sample_datafile gap_range 0
        = some ([[3, 0, 2], [0, 2, 2, 4], [2, 5, 2, 4]], crop) ∧
      out1.map (fun t => t.data) = [[2, 5, 2, 4], [0, 2, 2, 4], [3, 0, 2]] := by
  have hraw : encode_character_range_raw sample_export [] sample_datafile gap_range 0
      = some ([[3, 0, 2], [0, 2, 2, 4], [2, 5, 2, 4]],
          { offset_x := 0, offset_y := 0, height_bytes := 1, height_pixels := 3,
            width := 0 }) := by decide
  have hsome : (encode_character_range sample_export [] [70] sample_datafile gap_range
      0).isSome = true := by decide
  cases hsrc : encode_character_range sample_export [] [70] sample_datafile gap_range 0 with
  | none => rw [hsrc] at hsome; exact absurd hsome (by decide)
  | some r =>
    obtain ⟨out1, crop1⟩ := r
    obtain ⟨hcrop, widths, offsets, data, hcase⟩ :=
      (encode_character_range_agrees sample_export [] [70] [] sample_datafile gap_range
        0).2 out1 crop1 _ _ hsrc hraw
    refine ⟨out1, crop1, rfl, by rw [hcrop]; exact hraw, ?_⟩
    rcases hcase with ⟨hb, _⟩ | ⟨hb, _, ho⟩
    · simp at hb
    · simp only [List.nil_append, List.cons.injEq, and_true] at hb
      obtain ⟨e1, e2, e3⟩ := hb
      subst e1 e2 e3
      rw [ho]
      rfl

/-! ## The whitespace box of an unmapped codepoint -/

theorem to_uint8_le (v : Int) : to_uint8 v ≤ 255 := by
  simp only [to_uint8]
  omega

theorem running_min_shape (val : Run → Int) (runs : List Run) :
    (∃ c, c ≤ 255 ∧ ∀ m, m ≤ 255 → running_min val runs m = c) ∨
    (∃ a, ∀ m, m ≤ 255 → running_min val runs m = min m a) := by
  induction runs with
  | nil =>
    right
    refine ⟨255, fun m hm => ?_⟩
    simp only [running_min, List.foldl_nil]
    omega
  | cons r rest ih =>
    have hstep : ∀ m, running_min val (r :: rest) m
        = running_min val rest (if (m : Int) > val r then to_uint8 (val r) else m) :=
      fun m => by simp [running_min]
    rcases ih with ⟨c, hc, hconst⟩ | ⟨a, hmin⟩
    · left
      refine ⟨c, hc, fun m hm => ?_⟩
      rw [hstep]
      apply hconst
      split_ifs
      · exact to_uint8_le _
      · exact hm
    · by_cases hneg : val r < 0
      · left
        refine ⟨min (to_uint8 (val r)) a, ?_, fun m hm => ?_⟩
        · have := to_uint8_le (val r)
          omega
        · rw [hstep]
          have hgt : (m : Int) > val r := by omega
          simp only [hgt, if_true]
          exact hmin _ (to_uint8_le _)
      · by_cases hbig : val r ≥ 255
        · right
          refine ⟨a, fun m hm => ?_⟩
          rw [hstep]
          have hgt : ¬ (m : Int) > val r := by omega
          simp only [hgt, if_false]
          exact hmin m hm
        · right
          refine ⟨min (to_uint8 (val r)) a, fun m hm => ?_⟩
          rw [hstep]
          have hconv : ((to_uint8 (val r) : Nat) : Int) = val r := by
            simp only [to_uint8]
            omega
          split_ifs with hgt
          · rw [hmin _ (to_uint8_le _)]
            omega
          · rw [hmin m hm]
            omega

theorem running_min_twice (val : Run → Int) (runs : List Run) (m : Nat) (hm : m ≤ 255) :
    running_min val runs (running_min val runs m) = running_min val runs m := by
  rcases running_min_shape val runs with ⟨c, hc, hconst⟩ | ⟨a, hmin⟩
  · rw [hconst m hm, hconst c hc]
  · rw [hmin m hm, hmin _ (by omega)]
    omega

theorem running_max_shape (val : Run → Int) (runs : List Run) :
    (∃ c, c ≤ 255 ∧ ∀ m, m ≤ 255 → running_max val runs m = c) ∨
    (∃ a, a ≤ 255 ∧ ∀ m, m ≤ 255 → running_max val runs m = max m a) := by
  induction runs with
  | nil =>
    right
    refine ⟨0, by omega, fun m hm => ?_⟩
    simp only [running_max, List.foldl_nil]
    omega
  | cons r rest ih =>
    have hstep : ∀ m, running_max val (r :: rest) m
        = running_max val rest (if (m : Int) < val r then to_uint8 (val r) else m) :=
      fun m => by simp [running_max]
    rcases ih with ⟨c, hc, hconst⟩ | ⟨a, ha, hmax⟩
    · left
      refine ⟨c, hc, fun m hm => ?_⟩
      rw [hstep]
      apply hconst
      split_ifs
      · exact to_uint8_le _
      · exact hm
    · by_cases hbig : val r > 255
      · left
        refine ⟨max (to_uint8 (val r)) a, ?_, fun m hm => ?_⟩
        · have := to_uint8_le (val r)
          omega
        · rw [hstep]
          have hlt : (m : Int) < val r := by omega
          simp only [hlt, if_true]
          exact hmax _ (to_uint8_le _)
      · by_cases hneg : val r ≤ 0
        · right
          refine ⟨a, ha, fun m hm => ?_⟩
          rw [hstep]
          have hlt : ¬ (m : Int) < val r := by omega
          simp only [hlt, if_false]
          exact hmax m hm
        · right
          have hconv : ((to_uint8 (val r) : Nat) : Int) = val r := by
            simp only [to_uint8]
            omega
          refine ⟨max (to_uint8 (val r)) a, ?_, fun m hm => ?_⟩
          · have := to_uint8_le (val r)
            omega
          · rw [hstep]
            split_ifs with hlt
            · rw [hmax _ (to_uint8_le _)]
              omega
            · rw [hmax m hm]
              omega

theorem running_max_twice (val : Run → Int) (runs : List Run) (m : Nat) (hm : m ≤ 255) :
    running_max val runs (running_max val runs m) = running_max val runs m := by
  rcases running_max_shape val runs with ⟨c, hc, hconst⟩ | ⟨a, ha, hmax⟩
  · rw [hconst m hm, hconst c hc]
  · rw [hmax m hm, hmax _ (by omega)]
    omega

theorem deliver_whitespace_twice (runs : List Run) (s : whitespace_state)
    (h1 : s.min_x ≤ 255) (h2 : s.min_y ≤ 255) (h3 : s.max_x ≤ 255) (h4 : s.max_y ≤ 255) :
    deliver whitespace_callback runs (deliver whitespace_callback runs s)
      = deliver whitespace_callback runs s := by
  have hext : ∀ a b : whitespace_state, a.min_x = b.min_x → a.min_y = b.min_y →
      a.max_x = b.max_x → a.max_y = b.max_y → a = b := by
    intro a b e1 e2 e3 e4
    cases a
    cases b
    simp only at e1 e2 e3 e4
    subst e1 e2 e3 e4
    rfl
  have hink : ∀ r ∈ inked runs, r.alpha > 7 := by
    intro r hr
    simp only [inked, List.mem_filter, decide_eq_true_eq] at hr
    exact hr.2
  rw [deliver_whitespace_inked runs (deliver whitespace_callback runs s),
    deliver_whitespace_inked runs s]
  obtain ⟨a1, a2, a3, a4⟩ := deliver_whitespace_fields (inked runs) s hink
  obtain ⟨b1, b2, b3, b4⟩ := deliver_whitespace_fields (inked runs)
    (deliver whitespace_callback (inked runs) s) hink
  apply hext
  · rw [b1, a1, running_min_twice _ _ _ h1]
  · rw [b2, a2, running_min_twice _ _ _ h2]
  · rw [b3, a3, running_max_twice _ _ _ h3]
  · rw [b4, a4, running_max_twice _ _ _ h4]

/-- C31. Whitespace follows the fallback: for every font and every codepoint
`c` for which the variant, called at the origin, emits no pixels and returns
0, `mf_character_whitespace(font, c)` reports the same left, top, right and
bottom as `mf_character_whitespace(font, font.fallback_character)`, also when
the glyph of the fallback is itself of advance 0 and is therefore rendered
twice. -/
theorem mf_character_whitespace_follows_fallback (font : mf_font_s) (c : Nat)
    (hunmapped : font.render_character 0 0 c = (0, [])) :
    mf_character_whitespace font c
      = mf_character_whitespace font font.fallback_character := by
  have hstate : (mf_render_character font 0 0 c whitespace_callback
        { min_x := 255, min_y := 255, max_x := 0, max_y := 0 }).state
      = (mf_render_character font 0 0 font.fallback_character whitespace_callback
        { min_x := 255, min_y := 255, max_x := 0, max_y := 0 }).state := by
    by_cases hw : (font.render_character 0 0 font.fallback_character).1 = 0
    · simp only [mf_render_character, hunmapped, hw, if_true]
      rw [deliver_whitespace_twice _ _ (by decide) (by decide) (by decide) (by decide)]
      rfl
    · simp only [mf_render_character, hunmapped, hw, if_true, if_false]
      rfl
  simp only [mf_character_whitespace, hstate]

/-- Instance of C31: in the font whose fallback is an accent of advance 0
with ink in columns 1 and 2 of row 2, the unmapped codepoint 66 has the box of
the fallback, left 1, top 2, right 2, bottom 5. -/
theorem mf_character_whitespace_follows_fallback_witness :
    accent_font.render_character 0 0 66 = (0, []) ∧
    mf_character_whitespace accent_font 66
      = mf_character_whitespace accent_font accent_font.fallback_character ∧
    mf_character_whitespace accent_font 66
      = { left := 1, top := 2, right := 2, bottom := 5 } :=
  ⟨by decide,
   mf_character_whitespace_follows_fallback accent_font 66 (by decide),
   by decide⟩

/-! ## The reads of the glyph packer -/

/-- C32. `encode_glyph` never reads outside the alpha matrix of the glyph.
For a glyph whose matrix has exactly `max_width * max_height` entries and a
column count of at most `max_width`: the detection of the column count ends
with a count of at most `max_width`, every index `y * max_width + x` it reads
and every index `(y + i) * max_width + x` the packing reads, for a column `x`
below the count, a row `y` of the glyph and `i` below `min(8, max_height - y)`,
is below `max_width * max_height` and holds an entry, each byte is packed and
`encode_glyph` returns, no bounds-checked access having failed.  A glyph with
an empty matrix, of which every access would fail, is skipped: `encode_glyph`
returns the destination as it was, whatever the box and the column count. -/
theorem encode_glyph_reads_in_bounds (glyph : glyphentry_t) (fontinfo : fontinfo_t)
    (dest : List Nat) (num_cols : Nat) :
    (glyph.data.length = fontinfo.max_width * fontinfo.max_height →
      num_cols ≤ fontinfo.max_width →
      ∃ (cols : Nat) (span : List Nat),
        find_num_cols glyph fontinfo num_cols = some cols ∧
        cols ≤ fontinfo.max_width ∧
        encode_glyph glyph fontinfo dest num_cols = some (dest ++ span) ∧
        (∀ x y, x < fontinfo.max_width → y < fontinfo.max_height →
          y * fontinfo.max_width + x < fontinfo.max_width * fontinfo.max_height ∧
          ∃ a, glyph.data[y * fontinfo.max_width + x]? = some a) ∧
        (∀ x y i, x < cols → y < fontinfo.max_height →
          i < min 8 (fontinfo.max_height - y) →
          (y + i) * fontinfo.max_width + x < fontinfo.max_width * fontinfo.max_height ∧
          ∃ a, glyph.data[(y + i) * fontinfo.max_width + x]? = some a) ∧
        (∀ x y, x < cols → ∃ byte, pack_byte glyph fontinfo x y = some byte)) ∧
    (glyph.data = [] →
      encode_glyph glyph fontinfo dest num_cols = some dest ∧
      ∀ index : Nat, glyph.data[index]? = none) := by
  refine ⟨?_, ?_⟩
  · intro hsize hcols
    have hread : ∀ x r, x < fontinfo.max_width → r < fontinfo.max_height →
        r * fontinfo.max_width + x < fontinfo.max_width * fontinfo.max_height ∧
        ∃ a, glyph.data[r * fontinfo.max_width + x]? = some a := by
      intro x r hx hr
      have hlt := pixel_index_lt _ _ _ _ hx hr
      exact ⟨hlt, _, pixel_read _ _ (by rw [hsize]; exact hlt)⟩
    have hrest : ∀ cols, cols ≤ fontinfo.max_width →
        (∀ x y, x < fontinfo.max_width → y < fontinfo.max_height →
          y * fontinfo.max_width + x < fontinfo.max_width * fontinfo.max_height ∧
          ∃ a, glyph.data[y * fontinfo.max_width + x]? = some a) ∧
        (∀ x y i, x < cols → y < fontinfo.max_height →
          i < min 8 (fontinfo.max_height - y) →
          (y + i) * fontinfo.max_width + x < fontinfo.max_width * fontinfo.max_height ∧
          ∃ a, glyph.data[(y + i) * fontinfo.max_width + x]? = some a) ∧
        (∀ x y, x < cols → ∃ byte, pack_byte glyph fontinfo x y = some byte) := by
      intro cols hle
      refine ⟨hread, ?_, ?_⟩
      · intro x y i hx _ hi
        exact hread x (y + i) (by omega) (by omega)
      · intro x y hx
        obtain ⟨byte, hb, _⟩ := pack_byte_bits glyph fontinfo x y hsize (by omega)
        exact ⟨byte, hb⟩
    by_cases hne : glyph.data = []
    · obtain ⟨cols, hfind, hle, _⟩ := find_num_cols_given glyph fontinfo num_cols hsize hcols
      refine ⟨cols, [], hfind, hle, ?_, hrest cols hle⟩
      simp [encode_glyph, hne]
    · obtain ⟨cols, hfind, hle, _, henc, _⟩ :=
        encode_glyph_span glyph fontinfo dest num_cols hne hsize hcols
      exact ⟨cols, _, hfind, hle, henc, hrest cols hle⟩
  · intro hempty
    refine ⟨by simp [encode_glyph, hempty], ?_⟩
    intro index
    simp [hempty]

/-- Instance of C32: the first glyph of the sample data file, 3 by 3 with 9
entries, is packed with the detected column count; the empty dummy is skipped
in the same box under the column count 3; and a matrix of one entry in that
box makes the detection fail on its second read. -/
theorem encode_glyph_reads_in_bounds_witness :
    (∃ (cols : Nat) (span : List Nat),
      find_num_cols { data := [0, 16, 0, 9, 0, 0, 0, 8, 0], width := 3 }
        sample_datafile.fontinfo 0 = some cols ∧
      cols ≤ sample_datafile.fontinfo.max_width ∧
      encode_glyph { data := [0, 16, 0, 9, 0, 0, 0, 8, 0], width := 3 }
        sample_datafile.fontinfo [7] 0 = some ([7] ++ span)) ∧
    encode_glyph { data := [], width := 0 } sample_datafile.fontinfo [7] 3 = some [7] ∧
    encode_glyph { data := [16], width := 1 } sample_datafile.fontinfo [7] 0 = none := by
  obtain ⟨cols, span, h1, h2, h3, _⟩ :=
    (encode_glyph_reads_in_bounds { data := [0, 16, 0, 9, 0, 0, 0, 8, 0], width := 3 }
      sample_datafile.fontinfo [7] 0).1 (by decide) (by decide)
  exact ⟨⟨cols, span, h1, h2, h3⟩,
    ((encode_glyph_reads_in_bounds { data := [], width := 0 }
      sample_datafile.fontinfo [7] 3).2 rfl).1,
    by decide⟩

/-! ## The loader under a nonzero supported version -/

theorem encode_ranges_trace (E : export_decls) (datafile : DataFile)
    (ranges : List char_range_t) (blocks : List (List Nat)) (crops : List cropinfo_t)
    (h : encode_ranges E datafile ranges ranges.length 0 ([], []) = some (blocks, crops)) :
    ∀ i, i < ranges.length →
      ∃ (range : char_range_t) (crop : cropinfo_t) (widths offsets data : List Nat)
        (prev : List (List Nat)),
        ranges[i]? = some range ∧ crops[i]? = some crop ∧
        blocks[i * 3 + 0]? = some widths ∧ blocks[i * 3 + 1]? = some offsets ∧
        blocks[i * 3 + 2]? = some data ∧
        encode_character_range_raw E prev datafile range i
          = some (prev ++ [widths, offsets, data], crop) := by
  have key := for_loop_partial
    (fun i (s : List (List Nat) × List cropinfo_t) =>
      s.1.length = 3 * i ∧ s.2.length = i ∧
      ∀ j, j < i →
        ∃ (range : char_range_t) (crop : cropinfo_t) (widths offsets data : List Nat)
          (prev : List (List Nat)),
          ranges[j]? = some range ∧ s.2[j]? = some crop ∧
          s.1[j * 3 + 0]? = some widths ∧ s.1[j * 3 + 1]? = some offsets ∧
          s.1[j * 3 + 2]? = some data ∧
          encode_character_range_raw E prev datafile range j
            = some (prev ++ [widths, offsets, data], crop))
    (fun i s =>
      match ranges[i]? with
      | none => none
      | some range =>
        match encode_character_range_raw E s.1 datafile range i with
        | none => none
        | some r => some (r.1, s.2 ++ [r.2]))
    ranges.length 0 ([], []) (blocks, crops)
    ⟨rfl, rfl, fun j hj => absurd hj (Nat.not_lt_zero _)⟩
    (by
      intro i s s1 _ _ hP hbody
      obtain ⟨hl1, hl2, hprev⟩ := hP
      beta_reduce at hbody
      split at hbody
      · exact absurd hbody (by simp)
      · rename_i range hrange
        split at hbody
        · exact absurd hbody (by simp)
        · rename_i r henc
          simp only [Option.some.injEq] at hbody
          subst hbody
          obtain ⟨widths, offsets, data, hb, _, _⟩ :=
            encode_character_range_raw_spec E s.1 datafile range i r.1 r.2 henc
          have henc2 : encode_character_range_raw E s.1 datafile range i
              = some (s.1 ++ [widths, offsets, data], r.2) := by
            rw [henc, ← hb]
          refine ⟨?_, ?_, ?_⟩
          · simp only [hb, List.length_append, List.length_cons, List.length_nil, hl1]
            omega
          · simp only [List.length_append, List.length_cons, List.length_nil, hl2]
          · intro j hj
            rcases Nat.lt_succ_iff_lt_or_eq.1 hj with hlt | heq
            · obtain ⟨range1, crop1, w1, o1, d1, p1, g1, g2, g3, g4, g5, g6⟩ := hprev j hlt
              refine ⟨range1, crop1, w1, o1, d1, p1, g1, ?_, ?_, ?_, ?_, g6⟩
              · rw [List.getElem?_append_left (by omega)]
                exact g2
              · simp only [hb]
                rw [List.getElem?_append_left (by omega)]
                exact g3
              · simp only [hb]
                rw [List.getElem?_append_left (by omega)]
                exact g4
              · simp only [hb]
                rw [List.getElem?_append_left (by omega)]
                exact g5
            · subst heq
              refine ⟨range, r.2, widths, offsets, data, s.1, hrange, ?_, ?_, ?_, ?_, henc2⟩
              · rw [List.getElem?_append_right (by omega)]
                simp [hl2]
              · simp only [hb]
                rw [List.getElem?_append_right (by omega)]
                have e : j * 3 + 0 - s.1.length = 0 := by omega
                rw [e]
                rfl
              · simp only [hb]
                rw [List.getElem?_append_right (by omega)]
                have e : j * 3 + 1 - s.1.length = 1 := by omega
                rw [e]
                rfl
              · simp only [hb]
                rw [List.getElem?_append_right (by omega)]
                have e : j * 3 + 2 - s.1.length = 2 := by omega
                rw [e]
                rfl)
    (by simpa only [encode_ranges] using h)
  have hk := key.2.2
  intro i hi
  exact hk i (by simpa using hi)

theorem encode_character_range_raw_recorded (E : export_decls) (prev : List (List Nat))
    (datafile : DataFile) (range : char_range_t) (index : Nat)
    (widths offsets data : List Nat) (crop : cropinfo_t)
    (h : encode_character_range_raw E prev datafile range index
      = some (prev ++ [widths, offsets, data], crop)) :
    (crop.width = 0 ∨ crop.width = (cropped_range E datafile range).2.max_width) ∧
    (crop.width ≠ 0 → widths = [] ∧ offsets = []) ∧
    (0 < (cropped_range E datafile range).2.max_width → crop.width = 0 →
      widths.length = (cropped_range E datafile range).1.length ∧
      offsets.length = (cropped_range E datafile range).1.length + 1) := by
  obtain ⟨first_glyph, cw, offsets0, data0, widths0, _, hcw, hw, _, _, _, _, _, hfmt, hblocks⟩ :=
    encode_character_range_raw_inv E prev datafile range index _ crop h
  obtain ⟨hlen, hwlen⟩ := format_glyphs_spec _ _ _ _ _ _ _ _ _ _ hfmt
  have hcancel := List.append_cancel_left hblocks
  cases hc : cw with
  | true =>
    rw [hc] at hw hcancel
    simp only [if_true, List.cons.injEq, and_true] at hw hcancel
    obtain ⟨e1, e2, _⟩ := hcancel
    have hmw := (hcw.1 hc).2
    refine ⟨Or.inr (by rw [hw, hmw]), fun _ => ⟨e1, e2⟩, ?_⟩
    intro hpos hz
    omega
  | false =>
    rw [hc] at hw hcancel
    simp only [Bool.false_eq_true, if_false, List.cons.injEq, and_true] at hw hcancel
    obtain ⟨e1, e2, _⟩ := hcancel
    refine ⟨Or.inl hw, fun hne => absurd hw hne, ?_⟩
    intro _ _
    subst e1 e2
    simp only [List.length_nil, List.length_append, List.length_cons] at hlen hwlen ⊢
    omega

theorem write_case_anatomy (E : export_decls) (name : List Nat) (datafile : DataFile)
    (out : List Nat) (h : write_case E name datafile = some out) :
    ∃ (blocks : List (List Nat)) (crops : List cropinfo_t) (records blobs : List (List Nat)),
      encode_ranges E datafile (case_ranges E datafile) (case_ranges E datafile).length 0
        ([], []) = some (blocks, crops) ∧
      out = case_header E name datafile ++ records.flatten ++ blobs.flatten ∧
      records.length = (case_ranges E datafile).length ∧
      blobs.length = (case_ranges E datafile).length ∧
      ∀ i, i < (case_ranges E datafile).length →
        ∃ (range : char_range_t) (crop : cropinfo_t) (widths offsets data : List Nat)
          (prev : List (List Nat)) (woff ooff doff : List Nat),
          (case_ranges E datafile)[i]? = some range ∧ crops[i]? = some crop ∧
          blocks[i * 3 + 0]? = some widths ∧ blocks[i * 3 + 1]? = some offsets ∧
          blocks[i * 3 + 2]? = some data ∧
          encode_character_range_raw E prev datafile range i
            = some (prev ++ [widths, offsets, data], crop) ∧
          records[i]? = some (write_u16 range.first_char ++ write_u16 range.char_count
            ++ put crop.offset_x ++ put crop.offset_y ++ put crop.height_bytes
            ++ put crop.height_pixels ++ put crop.width ++ woff ++ ooff ++ doff) ∧
          woff.length = 4 ∧ ooff.length = 4 ∧ doff.length = 4 ∧
          blobs[i]? = some (serial_bytes widths ++ serial_words offsets ++ serial_bytes data) ∧
          little_endian doff
            = (case_header E name datafile ++ records.flatten ++ (blobs.take i).flatten
                ++ serial_bytes widths ++ serial_words offsets).length % 4294967296 ∧
          (crop.width = 0 →
            little_endian woff
              = (case_header E name datafile ++ records.flatten
                  ++ (blobs.take i).flatten).length % 4294967296 ∧
            little_endian ooff
              = (case_header E name datafile ++ records.flatten ++ (blobs.take i).flatten
                  ++ serial_bytes widths).length % 4294967296) ∧
          (crop.width ≠ 0 →
            woff = [0, 0, 0, 0] ∧ ooff = [0, 0, 0, 0] ∧ widths = [] ∧ offsets = []) := by
  obtain ⟨blocks, crops, henc, hout⟩ := write_case_layout E name datafile out h
  obtain ⟨hblocks, hcrops, _⟩ := encode_ranges_spec E datafile _ blocks crops henc
  have htrace := encode_ranges_trace E datafile _ blocks crops henc
  have hrecs := flatten_uniform_length _ 21
    (records_uniform (case_ranges E datafile) crops blocks
      ((case_header E name datafile).length + 21 * (case_ranges E datafile).length) hcrops)
  simp only [List.length_map, List.length_range] at hrecs
  refine ⟨blocks, crops, _, _, henc, hout, by simp, by simp, ?_⟩
  intro i hi
  obtain ⟨range, crop, widths, offsets, data, prev, g1, g2, g3, g4, g5, graw⟩ := htrace i hi
  have g6 := (encode_character_range_raw_recorded E prev datafile range i widths offsets
    data crop graw).2.1
  have d0 : blocks.getD (i * 3 + 0) [] = widths := by
    simp only [List.getD_eq_getElem?_getD, g3]; rfl
  have d1 : blocks.getD (i * 3 + 1) [] = offsets := by
    simp only [List.getD_eq_getElem?_getD, g4]; rfl
  have d2 : blocks.getD (i * 3 + 2) [] = data := by
    simp only [List.getD_eq_getElem?_getD, g5]; rfl
  have hblob : range_blob blocks i
      = serial_bytes widths ++ serial_words offsets ++ serial_bytes data := by
    simp only [range_blob, d0, d1, d2]
  have hpos : (case_header E name datafile
      ++ ((List.range (case_ranges E datafile).length).map
          (record_of (case_ranges E datafile) crops blocks
            ((case_header E name datafile).length
              + 21 * (case_ranges E datafile).length))).flatten
      ++ (((List.range (case_ranges E datafile).length).map
          (range_blob blocks)).take i).flatten).length
      = (case_header E name datafile).length + 21 * (case_ranges E datafile).length
        + blobs_before blocks i := by
    simp only [List.length_append, hrecs, blobs_take blocks _ i (Nat.le_of_lt hi)]
    omega
  have hrecord : ((List.range (case_ranges E datafile).length).map
      (record_of (case_ranges E datafile) crops blocks
        ((case_header E name datafile).length
          + 21 * (case_ranges E datafile).length)))[i]?
      = some (range_record range crop widths offsets
          ((case_header E name datafile).length + 21 * (case_ranges E datafile).length
            + blobs_before blocks i)) := by
    rw [List.getElem?_map, List.getElem?_range hi]
    simp only [Option.map_some', record_of, g1, g2, d0, d1]
  have hblobi : ((List.range (case_ranges E datafile).length).map (range_blob blocks))[i]?
      = some (serial_bytes widths ++ serial_words offsets ++ serial_bytes data) := by
    rw [List.getElem?_map, List.getElem?_range hi]
    simp only [Option.map_some', hblob]
  by_cases hw : crop.width ≠ 0
  · obtain ⟨e1, e2⟩ := g6 hw
    refine ⟨range, crop, widths, offsets, data, prev, write_u32 0, write_u32 0,
      write_u32 ((case_header E name datafile).length + 21 * (case_ranges E datafile).length
        + blobs_before blocks i),
      g1, g2, g3, g4, g5, graw, ?_, rfl, rfl, rfl, hblobi, ?_, fun h0 => absurd h0 hw,
      fun _ => ⟨rfl, rfl, e1, e2⟩⟩
    · rw [hrecord]
      simp only [range_record, if_pos hw, List.append_assoc]
    · rw [little_endian_write_u32]
      simp only [List.length_append] at hpos ⊢
      simp only [e1, e2, serial_bytes, serial_words, List.map_nil, List.flatten_nil,
        List.length_nil, Nat.add_zero]
      rw [hpos]
  · have hw0 : crop.width = 0 := by omega
    refine ⟨range, crop, widths, offsets, data, prev,
      write_u32 ((case_header E name datafile).length + 21 * (case_ranges E datafile).length
        + blobs_before blocks i),
      write_u32 ((case_header E name datafile).length + 21 * (case_ranges E datafile).length
        + blobs_before blocks i + widths.length),
      write_u32 ((case_header E name datafile).length + 21 * (case_ranges E datafile).length
        + blobs_before blocks i + widths.length + 2 * offsets.length),
      g1, g2, g3, g4, g5, graw, ?_, rfl, rfl, rfl, hblobi, ?_, fun _ => ⟨?_, ?_⟩,
      fun hne => absurd hw0 hne⟩
    · rw [hrecord]
      simp only [range_record, if_neg hw, List.append_assoc]
    · rw [little_endian_write_u32]
      simp only [List.length_append] at hpos ⊢
      rw [hpos, serial_bytes_length, serial_words_length]
    · rw [little_endian_write_u32, hpos]
    · rw [little_endian_write_u32]
      simp only [List.length_append] at hpos ⊢
      rw [hpos, serial_bytes_length]

/-! ## The offsets and the tables of a written range -/

theorem record_width_byte (out header : List Nat) (records blobs : List (List Nat))
    (fixed woff ooff doff : List Nat) (width_byte : Nat)
    (hout : out = header ++ records.flatten ++ blobs.flatten)
    (hrec : records[0]? = some (fixed ++ [width_byte] ++ woff ++ ooff ++ doff))
    (hfixed : fixed.length = 8) :
    out.getD (header.length + 8) 0 = width_byte := by
  have hr : ∃ rest, records = (fixed ++ [width_byte] ++ woff ++ ooff ++ doff) :: rest := by
    cases records with
    | nil => simp at hrec
    | cons r rest =>
      simp only [List.getElem?_cons_zero, Option.some.injEq] at hrec
      exact ⟨rest, by rw [hrec]⟩
  obtain ⟨rest, hr⟩ := hr
  rw [hout, hr]
  simp only [List.flatten_cons, List.append_assoc, List.getD_eq_getElem?_getD]
  rw [List.getElem?_append_right (by omega)]
  have e : header.length + 8 - header.length = fixed.length := by omega
  rw [e, List.getElem?_append_right (by omega)]
  simp

set_option maxRecDepth 100000 in
/-- C18, refuted: for a data file whose one glyph and cropped box are 256
wide, the range is written with the width byte 0 (offset 29) and both its
width-table offset and its offset-table offset are 0, the position of the
magic: the stream of 298 bytes holds no table, the records end at 42 and the
glyph data starts there, as the third offset says. -/
theorem write_case_zero_width_byte_zero_offsets :
    (write_case sample_export [97] wide_datafile).map
        (fun out => (out.getD 29 0, little_endian ((out.drop 30).take 4),
          little_endian ((out.drop 34).take 4), little_endian ((out.drop 38).take 4),
          out.length))
      = some (0, 0, 0, 42, 298) := by
  decide

/-- C18, amended. Every byte offset `write_case` stores is the position of
its block in the stream, modulo 2^32: the stream is the header, the records
and the blocks of the ranges in order, and for every range `i` the last u32 of
record `i` is the number of bytes that precede the glyph data of the range,
and for every range written with the width byte 0 whose cropped box is less
than 256 wide the first and the second u32 are the numbers of bytes that
precede its width table and its offset table. -/
theorem write_case_offsets_are_positions (E : export_decls) (name : List Nat)
    (datafile : DataFile) (out : List Nat) (h : write_case E name datafile = some out) :
    ∃ (blocks : List (List Nat)) (crops : List cropinfo_t) (records blobs : List (List Nat)),
      encode_ranges E datafile (case_ranges E datafile) (case_ranges E datafile).length 0
        ([], []) = some (blocks, crops) ∧
      out = case_header E name datafile ++ records.flatten ++ blobs.flatten ∧
      records.length = (case_ranges E datafile).length ∧
      blobs.length = (case_ranges E datafile).length ∧
      ∀ i, i < (case_ranges E datafile).length →
        ∃ (range : char_range_t) (width_byte : Nat)
          (widths offsets data fixed woff ooff doff : List Nat),
          (case_ranges E datafile)[i]? = some range ∧
          blocks[i * 3 + 0]? = some widths ∧ blocks[i * 3 + 1]? = some offsets ∧
          blocks[i * 3 + 2]? = some data ∧
          records[i]? = some (fixed ++ [width_byte] ++ woff ++ ooff ++ doff) ∧
          fixed.length = 8 ∧ woff.length = 4 ∧ ooff.length = 4 ∧ doff.length = 4 ∧
          blobs[i]? = some (serial_bytes widths ++ serial_words offsets ++ serial_bytes data) ∧
          little_endian doff
            = (case_header E name datafile ++ records.flatten ++ (blobs.take i).flatten
                ++ serial_bytes widths ++ serial_words offsets).length % 4294967296 ∧
          ((cropped_range E datafile range).2.max_width < 256 → width_byte = 0 →
            little_endian woff
              = (case_header E name datafile ++ records.flatten
                  ++ (blobs.take i).flatten).length % 4294967296 ∧
            little_endian ooff
              = (case_header E name datafile ++ records.flatten ++ (blobs.take i).flatten
                  ++ serial_bytes widths).length % 4294967296) := by
  obtain ⟨blocks, crops, records, blobs, h1, h2, h3, h4, h5⟩ :=
    write_case_anatomy E name datafile out h
  refine ⟨blocks, crops, records, blobs, h1, h2, h3, h4, ?_⟩
  intro i hi
  obtain ⟨range, crop, widths, offsets, data, prev, woff, ooff, doff, g1, _, g3, g4, g5,
    graw, g6, g7, g8, g9, g10, g11, g12, _⟩ := h5 i hi
  obtain ⟨hwidth, _, _⟩ :=
    encode_character_range_raw_recorded E prev datafile range i widths offsets data crop graw
  refine ⟨range, crop.width % 256, widths, offsets, data,
    write_u16 range.first_char ++ write_u16 range.char_count ++ put crop.offset_x
      ++ put crop.offset_y ++ put crop.height_bytes ++ put crop.height_pixels,
    woff, ooff, doff, g1, g3, g4, g5, ?_, by simp [write_u16, put], g7, g8, g9, g10, g11, ?_⟩
  · rw [g6]
    simp only [put, List.append_assoc]
  · intro hbox hbyte
    apply g12
    omega

/-- Instance of C18 amended: in the stream of the sample data file, 55
bytes, the one range is written with the width byte 0 in a box 3 wide, and the
first two offsets of its record are the positions of its tables. -/
theorem write_case_offsets_are_positions_witness :
    write_case sample_export [97] sample_datafile = some sample_stream ∧
    ∃ (records blobs : List (List Nat)),
      sample_stream = case_header sample_export [97] sample_datafile ++ records.flatten
        ++ blobs.flatten ∧
      ∃ (widths fixed woff ooff doff : List Nat),
        records[0]? = some (fixed ++ [0] ++ woff ++ ooff ++ doff) ∧
        fixed.length = 8 ∧ woff.length = 4 ∧ ooff.length = 4 ∧ doff.length = 4 ∧
        little_endian woff
          = (case_header sample_export [97] sample_datafile ++ records.flatten
              ++ (blobs.take 0).flatten).length % 4294967296 ∧
        little_endian ooff
          = (case_header sample_export [97] sample_datafile ++ records.flatten
              ++ (blobs.take 0).flatten ++ serial_bytes widths).length % 4294967296 := by
  refine ⟨by decide, ?_⟩
  obtain ⟨_, _, records, blobs, _, h2, _, _, h5⟩ :=
    write_case_offsets_are_positions sample_export [97] sample_datafile sample_stream
      (by decide)
  obtain ⟨range, width_byte, widths, _, _, fixed, woff, ooff, doff, g1, _, _, _, g5, g6, g7,
    g8, g9, _, _, g12⟩ := h5 0 (by decide)
  have hr : range = { first_char := 65, char_count := 2, glyph_indices := [0, 1] } := by
    have e : (case_ranges sample_export sample_datafile)[0]?
        = some { first_char := 65, char_count := 2, glyph_indices := [0, 1] } := by decide
    rw [e] at g1
    simpa using g1.symm
  subst hr
  have hbyte := record_width_byte _ _ _ _ _ _ _ _ _ h2 g5 g6
  have hz : width_byte = 0 := by
    rw [← hbyte]
    decide
  subst hz
  obtain ⟨p1, p2⟩ := g12 (by decide) rfl
  exact ⟨records, blobs, h2, widths, fixed, woff, ooff, doff, g5, g6, g7, g8, g9, p1, p2⟩

/-- C20, amended. Every range written by `write_case` whose cropped box is
between 1 and 255 wide, whose cropping keeps one glyph per slot and which has
`char_count` slots has either a shared width or tables, never neither.  If
the width byte of its record is nonzero, both table offsets are written as 0
and the range has no width table and no offset table, this for every range; if
the width byte is 0, a width table of `char_count` bytes and an offset table
of `char_count + 1` little-endian u16 entries are written for the range, at
the positions, modulo 2^32, that its record stores. -/
theorem write_case_width_or_tables (E : export_decls) (name : List Nat)
    (datafile : DataFile) (out : List Nat) (h : write_case E name datafile = some out) :
    ∃ (blocks : List (List Nat)) (crops : List cropinfo_t) (records blobs : List (List Nat)),
      encode_ranges E datafile (case_ranges E datafile) (case_ranges E datafile).length 0
        ([], []) = some (blocks, crops) ∧
      out = case_header E name datafile ++ records.flatten ++ blobs.flatten ∧
      records.length = (case_ranges E datafile).length ∧
      blobs.length = (case_ranges E datafile).length ∧
      ∀ i, i < (case_ranges E datafile).length →
        ∃ (range : char_range_t) (width_byte : Nat)
          (widths offsets data fixed woff ooff doff : List Nat),
          (case_ranges E datafile)[i]? = some range ∧
          blocks[i * 3 + 0]? = some widths ∧ blocks[i * 3 + 1]? = some offsets ∧
          blocks[i * 3 + 2]? = some data ∧
          records[i]? = some (fixed ++ [width_byte] ++ woff ++ ooff ++ doff) ∧
          fixed.length = 8 ∧ woff.length = 4 ∧ ooff.length = 4 ∧ doff.length = 4 ∧
          blobs[i]? = some (serial_bytes widths ++ serial_words offsets ++ serial_bytes data) ∧
          (width_byte ≠ 0 →
            woff = [0, 0, 0, 0] ∧ ooff = [0, 0, 0, 0] ∧ widths = [] ∧ offsets = []) ∧
          (0 < (cropped_range E datafile range).2.max_width →
            (cropped_range E datafile range).2.max_width < 256 →
            (cropped_range E datafile range).1.length = range.glyph_indices.length →
            range.glyph_indices.length = range.char_count →
            width_byte = 0 →
            widths.length = range.char_count ∧
            (serial_bytes widths).length = range.char_count ∧
            offsets.length = range.char_count + 1 ∧
            (serial_words offsets).length = 2 * (range.char_count + 1) ∧
            little_endian woff
              = (case_header E name datafile ++ records.flatten
                  ++ (blobs.take i).flatten).length % 4294967296 ∧
            little_endian ooff
              = (case_header E name datafile ++ records.flatten ++ (blobs.take i).flatten
                  ++ serial_bytes widths).length % 4294967296) := by
  obtain ⟨blocks, crops, records, blobs, h1, h2, h3, h4, h5⟩ :=
    write_case_anatomy E name datafile out h
  refine ⟨blocks, crops, records, blobs, h1, h2, h3, h4, ?_⟩
  intro i hi
  obtain ⟨range, crop, widths, offsets, data, prev, woff, ooff, doff, g1, _, g3, g4, g5,
    graw, g6, g7, g8, g9, g10, _, g12, g13⟩ := h5 i hi
  obtain ⟨hwidth, _, htab⟩ :=
    encode_character_range_raw_recorded E prev datafile range i widths offsets data crop graw
  refine ⟨range, crop.width % 256, widths, offsets, data,
    write_u16 range.first_char ++ write_u16 range.char_count ++ put crop.offset_x
      ++ put crop.offset_y ++ put crop.height_bytes ++ put crop.height_pixels,
    woff, ooff, doff, g1, g3, g4, g5, ?_, by simp [write_u16, put], g7, g8, g9, g10, ?_, ?_⟩
  · rw [g6]
    simp only [put, List.append_assoc]
  · intro hbyte
    apply g13
    intro hz
    rw [hz] at hbyte
    exact hbyte rfl
  · intro hpos hbox hkeep hslots hbyte
    have hz : crop.width = 0 := by omega
    obtain ⟨t1, t2⟩ := htab hpos hz
    obtain ⟨p1, p2⟩ := g12 hz
    refine ⟨by omega, by rw [serial_bytes_length]; omega, by omega,
      by rw [serial_words_length]; omega, p1, p2⟩

/-- Instance of C20 amended: the sample data file has one range of two
slots in a box 3 wide, written with the width byte 0, a width table of 2
entries and an offset table of 3 entries. -/
theorem write_case_width_or_tables_witness :
    write_case sample_export [97] sample_datafile = some sample_stream ∧
    ∃ (blocks records : List (List Nat)) (widths offsets fixed woff ooff doff : List Nat),
      blocks[0 * 3 + 0]? = some widths ∧ blocks[0 * 3 + 1]? = some offsets ∧
      records[0]? = some (fixed ++ [0] ++ woff ++ ooff ++ doff) ∧ fixed.length = 8 ∧
      widths.length = 2 ∧ offsets.length = 2 + 1 := by
  refine ⟨by decide, ?_⟩
  obtain ⟨blocks, _, records, blobs, _, h2, _, _, h5⟩ :=
    write_case_width_or_tables sample_export [97] sample_datafile sample_stream (by decide)
  obtain ⟨range, width_byte, widths, offsets, _, fixed, woff, ooff, doff, g1, g3, g4, _, g5,
    g6, _, _, _, _, _, g12⟩ := h5 0 (by decide)
  have hr : range = { first_char := 65, char_count := 2, glyph_indices := [0, 1] } := by
    have e : (case_ranges sample_export sample_datafile)[0]?
        = some { first_char := 65, char_count := 2, glyph_indices := [0, 1] } := by decide
    rw [e] at g1
    simpa using g1.symm
  subst hr
  have hbyte := record_width_byte _ _ _ _ _ _ _ _ _ h2 g5 g6
  have hz : width_byte = 0 := by
    rw [← hbyte]
    decide
  subst hz
  obtain ⟨t1, _, t3, _⟩ := g12 (by decide) (by decide) (by decide) (by decide) rfl
  exact ⟨blocks, records, widths, offsets, fixed, woff, ooff, doff, g3, g4, g5, g6, t1, t3⟩

/-! ## The placeholder of a missing glyph -/

/-- C24, for a range that is written with tables.  When cropping keeps one
glyph per slot and leaves the empty dummy of a missing glyph as it is, and the
range encoder emits a width table and an offset table for the range: the width
table has one entry per slot and the offset table one more, the range is
recorded with width 0, every slot whose glyph index is negative has the
width-table entry 0, adds no byte to the glyph data and has
`offsets[i] = offsets[i+1]`, and entry `j` of either table is that of slot `j`,
whose bytes start at `offsets[j] * height_bytes`.  A range recorded with a
shared width gets no table, and so no entry for such a slot. -/
theorem range_missing_glyph_placeholder (E : export_decls) (blocks : List (List Nat))
    (datafile : DataFile) (range : char_range_t) (index : Nat)
    (widths table data : List Nat) (crop : cropinfo_t)
    (h : encode_character_range_raw E blocks datafile range index
      = some (blocks ++ [widths, table, data], crop))
    (hemit : table ≠ [])
    (hkeep : (cropped_range E datafile range).1.length = range.glyph_indices.length)
    (hdummy : ∀ (i : Nat) (gi : Int), range.glyph_indices[i]? = some gi → gi < 0 →
      (cropped_range E datafile range).1[i]?
        = some ({ data := [], width := 0 } : glyphentry_t)) :
    widths.length = range.glyph_indices.length ∧
    table.length = range.glyph_indices.length + 1 ∧
    crop.width = 0 ∧
    (∀ (i : Nat) (gi : Int), range.glyph_indices[i]? = some gi → gi < 0 →
      widths[i]? = some 0 ∧
      table.getD i 0 = table.getD (i + 1) 0 ∧
      (∀ dest, encode_glyph { data := [], width := 0 } (cropped_range E datafile range).2
        dest crop.width = some dest)) ∧
    (∀ (j : Nat) (g : glyphentry_t), (cropped_range E datafile range).1[j]? = some g →
      widths[j]? = some g.width ∧
      ∃ span, encode_glyph g (cropped_range E datafile range).2 [] crop.width = some span ∧
        (data.drop (table.getD j 0 * crop.height_bytes)).take span.length = span) := by
  obtain ⟨offsets0, data0, widths0, hfmt, hblocks, _, _, _, hne, _, _, _, _⟩ :=
    encode_character_range_raw_tables E blocks datafile range index _ crop h
  have hshape : widths = widths0 ∧ table = offsets0 ++ [data0.length / crop.height_bytes] ∧
      data = data0 ∧ crop.width = 0 := by
    rcases hblocks with ⟨hb, hz⟩ | hb
    · have hc := List.append_cancel_left hb
      simp only [List.cons.injEq, and_true] at hc
      exact ⟨hc.1, hc.2.1, hc.2.2, hz⟩
    · have hc := List.append_cancel_left hb
      simp only [List.cons.injEq, and_true] at hc
      exact absurd hc.2.1 hemit
  obtain ⟨e1, e2, e3, hz⟩ := hshape
  subst e1 e2 e3
  obtain ⟨hlen, hwlen⟩ := format_glyphs_spec _ _ _ _ _ _ _ _ _ _ hfmt
  refine ⟨?_, ?_, hz, ?_, ?_⟩
  · simp only [List.length_nil] at hwlen
    omega
  · simp only [List.length_append, List.length_cons, List.length_nil] at hlen ⊢
    omega
  · intro i gi hgi hneg
    obtain ⟨span, c1, c2, hspan, ht1, ht2, _, _, hsum, hwi⟩ :=
      encode_character_range_raw_span E blocks datafile range index _ crop h
        offsets0 data widths hfmt i _ (hdummy i gi hgi hneg)
    have hs : span = [] := by
      simp only [encode_glyph, List.length_nil, if_true, Option.some.injEq] at hspan
      exact hspan.symm
    subst hs
    refine ⟨hwi, ?_, ?_⟩
    · simp only [List.getD_eq_getElem?_getD, ht1, ht2, Option.getD_some]
      simp only [List.length_nil, Nat.add_zero] at hsum
      exact (Nat.eq_of_mul_eq_mul_right (Nat.pos_of_ne_zero hne) hsum).symm
    · intro dest
      simp [encode_glyph]
  · intro j g hg
    obtain ⟨span, c1, c2, hspan, ht1, _, hl1, htake, hsum, hwj⟩ :=
      encode_character_range_raw_span E blocks datafile range index _ crop h
        offsets0 data widths hfmt j g hg
    refine ⟨hwj, span, hspan, ?_⟩
    simp only [List.getD_eq_getElem?_getD, ht1, Option.getD_some]
    have e : span.length = c2 * crop.height_bytes - c1 * crop.height_bytes := by omega
    rw [e, ← List.drop_take, htake, List.drop_left' hl1]

/-- Instance of C24: the range of the sample data file whose middle
codepoint is missing is written with tables, and the middle slot has the width
entry 0 and equal offsets.  The range of the two framed glyphs of shared width
3 with the same gap gets no table: its blocks are two empty tables and 6 bytes
of data, the glyph of slot 2 at bytes 3 to 5. -/
theorem range_missing_glyph_placeholder_witness :
    encode_character_range_raw sample_export [] sample_datafile gap_range 0
      = some ([] ++ [[3, 0, 2], [0, 2, 2, 4], [2, 5, 2, 4]],
          { offset_x := 0, offset_y := 0, height_bytes := 1, height_pixels := 3,
            width := 0 }) ∧
    gap_range.glyph_indices[1]? = some (-1) ∧
    ([3, 0, 2] : List Nat)[1]? = some 0 ∧
    ([0, 2, 2, 4] : List Nat).getD 1 0 = ([0, 2, 2, 4] : List Nat).getD (1 + 1) 0 ∧
    ([3, 0, 2] : List Nat).length = gap_range.glyph_indices.length ∧
    encode_character_range_raw sample_export [] framed_datafile gap_range 0
      = some ([[], [], [1, 0, 4, 4, 0, 1]],
          { offset_x := 0, offset_y := 0, height_bytes := 1, height_pixels := 3,
            width := 3 }) := by
  have hrun : encode_character_range_raw sample_export [] sample_datafile gap_range 0
      = some ([] ++ [[3, 0, 2], [0, 2, 2, 4], [2, 5, 2, 4]],
          { offset_x := 0, offset_y := 0, height_bytes := 1, height_pixels := 3,
            width := 0 }) := by decide
  obtain ⟨h1, _, _, h4, _⟩ :=
    range_missing_glyph_placeholder sample_export [] sample_datafile gap_range 0
      [3, 0, 2] [0, 2, 2, 4] [2, 5, 2, 4]
      { offset_x := 0, offset_y := 0, height_bytes := 1, height_pixels := 3, width := 0 }
      hrun (by decide) (by decide) (by
        intro i gi hgi hneg
        have hi : i < 3 := by
          by_contra hc
          have hlen : gap_range.glyph_indices.length = 3 := rfl
          rw [List.getElem?_eq_none (by omega)] at hgi
          exact absurd hgi (by simp)
        interval_cases i
        · simp only [gap_range, List.getElem?_cons_zero, Option.some.injEq] at hgi
          omega
        · rfl
        · simp only [gap_range, List.getElem?_cons_succ, List.getElem?_cons_zero,
            Option.some.injEq] at hgi
          omega)
  obtain ⟨h6, h7, _⟩ := h4 1 (-1) (by decide) (by decide)
  exact ⟨hrun, by decide, h6, h7, h1, by decide⟩

/-- Instance of C28, the failing range: three slots of shared width 3 and
stride 1, the middle one missing, the two glyphs with ink in the first and the
last column.  The glyph data has 6 bytes where the claim has `3 * 3 * 1 = 9`,
and the glyph of slot 2 lies at bytes 3 to 5, not 6 to 8. -/
theorem shared_width_range_layout_witness :
    encode_character_range_raw sample_export [] framed_datafile gap_range 0
      = some ([[], [], [1, 0, 4, 4, 0, 1]],
          { offset_x := 0, offset_y := 0, height_bytes := 1, height_pixels := 3,
            width := 3 }) ∧
    (3 : Nat) ≠ 0 ∧
    gap_range.char_count * 3 * 1 = 9 ∧
    ∃ data : List Nat, [[], [], [1, 0, 4, 4, 0, 1]] = [] ++ [[], [], data] ∧
      data.length = 2 * (3 * 1) ∧
      ∃ span, encode_glyph { data := [0, 0, 16, 0, 0, 0, 16, 0, 0], width := 3 }
          framed_datafile.fontinfo [] 3 = some span ∧
        (data.drop (1 * (3 * 1))).take span.length = span := by
  refine ⟨by decide, by decide, by decide, ?_⟩
  obtain ⟨data, h1, h2, h3, _⟩ :=
    shared_width_range_layout sample_export [] framed_datafile gap_range 0
      [[], [], [1, 0, 4, 4, 0, 1]]
      { offset_x := 0, offset_y := 0, height_bytes := 1, height_pixels := 3, width := 3 }
      (by decide) (by decide)
  obtain ⟨span, h4, _, h6⟩ := h3 2 { data := [0, 0, 16, 0, 0, 0, 16, 0, 0], width := 3 }
    (by decide)
  exact ⟨data, h1, h2, span, h4, h6⟩

end Mcufont
